import Mathlib

/-!
# n-point correlation search (`n_point.cc`)

A shallow embedding of `NPointAlg::PointsViolateSymmetry_`,
`NPointAlg::BaseCaseHelper_`, `NPointAlg::BaseCase_` and
`NPointAlg::DepthFirstRecursion_`.

Conventions of the embedding.

* `index_t` and `int` values that are point indices, node bounds or counts are
  `Int`; loop counters that only run upwards from `0` are `Nat`.
* The tuple count (`int result`, `int num_tuples_here`) is kept twice: in `ℕ`,
  as the number of `result++` executed, in `BaseCaseHelper_`, `BaseCase_` and
  `DepthFirstRecursion_`; and as the 32-bit `int` of the source in
  `BaseCaseHelperInt_`, `BaseCaseInt_` and `DepthFirstRecursionInt_`, which
  return the former reduced to 32 bits (`BaseCaseInt_eq`,
  `DepthFirstRecursionInt_eq`).
* `double` is exact rational arithmetic (`ℚ`).
* An `ArrayList` is a `List`; reading or writing outside its bounds has no
  defined result and is the fault `none`.
* Reference parameters that the code mutates are threaded through as explicit
  state: a function returns the final contents together with its C++ result.
* The matcher is a collaborator: a pure function of its arguments that returns
  its C++ result together with the narrowed permutation-status vector.
-/

namespace NPoint

/-- The matcher as the search engine consumes it. `D` is the type of squared
distances, `B` the type of bounding regions. Both tests return their C++
result paired with the final contents of the status vector they were given. -/
structure Matcher (D B : Type) where
  num_permutations : Nat
  TestPointPair : D → Nat → Nat → List Bool → Bool × List Bool
  TestHrectPair : B → B → Nat → Nat → List Int → Int × List Int

/-- A partition-tree node: `begin()`, `end()`, `count()`, `bound()` and, for an
internal node, `left()` and `right()`. A leaf is a node without children. -/
inductive NPointNode (B : Type) where
  | leaf (begin end_ count : Int) (bound : B) : NPointNode B
  | inner (begin end_ count : Int) (bound : B) (left right : NPointNode B) : NPointNode B
  deriving DecidableEq

namespace NPointNode

variable {B : Type}

def begin : NPointNode B → Int
  | leaf b _ _ _ => b
  | inner b _ _ _ _ _ => b

def end_ : NPointNode B → Int
  | leaf _ e _ _ => e
  | inner _ e _ _ _ _ => e

def count : NPointNode B → Int
  | leaf _ _ c _ => c
  | inner _ _ c _ _ _ => c

def bound : NPointNode B → B
  | leaf _ _ _ bd => bd
  | inner _ _ _ bd _ _ => bd

def is_leaf : NPointNode B → Bool
  | leaf _ _ _ _ => true
  | inner _ _ _ _ _ _ => false

/-- The left child; a leaf has none (a null pointer in the source). -/
def left : NPointNode B → Option (NPointNode B)
  | leaf _ _ _ _ => none
  | inner _ _ _ _ l _ => some l

/-- The right child; a leaf has none (a null pointer in the source). -/
def right : NPointNode B → Option (NPointNode B)
  | leaf _ _ _ _ => none
  | inner _ _ _ _ _ r => some r

end NPointNode

/-- The fields of an `NPointAlg` object that the four functions read.

* `DistanceSqEuclidean i j` is `la::DistanceSqEuclidean` of columns `i` and `j`
  of `data_points_`.
* `SUBSUME` and `EXCLUDE` are the status constants of the matcher's header.
* `debug` tells whether the build defines `DEBUG` (so that `DEBUG_ASSERT` and
  `DEBUG_ONLY` are active).
* `uninitialized` is the indeterminate value found in freshly allocated,
  not yet written array cells. -/
structure NPointAlg (D B : Type) where
  matcher_ : Matcher D B
  tuple_size_ : Nat
  num_tuples_ : Int
  data_weights_ : Int → ℚ
  DistanceSqEuclidean : Int → Int → D
  SUBSUME : Int
  EXCLUDE : Int
  debug : Bool
  uninitialized : Int

variable {D B : Type}

/-- Source lines 13-15: true when the indices violate the symmetry requirement. -/
def PointsViolateSymmetry_ (ind1 ind2 : Int) : Bool :=
  decide (ind2 ≤ ind1)

/-- The variables of the loop over previously chosen points (lines 51-71). -/
structure PairLoopState where
  bad_symmetry : Bool
  this_point_works : Bool
  permutation_ok_copy : List Bool
  deriving DecidableEq

/-- Lines 51-71: the loop `for (j = 0; !bad_symmetry && this_point_works && j < k; j++)`,
run over the remaining values of `j`. -/
def previousPointsLoop (alg : NPointAlg D B) (points_in_tuple : List Int)
    (point_index_i : Int) (k : Nat) : List Nat → PairLoopState → Option PairLoopState
  | [], s => some s
  | j :: js, s =>
    if !s.bad_symmetry && s.this_point_works then
      match points_in_tuple[j]? with
      | none => none
      | some point_index_j =>
        let bad_symmetry := PointsViolateSymmetry_ point_index_j point_index_i
        if !bad_symmetry then
          let r := alg.matcher_.TestPointPair
            (alg.DistanceSqEuclidean point_index_i point_index_j) j k s.permutation_ok_copy
          previousPointsLoop alg points_in_tuple point_index_i k js ⟨bad_symmetry, r.1, r.2⟩
        else
          previousPointsLoop alg points_in_tuple point_index_i k js
            ⟨bad_symmetry, s.this_point_works, s.permutation_ok_copy⟩
    else some s

/-- Lines 89-93: `these_weights *= data_weights_[points_in_tuple[a]]` for the
remaining values of `a`. -/
def weightLoop (alg : NPointAlg D B) (points_in_tuple : List Int) : List Nat → ℚ → Option ℚ
  | [], these_weights => some these_weights
  | a :: rest, these_weights =>
    match points_in_tuple[a]? with
    | none => none
    | some p => weightLoop alg points_in_tuple rest (these_weights * alg.data_weights_ p)

/-- Lines 33-109: the loop over the candidates of position `k`, run over the
remaining candidates. `recurse` is the call of `BaseCaseHelper_` at `k + 1`
(line 100). The result is `(result, points_in_tuple, *weighted_result)`. -/
def candidateLoop (alg : NPointAlg D B)
    (recurse : List Bool → List Int → ℚ → Option (Nat × List Int × ℚ))
    (permutation_ok : List Bool) (k : Nat) :
    List Int → Bool → Nat → List Int → ℚ → Option (Nat × List Int × ℚ)
  | [], _, result, points_in_tuple, weighted_result =>
    some (result, points_in_tuple, weighted_result)
  | point_index_i :: rest, bad_symmetry, result, points_in_tuple, weighted_result =>
    if bad_symmetry then some (result, points_in_tuple, weighted_result)
    else
      match previousPointsLoop alg points_in_tuple point_index_i k (List.range k)
          ⟨bad_symmetry, true, permutation_ok⟩ with
      | none => none
      | some s =>
        if s.this_point_works && !s.bad_symmetry then
          if k < points_in_tuple.length then
            let placed := points_in_tuple.set k point_index_i
            if (k : Int) == (alg.tuple_size_ : Int) - 1 then
              match weightLoop alg placed (List.range alg.num_tuples_.toNat) 1 with
              | none => none
              | some these_weights =>
                candidateLoop alg recurse permutation_ok k rest s.bad_symmetry (result + 1)
                  (if alg.debug then placed.set k (-1) else placed)
                  (weighted_result + these_weights)
            else
              match recurse s.permutation_ok_copy placed weighted_result with
              | none => none
              | some (r, after, w) =>
                candidateLoop alg recurse permutation_ok k rest s.bad_symmetry (result + r)
                  (if alg.debug then after.set k (-1) else after) w
          else none
        else
          candidateLoop alg recurse permutation_ok k rest s.bad_symmetry result
            points_in_tuple weighted_result

/-- Lines 17-113. The first argument after `point_sets` bounds the number of
positions still to fill; `BaseCase_` passes `point_sets.size()`, and a call at
position `k` needs `point_sets[k]`, so the bound runs out exactly when
`point_sets[k]` would be read out of bounds. -/
def BaseCaseHelper_ (alg : NPointAlg D B) (point_sets : List (List Int)) :
    Nat → List Bool → List Int → ℚ → Nat → Option (Nat × List Int × ℚ)
  | 0, _, _, _, _ => none
  | levels + 1, permutation_ok, points_in_tuple, weighted_result, k =>
    match point_sets[k]? with
    | none => none
    | some k_rows =>
      candidateLoop alg
        (fun ok pts w => BaseCaseHelper_ alg point_sets levels ok pts w (k + 1))
        permutation_ok k k_rows false 0 points_in_tuple weighted_result

/-- Lines 116-139. Returns `(result, *weighted_result)`. -/
def BaseCase_ (alg : NPointAlg D B) (point_sets : List (List Int)) (weighted_result : ℚ) :
    Option (Nat × ℚ) :=
  let permutation_ok := List.replicate alg.matcher_.num_permutations true
  let points_in_tuple :=
    List.replicate alg.tuple_size_ (if alg.debug then (-1 : Int) else alg.uninitialized)
  match BaseCaseHelper_ alg point_sets point_sets.length permutation_ok points_in_tuple
      weighted_result 0 with
  | none => none
  | some (result, _, w) => some (result, w)

/-- The variables of the main loop of `DepthFirstRecursion_` (lines 152-163)
together with the field `num_exclusion_prunes_`. -/
structure ScanState where
  all_leaves : Bool
  split_index : Int
  split_count : Int
  permutation_ok : List Int
  num_exclusion_prunes_ : Nat
  deriving DecidableEq

/-- How the main loop is left: through one of its `return` statements, with the
returned value, or by running to its end. -/
inductive ScanExit where
  | returned (num_tuples_here : Nat) (s : ScanState) : ScanExit
  | completed (s : ScanState) : ScanExit
  deriving DecidableEq

/-- Lines 181-217: the loop over `j`, run over the remaining values of `j`. -/
def pairLoop (alg : NPointAlg D B) (nodes : List (NPointNode B)) (node_i : NPointNode B)
    (i : Nat) : List Nat → ScanState → Option ScanExit
  | [], s => some (ScanExit.completed s)
  | j :: js, s =>
    match nodes[j]? with
    | none => none
    | some node_j =>
      if node_j.end_ ≤ node_i.begin then some (ScanExit.returned 0 s)
      else
        let r := alg.matcher_.TestHrectPair node_i.bound node_j.bound i j s.permutation_ok
        if r.1 == alg.EXCLUDE then
          some (ScanExit.returned 0
            ⟨s.all_leaves, s.split_index, s.split_count, r.2, s.num_exclusion_prunes_ + 1⟩)
        else
          pairLoop alg nodes node_i i js
            ⟨s.all_leaves, s.split_index, s.split_count, r.2, s.num_exclusion_prunes_⟩

/-- Lines 170-179: the leaf test and the choice of the split candidate. -/
def noteNode (node_i : NPointNode B) (i : Nat) (s : ScanState) : ScanState :=
  if !node_i.is_leaf then
    if node_i.count > s.split_count then
      ⟨false, (i : Int), node_i.count, s.permutation_ok, s.num_exclusion_prunes_⟩
    else
      ⟨false, s.split_index, s.split_count, s.permutation_ok, s.num_exclusion_prunes_⟩
  else s

/-- Lines 166-219: the main loop, run over the remaining values of `i`. -/
def mainLoop (alg : NPointAlg D B) (nodes : List (NPointNode B)) :
    List Nat → ScanState → Option ScanExit
  | [], s => some (ScanExit.completed s)
  | i :: rest, s =>
    match nodes[i]? with
    | none => none
    | some node_i =>
      match pairLoop alg nodes node_i i (List.range' (i + 1) (alg.tuple_size_ - (i + 1)))
          (noteNode node_i i s) with
      | none => none
      | some (ScanExit.returned v s2) => some (ScanExit.returned v s2)
      | some (ScanExit.completed s2) => mainLoop alg nodes rest s2

/-- Lines 235-244: the lists of point indices of the nodes, for the remaining
positions: list `i` holds `j + nodes[i]->begin()` for `j < nodes[i]->count()`. -/
def fillPointSets (nodes : List (NPointNode B)) : List Nat → Option (List (List Int))
  | [] => some []
  | i :: rest =>
    match nodes[i]? with
    | none => none
    | some node_i =>
      match fillPointSets nodes rest with
      | none => none
      | some sets =>
        some ((List.range node_i.count.toNat).map (fun (j : Nat) => (j : Int) + node_i.begin)
          :: sets)

/-- Lines 143-278. The first argument bounds the depth of the recursion (the
source recurses on a finite tree); the result is
`(num_tuples_here, nodes, num_exclusion_prunes_)`, the array and the counter as
the call leaves them. -/
def DepthFirstRecursion_ (alg : NPointAlg D B) :
    Nat → List (NPointNode B) → Int → Nat → Option (Nat × List (NPointNode B) × Nat)
  | 0, _, _, _ => none
  | depth + 1, nodes, _, num_exclusion_prunes_ =>
    if alg.debug && nodes.length != alg.tuple_size_ then none
    else
      match mainLoop alg nodes (List.range alg.tuple_size_)
          ⟨true, -1, -1, List.replicate alg.matcher_.num_permutations alg.SUBSUME,
            num_exclusion_prunes_⟩ with
      | none => none
      | some (ScanExit.returned v s) => some (v, nodes, s.num_exclusion_prunes_)
      | some (ScanExit.completed s) =>
        if s.all_leaves then
          match fillPointSets nodes (List.range alg.tuple_size_) with
          | none => none
          | some point_sets =>
            match BaseCase_ alg point_sets 0 with
            | none => none
            | some (result, _) => some (result, nodes, s.num_exclusion_prunes_)
        else if s.split_index < 0 then none
        else
          match nodes[s.split_index.toNat]? with
          | none => none
          | some split_node =>
            match split_node.left, split_node.right with
            | some l, some r =>
              match DepthFirstRecursion_ alg depth (nodes.set s.split_index.toNat l)
                  s.split_index s.num_exclusion_prunes_ with
              | none => none
              | some (n1, nodes1, prunes1) =>
                match DepthFirstRecursion_ alg depth (nodes1.set s.split_index.toNat r)
                    s.split_index prunes1 with
                | none => none
                | some (n2, nodes2, prunes2) =>
                  some (0 + n1 + n2, nodes2.set s.split_index.toNat split_node, prunes2)
            | _, _ => none

/-! ### A functional reading of the enumerator

The same loops as above, on the list of placed indices instead of the array
`points_in_tuple`, and without the array faults. `BaseCaseHelper_` is related
to it by `BaseCaseHelper_eq` below. -/

/-- Lines 51-71 for candidate `c` at position `k`, on the placed indices from
position `j` on. -/
def checkAgainst (alg : NPointAlg D B) (c : Int) (k : Nat) :
    Nat → List Int → List Bool → PairLoopState
  | _, [], ok => ⟨false, true, ok⟩
  | j, p :: rest, ok =>
    if PointsViolateSymmetry_ p c then ⟨true, true, ok⟩
    else
      let r := alg.matcher_.TestPointPair (alg.DistanceSqEuclidean c p) j k ok
      if r.1 then checkAgainst alg c k (j + 1) rest r.2 else ⟨false, false, r.2⟩

/-- Lines 89-93 on a complete tuple: the product of the weights of its first
`num_tuples_` indices. -/
def tupleWeight (alg : NPointAlg D B) (t : List Int) : ℚ :=
  (t.take alg.num_tuples_.toNat).foldl (fun w p => w * alg.data_weights_ p) 1

/-- Lines 33-109 on the placed indices: count and weight added by the remaining
candidates of position `k`; `complete c ok` is what the levels below add once
`c` is placed. The loop ends at the first candidate that sets `bad_symmetry`. -/
def enumCandidates (alg : NPointAlg D B) (k : Nat) (placed : List Int) (ok : List Bool)
    (complete : Int → List Bool → Nat × ℚ) : List Int → Nat × ℚ
  | [] => (0, 0)
  | c :: cs =>
    if (checkAgainst alg c k 0 placed ok).bad_symmetry then (0, 0)
    else if (checkAgainst alg c k 0 placed ok).this_point_works then
      ((complete c (checkAgainst alg c k 0 placed ok).permutation_ok_copy).1
          + (enumCandidates alg k placed ok complete cs).1,
        (complete c (checkAgainst alg c k 0 placed ok).permutation_ok_copy).2
          + (enumCandidates alg k placed ok complete cs).2)
    else enumCandidates alg k placed ok complete cs

/-- Lines 17-113 on the placed indices: count and weight added by the remaining
positions, whose candidate lists are given. -/
def enumTuples (alg : NPointAlg D B) : List (List Int) → List Int → List Bool → Nat × ℚ
  | [], placed, _ => (1, tupleWeight alg placed)
  | k_rows :: rest, placed, ok =>
    enumCandidates alg placed.length placed ok
      (fun c ok1 => enumTuples alg rest (placed ++ [c]) ok1) k_rows

/-- The weight loop of line 91 runs past the end of `points_in_tuple`: a tuple
was completed and `num_tuples_` exceeds the length `tuple_size_` of the array. -/
def WeightFault (alg : NPointAlg D B) (count : Nat) : Prop :=
  0 < count ∧ (alg.tuple_size_ : Int) < alg.num_tuples_

instance (alg : NPointAlg D B) (count : Nat) : Decidable (WeightFault alg count) := by
  unfold WeightFault; infer_instance

/-- What the candidate loop needs of the call at position `k + 1`. -/
def RecurseSpec (alg : NPointAlg D B) (placed : List Int) (k : Nat)
    (recurse : List Bool → List Int → ℚ → Option (Nat × List Int × ℚ))
    (complete : Int → List Bool → Nat × ℚ) : Prop :=
  ∀ (c : Int) (ok1 : List Bool) (pts : List Int) (w : ℚ),
    pts.length = alg.tuple_size_ → pts.take (k + 1) = placed ++ [c] →
    ∃ after : List Int, after.length = alg.tuple_size_ ∧ after.take (k + 1) = placed ++ [c] ∧
      recurse ok1 pts w
        = if WeightFault alg (complete c ok1).1 then none
          else some ((complete c ok1).1, after, w + (complete c ok1).2)

/-! ### The brute-force count -/

/-- All tuples with one index drawn from each position's list. -/
def tuplesOf : List (List Int) → List (List Int)
  | [] => [[]]
  | k_rows :: rest => (k_rows.map (fun c => (tuplesOf rest).map (fun t => c :: t))).flatten

/-- `TestPointPair` applied to the pairs `(j, k)` of the index `c` at position
`k` with the indices at the earlier positions, `j` ascending from the given
position, each call on the validity vector as the call before left it. -/
def matchAgainst (alg : NPointAlg D B) (c : Int) (k : Nat) :
    Nat → List Int → List Bool → Bool × List Bool
  | _, [], ok => (true, ok)
  | j, p :: rest, ok =>
    if (alg.matcher_.TestPointPair (alg.DistanceSqEuclidean c p) j k ok).1 then
      matchAgainst alg c k (j + 1) rest
        (alg.matcher_.TestPointPair (alg.DistanceSqEuclidean c p) j k ok).2
    else (false, (alg.matcher_.TestPointPair (alg.DistanceSqEuclidean c p) j k ok).2)

/-- The point-level test on the remaining positions of a tuple whose earlier
positions hold `placed`: every call of `TestPointPair`, taken for `k` ascending
and `j` ascending within `k`, returns true. -/
def acceptedFrom (alg : NPointAlg D B) : List Int → List Int → List Bool → Bool
  | [], _, _ => true
  | c :: t, placed, ok =>
    (matchAgainst alg c placed.length 0 placed ok).1 &&
      acceptedFrom alg t (placed ++ [c]) (matchAgainst alg c placed.length 0 placed ok).2

/-- The matcher's point-level test accepts the tuple, starting from an all-true
validity vector. -/
def tupleAccepted (alg : NPointAlg D B) (t : List Int) : Bool :=
  acceptedFrom alg t [] (List.replicate alg.matcher_.num_permutations true)

/-- The number of tuples, one index from each position's list, whose indices
are strictly increasing across positions and which the point-level test
accepts. -/
def bruteForceCount (alg : NPointAlg D B) (point_sets : List (List Int)) : Nat :=
  ((tuplesOf point_sets).filter
    (fun t => decide (t.Sorted (fun a b => a < b)) && tupleAccepted alg t)).length

/-- The ordering assumption written at source lines 47-50 ("once a point
violates symmetry, all the other points will too"): for every index `p` of an
earlier position's list and candidates `c` before `d` in a later position's
list, `c ≤ p` implies `d ≤ p`. `pool` holds the indices of the earlier lists. -/
def symmetryContiguous : List Int → List (List Int) → Bool
  | _, [] => true
  | pool, k_rows :: rest =>
    pool.all (fun p => decide (k_rows.Pairwise (fun c d => c ≤ p → d ≤ p))) &&
      symmetryContiguous (pool ++ k_rows) rest

/-! ### Concrete inputs -/

/-- A matcher with one permutation that accepts a point pair iff its squared
distance is at most `r2`. Its bound test is inconclusive on every pair of
regions (status `2`, neither `SUBSUME = 1` nor `EXCLUDE = 0`). -/
def withinMatcher (r2 : Int) : Matcher Int Unit :=
  ⟨1, fun d _ _ ok => (decide (d ≤ r2), ok), fun _ _ _ _ st => (2, st)⟩

/-- Points on a line, point `i` at coordinate `x i`, every weight `weight i`,
searched for `tuple_size` points pairwise within squared distance `r2`, in a
non-debug build with `num_tuples_ = 0`. -/
def lineAlg (x : Int → Int) (weight : Int → ℚ) (tuple_size : Nat) (r2 : Int) :
    NPointAlg Int Unit :=
  ⟨withinMatcher r2, tuple_size, 0, weight, fun i j => (x i - x j) * (x i - x j), 1, 0,
    false, 0⟩

/-- The coordinates 0, 1, 2, 3, 10 of the points 0 to 4. -/
def fivePoints (i : Int) : Int :=
  if i = 4 then 10 else i

/-- A valid partition tree: the range `[begin, end)` of every node holds its
`count ≥ 0` points, and the children of an internal node split its range. -/
def NPointNode.validPartition : NPointNode B → Bool
  | NPointNode.leaf b e c _ => decide (e = b + c) && decide (0 ≤ c)
  | NPointNode.inner b e c _ l r =>
    decide (e = b + c) && decide (0 ≤ c) && decide (l.begin = b) && decide (l.end_ = r.begin)
      && decide (r.end_ = e) && l.validPartition && r.validPartition

/-- A leaf holding the points `b, ..., e - 1`. -/
def leafOver (b e : Int) : NPointNode Unit :=
  NPointNode.leaf b e (e - b) ()

/-- An internal node over the ranges of its two children. -/
def nodeOver (l r : NPointNode Unit) : NPointNode Unit :=
  NPointNode.inner l.begin r.end_ (r.end_ - l.begin) () l r

/-- The number of index pairs `(i, j)` with `i < j < N` whose squared distance
is at most `r2`. -/
def closePairCount (alg : NPointAlg Int B) (r2 : Int) (N : Nat) : Nat :=
  ((List.range N).map (fun j =>
    ((List.range j).filter (fun i => decide (alg.DistanceSqEuclidean j i ≤ r2))).length)).sum

/-! ### The pair scan, as the specification describes it -/

/-- The pairs of positions `(i, j)` with `i < j < n`, in lexicographic order. -/
def pairsLex (n : Nat) : List (Nat × Nat) :=
  (List.range n).flatMap (fun i => (List.range' (i + 1) (n - (i + 1))).map (fun j => (i, j)))

/-- The scan of the given pairs, each tested with the status array as the
earlier pairs narrowed it, reaches a pair for which `TestHrectPair` returns
`EXCLUDE` (no earlier pair having ended the call). -/
def reachesExclude (alg : NPointAlg D B) (nodes : List (NPointNode B)) :
    List (Nat × Nat) → List Int → Bool
  | [], _ => false
  | (i, j) :: rest, status =>
    match nodes[i]?, nodes[j]? with
    | some node_i, some node_j =>
      if node_j.end_ ≤ node_i.begin then false
      else if (alg.matcher_.TestHrectPair node_i.bound node_j.bound i j status).1
          == alg.EXCLUDE then true
      else reachesExclude alg nodes rest
        (alg.matcher_.TestHrectPair node_i.bound node_j.bound i j status).2
    | _, _ => false

/-- The index `p` may stand at position `i` of a tuple that extends `placed`
by one index from each list of `rest`. -/
def MayStandAt (placed : List Int) (rest : List (List Int)) (i : Nat) (p : Int) : Prop :=
  placed[i]? = some p ∨
    (placed.length ≤ i ∧ ∃ l, rest[i - placed.length]? = some l ∧ p ∈ l)

/-! ### The traversal without one of its pruning checks

The variants that the pruning-safety property compares with the source
function: `DepthFirstRecursionVariant order_check exclusion_check` is
`DepthFirstRecursion_` with the order-violation test (line 192) kept only when
`order_check` is true and the `EXCLUDE` test (line 204) kept only when
`exclusion_check` is true; everything else is unchanged. -/

/-- Lines 181-217 with the two tests switchable. -/
def pairLoopVariant (order_check exclusion_check : Bool) (alg : NPointAlg D B)
    (nodes : List (NPointNode B)) (node_i : NPointNode B) (i : Nat) :
    List Nat → ScanState → Option ScanExit
  | [], s => some (ScanExit.completed s)
  | j :: js, s =>
    match nodes[j]? with
    | none => none
    | some node_j =>
      if order_check && decide (node_j.end_ ≤ node_i.begin) then some (ScanExit.returned 0 s)
      else
        let r := alg.matcher_.TestHrectPair node_i.bound node_j.bound i j s.permutation_ok
        if exclusion_check && (r.1 == alg.EXCLUDE) then
          some (ScanExit.returned 0
            ⟨s.all_leaves, s.split_index, s.split_count, r.2, s.num_exclusion_prunes_ + 1⟩)
        else
          pairLoopVariant order_check exclusion_check alg nodes node_i i js
            ⟨s.all_leaves, s.split_index, s.split_count, r.2, s.num_exclusion_prunes_⟩

/-- Lines 166-219 with the two tests switchable. -/
def mainLoopVariant (order_check exclusion_check : Bool) (alg : NPointAlg D B)
    (nodes : List (NPointNode B)) : List Nat → ScanState → Option ScanExit
  | [], s => some (ScanExit.completed s)
  | i :: rest, s =>
    match nodes[i]? with
    | none => none
    | some node_i =>
      match pairLoopVariant order_check exclusion_check alg nodes node_i i
          (List.range' (i + 1) (alg.tuple_size_ - (i + 1))) (noteNode node_i i s) with
      | none => none
      | some (ScanExit.returned v s2) => some (ScanExit.returned v s2)
      | some (ScanExit.completed s2) =>
        mainLoopVariant order_check exclusion_check alg nodes rest s2

/-- Lines 143-278 with the two tests switchable. -/
def DepthFirstRecursionVariant (order_check exclusion_check : Bool) (alg : NPointAlg D B) :
    Nat → List (NPointNode B) → Int → Nat → Option (Nat × List (NPointNode B) × Nat)
  | 0, _, _, _ => none
  | depth + 1, nodes, _, num_exclusion_prunes_ =>
    if alg.debug && nodes.length != alg.tuple_size_ then none
    else
      match mainLoopVariant order_check exclusion_check alg nodes (List.range alg.tuple_size_)
          ⟨true, -1, -1, List.replicate alg.matcher_.num_permutations alg.SUBSUME,
            num_exclusion_prunes_⟩ with
      | none => none
      | some (ScanExit.returned v s) => some (v, nodes, s.num_exclusion_prunes_)
      | some (ScanExit.completed s) =>
        if s.all_leaves then
          match fillPointSets nodes (List.range alg.tuple_size_) with
          | none => none
          | some point_sets =>
            match BaseCase_ alg point_sets 0 with
            | none => none
            | some (result, _) => some (result, nodes, s.num_exclusion_prunes_)
        else if s.split_index < 0 then none
        else
          match nodes[s.split_index.toNat]? with
          | none => none
          | some split_node =>
            match split_node.left, split_node.right with
            | some l, some r =>
              match DepthFirstRecursionVariant order_check exclusion_check alg depth
                  (nodes.set s.split_index.toNat l) s.split_index s.num_exclusion_prunes_ with
              | none => none
              | some (n1, nodes1, prunes1) =>
                match DepthFirstRecursionVariant order_check exclusion_check alg depth
                    (nodes1.set s.split_index.toNat r) s.split_index prunes1 with
                | none => none
                | some (n2, nodes2, prunes2) =>
                  some (0 + n1 + n2, nodes2.set s.split_index.toNat split_node, prunes2)
            | _, _ => none

/-! ### Trees -/

/-- The range `[begin, end)` of every node holds its `count ≥ 0` points, and
each child's index range lies inside its parent's. -/
def NPointNode.rangesNested : NPointNode B → Bool
  | NPointNode.leaf b e c _ => decide (e = b + c) && decide (0 ≤ c)
  | NPointNode.inner b e c _ l r =>
    decide (e = b + c) && decide (0 ≤ c) && decide (b ≤ l.begin) && decide (l.end_ ≤ e)
      && decide (b ≤ r.begin) && decide (r.end_ ≤ e) && l.rangesNested && r.rangesNested

/-- The number of internal nodes of a tree: how often it can be split. -/
def NPointNode.splits : NPointNode B → Nat
  | NPointNode.leaf _ _ _ _ => 0
  | NPointNode.inner _ _ _ _ l r => 1 + l.splits + r.splits

/-- The node and all its descendants. -/
def NPointNode.subnodes : NPointNode B → List (NPointNode B)
  | NPointNode.leaf b e c bd => [NPointNode.leaf b e c bd]
  | NPointNode.inner b e c bd l r => NPointNode.inner b e c bd l r :: (l.subnodes ++ r.subnodes)

/-- No index pair drawn from the ranges of `a` (for position `i`) and `b` (for
position `j`) can follow the symmetry order and pass `TestPointPair`. -/
def DeadPair (alg : NPointAlg D B) (i j : Nat) (a b : NPointNode B) : Prop :=
  ∀ p c : Int, a.begin ≤ p → p < a.end_ → b.begin ≤ c → c < b.end_ →
    (c ≤ p ∨ ∀ ok, (alg.matcher_.TestPointPair (alg.DistanceSqEuclidean c p) i j ok).1 = false)

/-- On the nodes of the given trees, `TestHrectPair` returns `EXCLUDE` only
when no pair of points drawn from the two nodes' ranges can pass
`TestPointPair` for those positions. -/
def ExcludeSound (alg : NPointAlg D B) (trees : List (NPointNode B)) : Prop :=
  ∀ a ∈ trees.flatMap NPointNode.subnodes, ∀ b ∈ trees.flatMap NPointNode.subnodes,
    ∀ (i j : Nat) (status : List Int),
      (alg.matcher_.TestHrectPair a.bound b.bound i j status).1 = alg.EXCLUDE →
      ∀ p c : Int, a.begin ≤ p → p < a.end_ → b.begin ≤ c → c < b.end_ →
        ∀ ok, (alg.matcher_.TestPointPair (alg.DistanceSqEuclidean c p) i j ok).1 = false

/-- The split candidate recorded so far is usable: while every node seen is a
leaf `split_count` is still `-1`, and afterwards `split_index` is the position
of a node that is not a leaf. -/
def SplitReady (nodes : List (NPointNode B)) (s : ScanState) : Prop :=
  (s.all_leaves = true → s.split_count = -1) ∧
    (s.all_leaves = false →
      0 ≤ s.split_index ∧ ∃ nd, nodes[s.split_index.toNat]? = some nd ∧ nd.is_leaf = false)

/-- The list that lines 238-242 build for a node: `j + begin()` for
`j < count()`. -/
def nodePoints (nd : NPointNode B) : List Int :=
  (List.range nd.count.toNat).map (fun (j : Nat) => (j : Int) + nd.begin)

/-- Two scan states agree in everything but the prune counter. -/
def SameScan (s t : ScanState) : Prop :=
  s.all_leaves = t.all_leaves ∧ s.split_index = t.split_index ∧ s.split_count = t.split_count
    ∧ s.permutation_ok = t.permutation_ok

/-- What lets a variant run on where the source function returns: a pair of
positions `i < j` at which the dropped test fires. -/
def DroppedTestFires (oc ec : Bool) (alg : NPointAlg D B) (i j : Nat)
    (node_i node_j : NPointNode B) : Prop :=
  (oc = false ∧ node_j.end_ ≤ node_i.begin) ∨
    (ec = false ∧ ∃ status,
      (alg.matcher_.TestHrectPair node_i.bound node_j.bound i j status).1 = alg.EXCLUDE)

/-- A matcher on points of a line whose bounding regions are closed coordinate
intervals `(lo, hi)`: it accepts a point pair iff its squared distance is at
most `r2`, and its bound test answers `EXCLUDE = 0` when the second interval
lies to the right of the first with a squared gap above `r2`, and is
inconclusive (status `2`) otherwise. -/
def intervalMatcher (r2 : Int) : Matcher Int (Int × Int) :=
  ⟨1, fun d _ _ ok => (decide (d ≤ r2), ok),
    fun a b _ _ st => (if a.2 < b.1 ∧ r2 < (b.1 - a.2) * (b.1 - a.2) then 0 else 2, st)⟩

/-- Point `i` at coordinate `i` on a line, unit weights, the interval matcher,
a non-debug build with `num_tuples_ = 0`. -/
def intervalAlg (tuple_size : Nat) (r2 : Int) : NPointAlg Int (Int × Int) :=
  ⟨intervalMatcher r2, tuple_size, 0, fun _ => 1, fun i j => (i - j) * (i - j), 1, 0, false, 0⟩

/-- A leaf holding the points `b, ..., e - 1`, bounded by their interval. -/
def boundedLeaf (b e : Int) : NPointNode (Int × Int) :=
  NPointNode.leaf b e (e - b) (b, e - 1)

/-- An internal node over the ranges of its two children, bounded by the
interval of its points. -/
def boundedNode (l r : NPointNode (Int × Int)) : NPointNode (Int × Int) :=
  NPointNode.inner l.begin r.end_ (r.end_ - l.begin) (l.begin, r.end_ - 1) l r

/-- The points 0, 1, 5, 6 of a line in a tree with one point per leaf. -/
def fourPointTree : NPointNode (Int × Int) :=
  boundedNode (boundedNode (boundedLeaf 0 1) (boundedLeaf 1 2))
    (boundedNode (boundedLeaf 5 6) (boundedLeaf 6 7))

/-- For all positions `j < k`, every index in list `j` is smaller than every
index in list `k`. -/
def orderedDisjoint (point_sets : List (List Int)) : Prop :=
  point_sets.Pairwise (fun l1 l2 => ∀ a ∈ l1, ∀ b ∈ l2, a < b)

instance (point_sets : List (List Int)) : Decidable (orderedDisjoint point_sets) := by
  unfold orderedDisjoint; infer_instance

/-- The search of `lineAlg` in a build that defines `DEBUG`. -/
def debugLineAlg (x : Int → Int) (weight : Int → ℚ) (tuple_size : Nat) (r2 : Int) :
    NPointAlg Int Unit :=
  ⟨withinMatcher r2, tuple_size, 0, weight, fun i j => (x i - x j) * (x i - x j), 1, 0,
    true, 0⟩

/-- The scan of the given pairs, each tested with the status array as the
earlier pairs narrowed it, prunes: it meets a pair that is out of order or for
which `TestHrectPair` returns `EXCLUDE`. -/
def prunesPair (alg : NPointAlg D B) (nodes : List (NPointNode B)) :
    List (Nat × Nat) → List Int → Bool
  | [], _ => false
  | (i, j) :: rest, status =>
    match nodes[i]?, nodes[j]? with
    | some node_i, some node_j =>
      if node_j.end_ ≤ node_i.begin then true
      else if (alg.matcher_.TestHrectPair node_i.bound node_j.bound i j status).1
          == alg.EXCLUDE then true
      else prunesPair alg nodes rest
        (alg.matcher_.TestHrectPair node_i.bound node_j.bound i j status).2
    | _, _ => false

/-- Position `k` is the smallest index among the non-leaf positions below `n`
whose `count()` is maximal over the non-leaf positions below `n`. -/
def IsSplitCandidate (nodes : List (NPointNode B)) (n k : Nat) : Prop :=
  ∃ nd, k < n ∧ nodes[k]? = some nd ∧ nd.is_leaf = false ∧
    (∀ i nd1, i < n → nodes[i]? = some nd1 → nd1.is_leaf = false → nd1.count ≤ nd.count) ∧
    (∀ i nd1, i < k → nodes[i]? = some nd1 → nd1.is_leaf = false → nd1.count < nd.count)

/-- The scan state after the positions below `m`: `all_leaves` tells whether
all their nodes are leaves, `split_count` is still `-1` in that case, and
otherwise `split_index` is the split candidate among them and `split_count`
its count. -/
def ScanTracks (nodes : List (NPointNode B)) (s : ScanState) (m : Nat) : Prop :=
  (s.all_leaves = true →
      (∀ i nd, i < m → nodes[i]? = some nd → nd.is_leaf = true) ∧ s.split_count = -1) ∧
    (s.all_leaves = false →
      ∃ (k : Nat) (nd : NPointNode B), s.split_index = (k : Int) ∧ nodes[k]? = some nd ∧
        s.split_count = nd.count ∧
        IsSplitCandidate nodes m k)

/-! ### The enumerator with its references and a record of its run

`BaseCaseHelperTraced_` is `BaseCaseHelper_` again, translated with two more
pieces of state made explicit. The argument `permutation_ok` is a reference in
the source, so its contents are threaded through and returned; the local
`permutation_ok_copy` is kept from one candidate to the next, as the source
keeps it until `Clear()`. Next to the state runs a record of the run, which the
source does not have: every call and every `result++`. The record comes first
in the result, so that it is there also when the run ends in a fault. -/

/-- The record of a run: `calls` holds `(k, points_in_tuple[0..k))` for every
call of `BaseCaseHelper_`, in the order of entry; `counted` holds
`points_in_tuple` at every `result++`. -/
structure HelperTrace where
  calls : List (Nat × List Int)
  counted : List (List Int)

/-- Lines 33-109 with `permutation_ok`, `permutation_ok_copy` and the record
threaded through. The result is the record and
`(result, permutation_ok, points_in_tuple, *weighted_result)`. `recurse` is the
call at `k + 1`: it receives `permutation_ok_copy` by reference and returns its
contents. -/
def candidateLoopTraced (alg : NPointAlg D B)
    (recurse : List Bool → List Int → ℚ → HelperTrace →
      HelperTrace × Option (Nat × List Bool × List Int × ℚ))
    (k : Nat) :
    List Int → Bool → Nat → List Bool → List Bool → List Int → ℚ → HelperTrace →
      HelperTrace × Option (Nat × List Bool × List Int × ℚ)
  | [], _, result, permutation_ok, _, points_in_tuple, weighted_result, tr =>
    (tr, some (result, permutation_ok, points_in_tuple, weighted_result))
  | point_index_i :: rest, bad_symmetry, result, permutation_ok, _, points_in_tuple,
      weighted_result, tr =>
    if bad_symmetry then (tr, some (result, permutation_ok, points_in_tuple, weighted_result))
    else
      match previousPointsLoop alg points_in_tuple point_index_i k (List.range k)
          ⟨bad_symmetry, true, ([] : List Bool) ++ permutation_ok⟩ with
      | none => (tr, none)
      | some s =>
        if s.this_point_works && !s.bad_symmetry then
          if k < points_in_tuple.length then
            let placed := points_in_tuple.set k point_index_i
            if (k : Int) == (alg.tuple_size_ : Int) - 1 then
              match weightLoop alg placed (List.range alg.num_tuples_.toNat) 1 with
              | none => (⟨tr.calls, tr.counted ++ [placed]⟩, none)
              | some these_weights =>
                candidateLoopTraced alg recurse k rest s.bad_symmetry (result + 1)
                  permutation_ok s.permutation_ok_copy
                  (if alg.debug then placed.set k (-1) else placed)
                  (weighted_result + these_weights) ⟨tr.calls, tr.counted ++ [placed]⟩
            else
              match recurse s.permutation_ok_copy placed weighted_result tr with
              | (tr1, none) => (tr1, none)
              | (tr1, some (r, copy1, after, w)) =>
                candidateLoopTraced alg recurse k rest s.bad_symmetry (result + r)
                  permutation_ok copy1 (if alg.debug then after.set k (-1) else after) w tr1
          else (tr, none)
        else
          candidateLoopTraced alg recurse k rest s.bad_symmetry result permutation_ok
            s.permutation_ok_copy points_in_tuple weighted_result tr

/-- Lines 17-113 with `permutation_ok` and the record threaded through; the
call is recorded on entry. Line 25 initialises `permutation_ok_copy` as a copy
of `permutation_ok`. -/
def BaseCaseHelperTraced_ (alg : NPointAlg D B) (point_sets : List (List Int)) :
    Nat → List Bool → List Int → ℚ → Nat → HelperTrace →
      HelperTrace × Option (Nat × List Bool × List Int × ℚ)
  | 0, _, points_in_tuple, _, k, tr =>
    (⟨tr.calls ++ [(k, points_in_tuple.take k)], tr.counted⟩, none)
  | levels + 1, permutation_ok, points_in_tuple, weighted_result, k, tr =>
    match point_sets[k]? with
    | none => (⟨tr.calls ++ [(k, points_in_tuple.take k)], tr.counted⟩, none)
    | some k_rows =>
      candidateLoopTraced alg
        (fun ok pts w t => BaseCaseHelperTraced_ alg point_sets levels ok pts w (k + 1) t)
        k k_rows false 0 permutation_ok permutation_ok points_in_tuple weighted_result
        ⟨tr.calls ++ [(k, points_in_tuple.take k)], tr.counted⟩

/-- Lines 116-139 with the record of the run, started empty. -/
def BaseCaseTraced_ (alg : NPointAlg D B) (point_sets : List (List Int)) (weighted_result : ℚ) :
    HelperTrace × Option (Nat × ℚ) :=
  ((BaseCaseHelperTraced_ alg point_sets point_sets.length
      (List.replicate alg.matcher_.num_permutations true)
      (List.replicate alg.tuple_size_ (if alg.debug then (-1 : Int) else alg.uninitialized))
      weighted_result 0 ⟨[], []⟩).1,
    (BaseCaseHelperTraced_ alg point_sets point_sets.length
      (List.replicate alg.matcher_.num_permutations true)
      (List.replicate alg.tuple_size_ (if alg.debug then (-1 : Int) else alg.uninitialized))
      weighted_result 0 ⟨[], []⟩).2.map (fun x => (x.1, x.2.2.2)))

/-- Every recorded call has a strictly increasing tuple in progress of the
length of its level, and every counted tuple is strictly increasing. -/
def GoodTrace (tr : HelperTrace) : Prop :=
  (∀ x ∈ tr.calls, x.2.length = x.1 ∧ x.2.Sorted (fun a b => a < b)) ∧
    (∀ t ∈ tr.counted, t.Sorted (fun a b => a < b))

/-! ### The traversal with a record of its run

`DepthFirstRecursionTraced_` is `DepthFirstRecursion_` again, returning next to
its result the tuples counted on the way; `enumTuplesList` is the functional
reading of what `BaseCase_` records. -/

/-- The index ranges of the two children of every internal node of the tree
have no index in common. -/
def NPointNode.childrenDisjoint : NPointNode B → Bool
  | NPointNode.leaf _ _ _ _ => true
  | NPointNode.inner _ _ _ _ l r =>
    decide (l.end_ ≤ r.begin ∨ r.end_ ≤ l.begin ∨ l.end_ ≤ l.begin ∨ r.end_ ≤ r.begin)
      && l.childrenDisjoint && r.childrenDisjoint

/-- Lines 33-109 on the placed indices: the tuples completed by the remaining
candidates of position `k`, each given by its indices from position `k` on, in
the order of the `result++` that count them; `complete c ok` holds what the
levels below complete once `c` is placed. The list-valued companion of
`enumCandidates`. -/
def enumCandidatesList (alg : NPointAlg D B) (k : Nat) (placed : List Int) (ok : List Bool)
    (complete : Int → List Bool → List (List Int)) : List Int → List (List Int)
  | [] => []
  | c :: cs =>
    if (checkAgainst alg c k 0 placed ok).bad_symmetry then []
    else if (checkAgainst alg c k 0 placed ok).this_point_works then
      (complete c (checkAgainst alg c k 0 placed ok).permutation_ok_copy).map (fun t => c :: t)
        ++ enumCandidatesList alg k placed ok complete cs
    else enumCandidatesList alg k placed ok complete cs

/-- Lines 17-113 on the placed indices: the tuples completed over the remaining
positions, each given by its indices at those positions. The list-valued
companion of `enumTuples`. -/
def enumTuplesList (alg : NPointAlg D B) : List (List Int) → List Int → List Bool →
    List (List Int)
  | [], _, _ => [[]]
  | k_rows :: rest, placed, ok =>
    enumCandidatesList alg placed.length placed ok
      (fun c ok1 => enumTuplesList alg rest (placed ++ [c]) ok1) k_rows

/-- Lines 143-278 together with a record of the run, which the source does not
have: the last component of the result lists `points_in_tuple` at every
`result++` executed during the call (by `BaseCase_`, line 247, or by the two
recursive calls, lines 266 and 268), in the order of execution. A return from
the main loop has counted nothing. -/
def DepthFirstRecursionTraced_ (alg : NPointAlg D B) :
    Nat → List (NPointNode B) → Int → Nat →
      Option (Nat × List (NPointNode B) × Nat × List (List Int))
  | 0, _, _, _ => none
  | depth + 1, nodes, _, num_exclusion_prunes_ =>
    if alg.debug && nodes.length != alg.tuple_size_ then none
    else
      match mainLoop alg nodes (List.range alg.tuple_size_)
          ⟨true, -1, -1, List.replicate alg.matcher_.num_permutations alg.SUBSUME,
            num_exclusion_prunes_⟩ with
      | none => none
      | some (ScanExit.returned v s) => some (v, nodes, s.num_exclusion_prunes_, [])
      | some (ScanExit.completed s) =>
        if s.all_leaves then
          match fillPointSets nodes (List.range alg.tuple_size_) with
          | none => none
          | some point_sets =>
            match (BaseCaseTraced_ alg point_sets 0).2 with
            | none => none
            | some (result, _) =>
              some (result, nodes, s.num_exclusion_prunes_,
                (BaseCaseTraced_ alg point_sets 0).1.counted)
        else if s.split_index < 0 then none
        else
          match nodes[s.split_index.toNat]? with
          | none => none
          | some split_node =>
            match split_node.left, split_node.right with
            | some l, some r =>
              match DepthFirstRecursionTraced_ alg depth (nodes.set s.split_index.toNat l)
                  s.split_index s.num_exclusion_prunes_ with
              | none => none
              | some (n1, nodes1, prunes1, counted1) =>
                match DepthFirstRecursionTraced_ alg depth (nodes1.set s.split_index.toNat r)
                    s.split_index prunes1 with
                | none => none
                | some (n2, nodes2, prunes2, counted2) =>
                  some (0 + n1 + n2, nodes2.set s.split_index.toNat split_node, prunes2,
                    counted1 ++ counted2)
            | _, _ => none

/-- The strictly increasing tuples, one index from the list of each node of the
array, that the point-level test accepts. -/
def matchingTuples (alg : NPointAlg D B) (nodes : List (NPointNode B)) : List (List Int) :=
  (tuplesOf (nodes.map nodePoints)).filter
    (fun t => decide (t.Sorted (fun a b => a < b)) && tupleAccepted alg t)

/-! ### The count as a machine integer

The definitions above keep the tuple count in `ℕ`. The source keeps it in
`int result` (lines 22, 86, 100) and `int num_tuples_here` (lines 154, 266,
268), 32-bit machine integers. The definitions below are `BaseCaseHelper_`,
`BaseCase_` and `DepthFirstRecursion_` again with every `result++` and `+=`
reduced to that range; `BaseCaseInt_eq` and `DepthFirstRecursionInt_eq` relate
the two readings: the `int` is the count in `ℕ` reduced to 32 bits. -/

/-- The value an `int` holds after an arithmetic result `z`: 32 bits, two's
complement, so `-2^31 ≤ wrapInt z < 2^31` and `wrapInt z ≡ z` modulo `2^32`. -/
def wrapInt (z : Int) : Int :=
  (z + 2147483648) % 4294967296 - 2147483648

/-- Lines 33-109 with `result` as the `int` of line 22: the loop over the
candidates of position `k`, run over the remaining candidates. `recurse` is the
call of `BaseCaseHelper_` at `k + 1` (line 100), which returns an `int`. The
result is `(result, points_in_tuple, *weighted_result)`. -/
def candidateLoopInt (alg : NPointAlg D B)
    (recurse : List Bool → List Int → ℚ → Option (Int × List Int × ℚ))
    (permutation_ok : List Bool) (k : Nat) :
    List Int → Bool → Int → List Int → ℚ → Option (Int × List Int × ℚ)
  | [], _, result, points_in_tuple, weighted_result =>
    some (result, points_in_tuple, weighted_result)
  | point_index_i :: rest, bad_symmetry, result, points_in_tuple, weighted_result =>
    if bad_symmetry then some (result, points_in_tuple, weighted_result)
    else
      match previousPointsLoop alg points_in_tuple point_index_i k (List.range k)
          ⟨bad_symmetry, true, permutation_ok⟩ with
      | none => none
      | some s =>
        if s.this_point_works && !s.bad_symmetry then
          if k < points_in_tuple.length then
            let placed := points_in_tuple.set k point_index_i
            if (k : Int) == (alg.tuple_size_ : Int) - 1 then
              match weightLoop alg placed (List.range alg.num_tuples_.toNat) 1 with
              | none => none
              | some these_weights =>
                candidateLoopInt alg recurse permutation_ok k rest s.bad_symmetry
                  (wrapInt (result + 1))
                  (if alg.debug then placed.set k (-1) else placed)
                  (weighted_result + these_weights)
            else
              match recurse s.permutation_ok_copy placed weighted_result with
              | none => none
              | some (r, after, w) =>
                candidateLoopInt alg recurse permutation_ok k rest s.bad_symmetry
                  (wrapInt (result + r))
                  (if alg.debug then after.set k (-1) else after) w
          else none
        else
          candidateLoopInt alg recurse permutation_ok k rest s.bad_symmetry result
            points_in_tuple weighted_result

/-- Lines 17-113 with the `int` result. The first argument after `point_sets`
bounds the number of positions still to fill, as in `BaseCaseHelper_`. -/
def BaseCaseHelperInt_ (alg : NPointAlg D B) (point_sets : List (List Int)) :
    Nat → List Bool → List Int → ℚ → Nat → Option (Int × List Int × ℚ)
  | 0, _, _, _, _ => none
  | levels + 1, permutation_ok, points_in_tuple, weighted_result, k =>
    match point_sets[k]? with
    | none => none
    | some k_rows =>
      candidateLoopInt alg
        (fun ok pts w => BaseCaseHelperInt_ alg point_sets levels ok pts w (k + 1))
        permutation_ok k k_rows false 0 points_in_tuple weighted_result

/-- Lines 116-139 with the `int` result. Returns `(result, *weighted_result)`. -/
def BaseCaseInt_ (alg : NPointAlg D B) (point_sets : List (List Int)) (weighted_result : ℚ) :
    Option (Int × ℚ) :=
  let permutation_ok := List.replicate alg.matcher_.num_permutations true
  let points_in_tuple :=
    List.replicate alg.tuple_size_ (if alg.debug then (-1 : Int) else alg.uninitialized)
  match BaseCaseHelperInt_ alg point_sets point_sets.length permutation_ok points_in_tuple
      weighted_result 0 with
  | none => none
  | some (result, _, w) => some (result, w)

/-- Two ordered, disjoint candidate lists of 46341 indices each: `0, ..., 46340`
and `46341, ..., 92681`. -/
def longLists : List (List Int) :=
  [(List.range 46341).map (fun (j : Nat) => (j : Int)),
    (List.range 46341).map (fun (j : Nat) => (j : Int) + 46341)]

/-- Lines 143-278 with `num_tuples_here` as the `int` of line 154: the count of
`BaseCase_` is an `int`, and each `num_tuples_here +=` of lines 266 and 268 is
reduced to the range of `int`. The first argument bounds the depth of the
recursion, as in `DepthFirstRecursion_`. -/
def DepthFirstRecursionInt_ (alg : NPointAlg D B) :
    Nat → List (NPointNode B) → Int → Nat → Option (Int × List (NPointNode B) × Nat)
  | 0, _, _, _ => none
  | depth + 1, nodes, _, num_exclusion_prunes_ =>
    if alg.debug && nodes.length != alg.tuple_size_ then none
    else
      match mainLoop alg nodes (List.range alg.tuple_size_)
          ⟨true, -1, -1, List.replicate alg.matcher_.num_permutations alg.SUBSUME,
            num_exclusion_prunes_⟩ with
      | none => none
      | some (ScanExit.returned v s) => some ((v : Int), nodes, s.num_exclusion_prunes_)
      | some (ScanExit.completed s) =>
        if s.all_leaves then
          match fillPointSets nodes (List.range alg.tuple_size_) with
          | none => none
          | some point_sets =>
            match BaseCaseInt_ alg point_sets 0 with
            | none => none
            | some (result, _) => some (result, nodes, s.num_exclusion_prunes_)
        else if s.split_index < 0 then none
        else
          match nodes[s.split_index.toNat]? with
          | none => none
          | some split_node =>
            match split_node.left, split_node.right with
            | some l, some r =>
              match DepthFirstRecursionInt_ alg depth (nodes.set s.split_index.toNat l)
                  s.split_index s.num_exclusion_prunes_ with
              | none => none
              | some (n1, nodes1, prunes1) =>
                match DepthFirstRecursionInt_ alg depth (nodes1.set s.split_index.toNat r)
                    s.split_index prunes1 with
                | none => none
                | some (n2, nodes2, prunes2) =>
                  some (wrapInt (wrapInt (0 + n1) + n2),
                    nodes2.set s.split_index.toNat split_node, prunes2)
            | _, _ => none

/-! ## Properties of the enumerator -/

theorem previousPointsLoop_stop (alg : NPointAlg D B) (pts : List Int) (c : Int) (k : Nat)
    (js : List Nat) (s : PairLoopState) (h : (!s.bad_symmetry && s.this_point_works) = false) :
    previousPointsLoop alg pts c k js s = some s := by
  cases js with
  | nil => rfl
  | cons j js => simp [previousPointsLoop, h]

theorem previousPointsLoop_range' (alg : NPointAlg D B) (pts : List Int) (c : Int) (k : Nat) :
    ∀ (len j : Nat) (ok : List Bool), j + len ≤ pts.length →
      previousPointsLoop alg pts c k (List.range' j len) ⟨false, true, ok⟩
        = some (checkAgainst alg c k j ((pts.drop j).take len) ok) := by
  intro len
  induction len with
  | zero => intro j ok _; simp [previousPointsLoop, checkAgainst]
  | succ len ih =>
    intro j ok h
    have hj : j < pts.length := by omega
    have hd : pts.drop j = pts[j] :: pts.drop (j + 1) := by
      simp
    rw [hd]
    simp only [List.range'_succ, List.take_succ_cons, previousPointsLoop, checkAgainst]
    simp only [List.getElem?_eq_getElem hj]
    by_cases hb : PointsViolateSymmetry_ pts[j] c = true
    · simp [hb, previousPointsLoop_stop]
    · simp only [hb]
      by_cases hw : (alg.matcher_.TestPointPair (alg.DistanceSqEuclidean c pts[j]) j k ok).1 = true
      · have := ih (j + 1) (alg.matcher_.TestPointPair (alg.DistanceSqEuclidean c pts[j]) j k ok).2 (by omega)
        simp [hw, this]
      · simp at hw
        simp [hw, previousPointsLoop_stop]

theorem previousPointsLoop_eq (alg : NPointAlg D B) (pts : List Int) (c : Int) (k : Nat)
    (ok : List Bool) (h : k ≤ pts.length) :
    previousPointsLoop alg pts c k (List.range k) ⟨false, true, ok⟩
      = some (checkAgainst alg c k 0 (pts.take k) ok) := by
  have := previousPointsLoop_range' alg pts c k k 0 ok (by omega)
  simpa [List.range_eq_range'] using this

theorem weightLoop_range' (alg : NPointAlg D B) (pts : List Int) :
    ∀ (len a : Nat) (w : ℚ), a + len ≤ pts.length →
      weightLoop alg pts (List.range' a len) w
        = some (((pts.drop a).take len).foldl (fun w p => w * alg.data_weights_ p) w) := by
  intro len
  induction len with
  | zero => intro a w _; simp [weightLoop]
  | succ len ih =>
    intro a w h
    have ha : a < pts.length := by omega
    have hd : pts.drop a = pts[a] :: pts.drop (a + 1) := by simp
    rw [hd]
    simp only [List.range'_succ, List.take_succ_cons, weightLoop, List.foldl_cons,
      List.getElem?_eq_getElem ha]
    exact ih (a + 1) _ (by omega)

theorem weightLoop_fault (alg : NPointAlg D B) (pts : List Int) :
    ∀ (len a : Nat) (w : ℚ), a ≤ pts.length → pts.length < a + len →
      weightLoop alg pts (List.range' a len) w = none := by
  intro len
  induction len with
  | zero => intro a w h1 h2; omega
  | succ len ih =>
    intro a w h1 h2
    simp only [List.range'_succ, weightLoop]
    by_cases ha : a < pts.length
    · simp only [List.getElem?_eq_getElem ha]
      exact ih (a + 1) _ (by omega) (by omega)
    · have : pts[a]? = none := by simp; omega
      simp [this]

/-- The weight loop on a complete tuple: the product of the first `num_tuples_`
weights when these lie inside the array, a fault otherwise. -/
theorem weightLoop_eq (alg : NPointAlg D B) (t : List Int) (h : t.length = alg.tuple_size_) :
    weightLoop alg t (List.range alg.num_tuples_.toNat) 1
      = if (alg.tuple_size_ : Int) < alg.num_tuples_ then none else some (tupleWeight alg t) := by
  rw [List.range_eq_range']
  by_cases hm : (alg.tuple_size_ : Int) < alg.num_tuples_
  · rw [if_pos hm]
    apply weightLoop_fault
    · omega
    · omega
  · rw [if_neg hm, weightLoop_range' alg t _ 0 1 (by omega)]
    simp [tupleWeight]

theorem take_succ_set (pts : List Int) (k : Nat) (c : Int) (h : k < pts.length) :
    (pts.set k c).take (k + 1) = pts.take k ++ [c] := by
  induction pts generalizing k with
  | nil => simp at h
  | cons p pts ih =>
    cases k with
    | zero => simp
    | succ k =>
      simp only [List.length_cons, Nat.add_lt_add_iff_right] at h
      simp [ih k h]

theorem take_set_self (pts : List Int) (k : Nat) (c : Int) :
    (pts.set k c).take k = pts.take k := by
  induction pts generalizing k with
  | nil => simp
  | cons p pts ih =>
    cases k with
    | zero => simp
    | succ k => simp [ih k]

theorem take_of_take_succ (pts placed : List Int) (k : Nat) (c : Int)
    (hpl : placed.length = k) (h : pts.take (k + 1) = placed ++ [c]) : pts.take k = placed := by
  have h1 : (pts.take (k + 1)).take k = pts.take k := by
    rw [List.take_take]; simp
  rw [← h1, h]
  simp [hpl]

theorem candidateLoop_bad (alg : NPointAlg D B)
    (recurse : List Bool → List Int → ℚ → Option (Nat × List Int × ℚ))
    (ok : List Bool) (k : Nat) (cs : List Int) (r : Nat) (pts : List Int) (w : ℚ) :
    candidateLoop alg recurse ok k cs true r pts w = some (r, pts, w) := by
  cases cs <;> simp [candidateLoop]

theorem candidateLoop_eq (alg : NPointAlg D B) (k : Nat) (placed : List Int) (ok : List Bool)
    (recurse : List Bool → List Int → ℚ → Option (Nat × List Int × ℚ))
    (complete : Int → List Bool → Nat × ℚ)
    (hk : k < alg.tuple_size_) (hpl : placed.length = k)
    (hlast : k + 1 = alg.tuple_size_ →
      ∀ c ok1, complete c ok1 = (1, tupleWeight alg (placed ++ [c])))
    (hrec : k + 1 ≠ alg.tuple_size_ → RecurseSpec alg placed k recurse complete) :
    ∀ (cs : List Int) (r : Nat) (pts : List Int) (w : ℚ),
      pts.length = alg.tuple_size_ → pts.take k = placed →
      ∃ after : List Int, after.length = alg.tuple_size_ ∧ after.take k = placed ∧
        candidateLoop alg recurse ok k cs false r pts w
          = if WeightFault alg (enumCandidates alg k placed ok complete cs).1 then none
            else some (r + (enumCandidates alg k placed ok complete cs).1, after,
              w + (enumCandidates alg k placed ok complete cs).2) := by
  intro cs
  induction cs with
  | nil =>
    intro r pts w hlen htake
    exact ⟨pts, hlen, htake, by simp [candidateLoop, enumCandidates, WeightFault]⟩
  | cons c cs ih =>
    intro r pts w hlen htake
    have hkl : k ≤ pts.length := by omega
    have hkl' : k < pts.length := by omega
    simp only [candidateLoop, enumCandidates, previousPointsLoop_eq alg pts c k ok hkl, htake]
    cases hb : (checkAgainst alg c k 0 placed ok).bad_symmetry with
    | true =>
      refine ⟨pts, hlen, htake, ?_⟩
      simp [candidateLoop_bad, WeightFault]
    | false =>
      cases hw : (checkAgainst alg c k 0 placed ok).this_point_works with
      | false =>
        obtain ⟨after, h1, h2, h3⟩ := ih r pts w hlen htake
        exact ⟨after, h1, h2, by simpa using h3⟩
      | true =>
        have hset : (pts.set k c).take (k + 1) = placed ++ [c] := by
          rw [take_succ_set pts k c hkl', htake]
        by_cases hl : k + 1 = alg.tuple_size_
        · have hcond : ((k : Int) == (alg.tuple_size_ : Int) - 1) = true := by
            simp; omega
          have hfull : pts.set k c = placed ++ [c] := by
            rw [← hset]; symm; apply List.take_of_length_le; simp; omega
          have hwl := weightLoop_eq alg (pts.set k c) (by simpa using hlen)
          simp only [hlast hl]
          by_cases hm : (alg.tuple_size_ : Int) < alg.num_tuples_
          · refine ⟨pts, hlen, htake, ?_⟩
            rw [if_pos hm] at hwl
            simp [hkl', hcond, hwl, WeightFault, hm]
          · rw [if_neg hm] at hwl
            obtain ⟨after, h1, h2, h3⟩ := ih (r + 1)
              (if alg.debug then (pts.set k c).set k (-1) else pts.set k c)
              (w + tupleWeight alg (pts.set k c))
              (by split <;> simpa using hlen)
              (by split <;> simp [take_set_self, htake])
            refine ⟨after, h1, h2, ?_⟩
            rw [hfull] at hwl h3
            simp only [hkl', hcond, hfull, hwl, h3, WeightFault, hm]
            simp [Nat.add_assoc, add_assoc]
        · have hcond : ((k : Int) == (alg.tuple_size_ : Int) - 1) = false := by
            simp; omega
          obtain ⟨p1, hp1, hp2, hp3⟩ := hrec hl c
            (checkAgainst alg c k 0 placed ok).permutation_ok_copy (pts.set k c) w
            (by simpa using hlen) hset
          by_cases hf : WeightFault alg
              (complete c (checkAgainst alg c k 0 placed ok).permutation_ok_copy).1
          · refine ⟨pts, hlen, htake, ?_⟩
            rw [if_pos hf] at hp3
            have hf2 : WeightFault alg
                ((complete c (checkAgainst alg c k 0 placed ok).permutation_ok_copy).1
                  + (enumCandidates alg k placed ok complete cs).1) :=
              ⟨by have := hf.1; omega, hf.2⟩
            simp [hkl', hcond, hp3, hf2]
          · rw [if_neg hf] at hp3
            obtain ⟨after, h1, h2, h3⟩ := ih
              (r + (complete c (checkAgainst alg c k 0 placed ok).permutation_ok_copy).1)
              (if alg.debug then p1.set k (-1) else p1)
              (w + (complete c (checkAgainst alg c k 0 placed ok).permutation_ok_copy).2)
              (by split <;> simpa using hp1)
              (by
                have := take_of_take_succ p1 placed k c hpl hp2
                split <;> simp [take_set_self, this])
            refine ⟨after, h1, h2, ?_⟩
            have hiff : WeightFault alg
                ((complete c (checkAgainst alg c k 0 placed ok).permutation_ok_copy).1
                  + (enumCandidates alg k placed ok complete cs).1)
                ↔ WeightFault alg (enumCandidates alg k placed ok complete cs).1 := by
              unfold WeightFault at hf ⊢
              constructor
              · rintro ⟨a, b⟩
                refine ⟨?_, b⟩
                by_contra hc
                exact hf ⟨by omega, b⟩
              · rintro ⟨a, b⟩
                exact ⟨by omega, b⟩
            simp only [hkl', hcond, hp3, h3]
            by_cases hf3 : WeightFault alg (enumCandidates alg k placed ok complete cs).1
            · simp [hf3, hiff.2 hf3]
            · simp [hf3, mt hiff.1 hf3, Nat.add_assoc, add_assoc]

/-- The enumerator in terms of its functional reading: a call at position `k`
on an array whose first `k` cells hold the placed indices returns the count and
adds the weight of `enumTuples`, leaves the first `k` cells as they were, and
faults exactly when a tuple is completed while `num_tuples_` exceeds the array. -/
theorem BaseCaseHelper_eq (alg : NPointAlg D B) (point_sets : List (List Int))
    (hps : point_sets.length = alg.tuple_size_) :
    ∀ (levels k : Nat) (ok : List Bool) (pts : List Int) (w : ℚ),
      pts.length = alg.tuple_size_ → k < alg.tuple_size_ → alg.tuple_size_ - k ≤ levels →
      ∃ after : List Int, after.length = alg.tuple_size_ ∧ after.take k = pts.take k ∧
        BaseCaseHelper_ alg point_sets levels ok pts w k
          = if WeightFault alg (enumTuples alg (point_sets.drop k) (pts.take k) ok).1 then none
            else some ((enumTuples alg (point_sets.drop k) (pts.take k) ok).1, after,
              w + (enumTuples alg (point_sets.drop k) (pts.take k) ok).2) := by
  intro levels
  induction levels with
  | zero => intro k ok pts w _ hk hl; omega
  | succ levels ih =>
    intro k ok pts w hlen hk hl
    have hkp : k < point_sets.length := by omega
    have hd : point_sets.drop k = point_sets[k] :: point_sets.drop (k + 1) := by simp
    have hpl : (pts.take k).length = k := by simp; omega
    simp only [BaseCaseHelper_, List.getElem?_eq_getElem hkp, hd, enumTuples, hpl]
    have := candidateLoop_eq alg k (pts.take k) ok
      (fun ok1 p1 w1 => BaseCaseHelper_ alg point_sets levels ok1 p1 w1 (k + 1))
      (fun c ok1 => enumTuples alg (point_sets.drop (k + 1)) (pts.take k ++ [c]) ok1)
      hk hpl
      (by
        intro hlast c ok1
        have : point_sets.drop (k + 1) = [] := by
          apply List.drop_eq_nil_of_le; omega
        simp [this, enumTuples])
      (by
        intro hne c ok1 p1 w1 hp1 hp2
        obtain ⟨after, h1, h2, h3⟩ := ih (k + 1) ok1 p1 w1 hp1 (by omega) (by omega)
        rw [hp2] at h2 h3
        exact ⟨after, h1, h2, h3⟩)
      point_sets[k] 0 pts w hlen rfl
    simpa using this

/-- The functional reading of `BaseCase_`. -/
theorem BaseCase_eq (alg : NPointAlg D B) (point_sets : List (List Int)) (w : ℚ)
    (hps : point_sets.length = alg.tuple_size_) (hpos : 0 < alg.tuple_size_) :
    BaseCase_ alg point_sets w
      = if WeightFault alg (enumTuples alg point_sets []
            (List.replicate alg.matcher_.num_permutations true)).1 then none
        else some ((enumTuples alg point_sets []
            (List.replicate alg.matcher_.num_permutations true)).1,
          w + (enumTuples alg point_sets []
            (List.replicate alg.matcher_.num_permutations true)).2) := by
  obtain ⟨after, _, _, h3⟩ := BaseCaseHelper_eq alg point_sets hps point_sets.length 0
    (List.replicate alg.matcher_.num_permutations true)
    (List.replicate alg.tuple_size_ (if alg.debug then (-1 : Int) else alg.uninitialized)) w
    (by simp) hpos (by omega)
  simp only [BaseCase_, h3]
  simp only [List.drop_zero, List.take_zero]
  by_cases hf : WeightFault alg (enumTuples alg point_sets []
      (List.replicate alg.matcher_.num_permutations true)).1
  · simp [hf]
  · simp [hf]

theorem checkAgainst_of_lt (alg : NPointAlg D B) (c : Int) (k : Nat) :
    ∀ (placed : List Int) (j : Nat) (ok : List Bool), (∀ p ∈ placed, p < c) →
      checkAgainst alg c k j placed ok
        = ⟨false, (matchAgainst alg c k j placed ok).1, (matchAgainst alg c k j placed ok).2⟩ := by
  intro placed
  induction placed with
  | nil => intro j ok _; simp [checkAgainst, matchAgainst]
  | cons p placed ih =>
    intro j ok h
    have hp : p < c := h p (by simp)
    have hv : PointsViolateSymmetry_ p c = false := by
      simp [PointsViolateSymmetry_, hp]
    simp only [checkAgainst, matchAgainst, hv]
    by_cases hw : (alg.matcher_.TestPointPair (alg.DistanceSqEuclidean c p) j k ok).1 = true
    · simp [hw, ih (j + 1) _ (fun q hq => h q (by simp [hq]))]
    · simp [hw]

theorem checkAgainst_bad (alg : NPointAlg D B) (c : Int) (k : Nat) :
    ∀ (placed : List Int) (j : Nat) (ok : List Bool),
      (checkAgainst alg c k j placed ok).bad_symmetry = true → ∃ p ∈ placed, c ≤ p := by
  intro placed
  induction placed with
  | nil => intro j ok h; simp [checkAgainst] at h
  | cons p placed ih =>
    intro j ok h
    by_cases hv : PointsViolateSymmetry_ p c = true
    · exact ⟨p, by simp, by simpa [PointsViolateSymmetry_] using hv⟩
    · simp only [checkAgainst, hv] at h
      by_cases hw : (alg.matcher_.TestPointPair (alg.DistanceSqEuclidean c p) j k ok).1 = true
      · simp [hw] at h
        obtain ⟨q, hq, hc⟩ := ih (j + 1) _ h
        exact ⟨q, by simp [hq], hc⟩
      · simp [hw] at h

theorem length_filter_tuplesOf_cons (P : List Int → Bool) (k_rows : List Int)
    (rest : List (List Int)) :
    ((tuplesOf (k_rows :: rest)).filter P).length
      = (k_rows.map (fun c => ((tuplesOf rest).filter (fun t => P (c :: t))).length)).sum := by
  induction k_rows with
  | nil => simp [tuplesOf]
  | cons c cs ih =>
    simp only [tuplesOf, List.map_cons, List.flatten_cons, List.filter_append, List.length_append,
      List.sum_cons] at ih ⊢
    rw [ih]
    congr 1
    rw [List.filter_map, List.length_map]
    rfl

theorem not_sorted_of_le (placed t : List Int) (c p : Int) (hp : p ∈ placed) (hc : c ≤ p) :
    ¬ (placed ++ c :: t).Sorted (fun a b => a < b) := by
  intro h
  have := (List.pairwise_append.1 h).2.2 p hp c (by simp)
  omega

theorem checkAgainst_accept (alg : NPointAlg D B) (c : Int) (k : Nat) :
    ∀ (placed : List Int) (j : Nat) (ok : List Bool),
      (checkAgainst alg c k j placed ok).bad_symmetry = false →
      (checkAgainst alg c k j placed ok).this_point_works = true → ∀ p ∈ placed, p < c := by
  intro placed
  induction placed with
  | nil => intro j ok _ _ p hp; simp at hp
  | cons p placed ih =>
    intro j ok hb hw q hq
    by_cases hv : PointsViolateSymmetry_ p c = true
    · simp [checkAgainst, hv] at hb
    · simp only [checkAgainst, hv] at hb hw
      by_cases ht : (alg.matcher_.TestPointPair (alg.DistanceSqEuclidean c p) j k ok).1 = true
      · simp [ht] at hb hw
        rcases List.mem_cons.1 hq with h | h
        · subst h
          simpa [PointsViolateSymmetry_] using hv
        · exact ih (j + 1) _ hb hw q h
      · simp [ht] at hw

theorem enumCandidates_count (alg : NPointAlg D B) (k : Nat) (placed : List Int)
    (ok : List Bool) (complete : Int → List Bool → Nat × ℚ) (g : Int → Nat)
    (pool : List Int) (hsub : ∀ p ∈ placed, p ∈ pool) :
    ∀ cs : List Int,
      (∀ c ∈ cs, (∀ p ∈ placed, p < c) → (matchAgainst alg c k 0 placed ok).1 = true →
        (complete c (matchAgainst alg c k 0 placed ok).2).1 = g c) →
      (∀ c ∈ cs, (∃ p ∈ placed, c ≤ p) → g c = 0) →
      (∀ c ∈ cs, (matchAgainst alg c k 0 placed ok).1 = false → g c = 0) →
      (∀ p ∈ pool, cs.Pairwise (fun c d => c ≤ p → d ≤ p)) →
      (enumCandidates alg k placed ok complete cs).1 = (cs.map g).sum := by
  intro cs
  induction cs with
  | nil => intro _ _ _ _; simp [enumCandidates]
  | cons c cs ih =>
    intro hgood hbad1 hbad2 hpw
    have ih' := ih (fun d hd => hgood d (by simp [hd])) (fun d hd => hbad1 d (by simp [hd]))
      (fun d hd => hbad2 d (by simp [hd])) (fun p hp => (List.pairwise_cons.1 (hpw p hp)).2)
    simp only [enumCandidates, List.map_cons, List.sum_cons]
    by_cases hlt : ∀ p ∈ placed, p < c
    · rw [checkAgainst_of_lt alg c k placed 0 ok hlt]
      cases hm : (matchAgainst alg c k 0 placed ok).1 with
      | true =>
        simp only [Bool.false_eq_true, if_false, if_true]
        rw [ih', hgood c (by simp) hlt hm]
      | false =>
        simp only [Bool.false_eq_true, if_false]
        rw [ih', hbad2 c (by simp) hm]; simp
    · have hex : ∃ p ∈ placed, c ≤ p := by
        push_neg at hlt
        exact hlt
      have hg : g c = 0 := hbad1 c (by simp) hex
      cases hb : (checkAgainst alg c k 0 placed ok).bad_symmetry with
      | true =>
        obtain ⟨q, hq, hcq⟩ := checkAgainst_bad alg c k placed 0 ok hb
        have hz : ∀ x ∈ cs.map g, x = 0 := by
          intro x hx
          obtain ⟨d, hd, rfl⟩ := List.mem_map.1 hx
          have hdq : d ≤ q := (List.pairwise_cons.1 (hpw q (hsub q hq))).1 d hd hcq
          exact hbad1 d (by simp [hd]) ⟨q, hq, hdq⟩
        simp [hg, List.sum_eq_zero hz]
      | false =>
        cases hw : (checkAgainst alg c k 0 placed ok).this_point_works with
        | true => exact absurd (checkAgainst_accept alg c k placed 0 ok hb hw) hlt
        | false => simp [hg, ih']

/-- Under the ordering assumption of the source, the functional reading of the
enumerator counts exactly the strictly increasing accepted extensions of the
placed indices. -/
theorem enumTuples_count (alg : NPointAlg D B) :
    ∀ (rest : List (List Int)) (placed : List Int) (ok : List Bool) (pool : List Int),
      placed.Sorted (fun a b => a < b) → (∀ p ∈ placed, p ∈ pool) →
      symmetryContiguous pool rest = true →
      (enumTuples alg rest placed ok).1
        = ((tuplesOf rest).filter (fun t =>
            decide ((placed ++ t).Sorted (fun a b => a < b)) && acceptedFrom alg t placed ok)).length := by
  intro rest
  induction rest with
  | nil =>
    intro placed ok pool hs _ _
    simp [enumTuples, tuplesOf, acceptedFrom, hs]
  | cons k_rows rest ih =>
    intro placed ok pool hs hsub hord
    simp only [symmetryContiguous, Bool.and_eq_true, List.all_eq_true, decide_eq_true_eq] at hord
    rw [length_filter_tuplesOf_cons]
    simp only [enumTuples]
    apply enumCandidates_count alg placed.length placed ok _ _ pool hsub
    · intro c hc hlt hm
      have hs' : (placed ++ [c]).Sorted (fun a b => a < b) := by
        apply List.pairwise_append.2
        refine ⟨hs, by simp, ?_⟩
        intro a ha b hb
        simp at hb
        subst hb
        exact hlt a ha
      rw [ih (placed ++ [c]) _ (pool ++ k_rows) hs'
        (by
          intro p hp
          rcases List.mem_append.1 hp with h | h
          · exact List.mem_append.2 (Or.inl (hsub p h))
          · simp at h; subst h; exact List.mem_append.2 (Or.inr hc))
        hord.2]
      simp [acceptedFrom, hm]
    · intro c _ hex
      obtain ⟨p, hp, hcp⟩ := hex
      have : ∀ t : List Int, ¬ (placed ++ c :: t).Sorted (fun a b => a < b) :=
        fun t => not_sorted_of_le placed t c p hp hcp
      simp [this]
    · intro c _ hm
      simp [acceptedFrom, hm]
    · intro p hp
      exact hord.1 p hp

/-- C2 fails on the code: points at 0, 1, 2, 3, 10 on a line, tuple size 3, a
matcher accepting triples of maximum pairwise distance at most 3. On the valid
tree that is a single leaf over the five points, `DepthFirstRecursion_` with all
positions at the root returns 0 at every recursion budget, while the
brute-force count is 4. -/
theorem DepthFirstRecursion_single_leaf_returns_zero :
    (leafOver 0 5).validPartition = true
      ∧ (∀ depth : Nat, DepthFirstRecursion_ (lineAlg fivePoints (fun _ => 1) 3 9) (depth + 1)
            [leafOver 0 5, leafOver 0 5, leafOver 0 5] (-1) 0
          = some (0, [leafOver 0 5, leafOver 0 5, leafOver 0 5], 0))
      ∧ bruteForceCount (lineAlg fivePoints (fun _ => 1) 3 9)
          [[0, 1, 2, 3, 4], [0, 1, 2, 3, 4], [0, 1, 2, 3, 4]] = 4 := by
  refine ⟨by decide, fun depth => ?_, by decide⟩
  have h : DepthFirstRecursion_ (lineAlg fivePoints (fun _ => 1) 3 9) 1
      [leafOver 0 5, leafOver 0 5, leafOver 0 5] (-1) 0
        = some (0, [leafOver 0 5, leafOver 0 5, leafOver 0 5], 0) := by decide
  exact h

/-- C3 fails on the code: points at 0, 1, 2 on a line, tuple size 2, pairs
accepted within squared distance 1. On the valid tree with the leaves `[0, 2)`
and `[2, 3)`, `DepthFirstRecursion_` on (root, root) returns 1, while two index
pairs, (0, 1) and (1, 2), are within that distance. -/
theorem DepthFirstRecursion_pairs_undercount :
    (nodeOver (leafOver 0 2) (leafOver 2 3)).validPartition = true
      ∧ (DepthFirstRecursion_ (lineAlg (fun i => i) (fun _ => 1) 2 1) 3
            [nodeOver (leafOver 0 2) (leafOver 2 3), nodeOver (leafOver 0 2) (leafOver 2 3)]
            (-1) 0).map Prod.fst = some 1
      ∧ closePairCount (lineAlg (fun i => i) (fun _ => 1) 2 1) 1 3 = 2 := by
  decide

/-- C4 fails on the code: over the points 0, 1, 2 on a line (tuple size 2, pairs
within squared distance 1) the single leaf holding all points and the tree
whose leaves hold one point each are both valid partition trees, and
`DepthFirstRecursion_` returns 0 on the first and 2 on the second. -/
theorem DepthFirstRecursion_depends_on_tree :
    (leafOver 0 3).validPartition = true
      ∧ (nodeOver (leafOver 0 1) (nodeOver (leafOver 1 2) (leafOver 2 3))).validPartition = true
      ∧ (DepthFirstRecursion_ (lineAlg (fun i => i) (fun _ => 1) 2 1) 5
            [leafOver 0 3, leafOver 0 3] (-1) 0).map Prod.fst = some 0
      ∧ (DepthFirstRecursion_ (lineAlg (fun i => i) (fun _ => 1) 2 1) 5
            [nodeOver (leafOver 0 1) (nodeOver (leafOver 1 2) (leafOver 2 3)),
              nodeOver (leafOver 0 1) (nodeOver (leafOver 1 2) (leafOver 2 3))] (-1) 0).map
          Prod.fst = some 2 := by
  decide

/-- C5 fails on the code: with tuple size 2, weights 2 and 3 for the points 0
and 1, `num_tuples_ = 0` and the candidate lists `[0]` and `[1]`, the one tuple
`(0, 1)` is completed and the count grows by one, but `*weighted_result` grows
by 1 (the empty product of the loop `a < num_tuples_`), not by the product 6 of
the weights of the two indices of the tuple. -/
theorem BaseCase_weight_ignores_tuple :
    BaseCase_ (lineAlg (fun i => i) (fun i => if i = 0 then 2 else 3) 2 100) [[0], [1]] 0
        = some (1, 1)
      ∧ (lineAlg (fun i => i) (fun i => if i = 0 then 2 else 3) 2 100).data_weights_ 0
          * (lineAlg (fun i => i) (fun i => if i = 0 then 2 else 3) 2 100).data_weights_ 1 = 6 := by
  constructor
  · simp [BaseCase_, BaseCaseHelper_, candidateLoop, previousPointsLoop, weightLoop, lineAlg,
      withinMatcher, PointsViolateSymmetry_, List.range, List.range.loop]
  · simp [lineAlg]; norm_num

theorem weightLoop_ones (alg : NPointAlg D B) (hw : ∀ i, alg.data_weights_ i = 1)
    (pts : List Int) :
    ∀ (as : List Nat) (v x : ℚ), weightLoop alg pts as v = some x → x = v := by
  intro as
  induction as with
  | nil => intro v x h; simp [weightLoop] at h; exact h.symm
  | cons a as ih =>
    intro v x h
    simp only [weightLoop] at h
    cases hp : pts[a]? with
    | none => simp [hp] at h
    | some p =>
      simp only [hp, hw, mul_one] at h
      exact ih v x h

theorem candidateLoop_weight_ones (alg : NPointAlg D B) (hw : ∀ i, alg.data_weights_ i = 1)
    (recurse : List Bool → List Int → ℚ → Option (Nat × List Int × ℚ))
    (hrec : ∀ ok pts w r after w1, recurse ok pts w = some (r, after, w1) → w1 = w + r)
    (ok : List Bool) (k : Nat) :
    ∀ (cs : List Int) (bad : Bool) (r0 : Nat) (pts : List Int) (w : ℚ) (r : Nat)
      (after : List Int) (w1 : ℚ),
      candidateLoop alg recurse ok k cs bad r0 pts w = some (r, after, w1) →
      w1 + r0 = w + r := by
  intro cs
  induction cs with
  | nil =>
    intro bad r0 pts w r after w1 h
    simp [candidateLoop] at h
    obtain ⟨h1, _, h3⟩ := h
    rw [h1, h3]
  | cons c cs ih =>
    intro bad r0 pts w r after w1 h
    simp only [candidateLoop] at h
    split at h
    · simp at h
      obtain ⟨h1, _, h3⟩ := h
      rw [h1, h3]
    · split at h
      · simp at h
      · split at h
        · split at h
          · split at h
            · split at h
              · simp at h
              · rename_i x hx
                have := weightLoop_ones alg hw _ _ _ _ hx
                subst this
                have := ih _ _ _ _ _ _ _ h
                push_cast at this
                linarith
            · split at h
              · simp at h
              · rename_i r2 a2 w2 hr
                have h1 := hrec _ _ _ _ _ _ hr
                have h2 := ih _ _ _ _ _ _ _ h
                push_cast at h2
                linarith
          · simp at h
        · exact ih _ _ _ _ _ _ _ h

theorem BaseCaseHelper_weight_ones (alg : NPointAlg D B) (hw : ∀ i, alg.data_weights_ i = 1)
    (point_sets : List (List Int)) :
    ∀ (levels : Nat) (ok : List Bool) (pts : List Int) (w : ℚ) (k r : Nat) (after : List Int)
      (w1 : ℚ),
      BaseCaseHelper_ alg point_sets levels ok pts w k = some (r, after, w1) → w1 = w + r := by
  intro levels
  induction levels with
  | zero => intro ok pts w k r after w1 h; simp [BaseCaseHelper_] at h
  | succ levels ih =>
    intro ok pts w k r after w1 h
    simp only [BaseCaseHelper_] at h
    split at h
    · simp at h
    · have := candidateLoop_weight_ones alg hw _
        (fun ok2 p2 w2 r2 a2 w3 h2 => ih ok2 p2 w2 (k + 1) r2 a2 w3 h2) _ _ _ _ _ _ _ _ _ _ h
      simpa using this

/-- The loop over `j` does not fault on positions inside the node array, and
every `return` in it returns 0. -/
theorem pairLoop_total (alg : NPointAlg D B) (nodes : List (NPointNode B))
    (node_i : NPointNode B) (i : Nat) :
    ∀ (js : List Nat) (s : ScanState), (∀ j ∈ js, j < nodes.length) →
      (∃ s1, pairLoop alg nodes node_i i js s = some (ScanExit.returned 0 s1)) ∨
      (∃ s1, pairLoop alg nodes node_i i js s = some (ScanExit.completed s1)) := by
  intro js
  induction js with
  | nil => intro s _; exact Or.inr ⟨s, rfl⟩
  | cons j js ih =>
    intro s h
    have hj : j < nodes.length := h j (by simp)
    simp only [pairLoop, List.getElem?_eq_getElem hj]
    split
    · exact Or.inl ⟨_, rfl⟩
    · split
      · exact Or.inl ⟨_, rfl⟩
      · exact ih _ (fun x hx => h x (by simp [hx]))

/-- The loop over `j` returns 0 when it meets a node that ends at or before the
beginning of `node_i`, unless it has returned 0 before. -/
theorem pairLoop_order_violation (alg : NPointAlg D B) (nodes : List (NPointNode B))
    (node_i : NPointNode B) (i : Nat) :
    ∀ (js : List Nat) (s : ScanState), (∀ j ∈ js, j < nodes.length) →
      (∃ j ∈ js, ∃ node_j, nodes[j]? = some node_j ∧ node_j.end_ ≤ node_i.begin) →
      ∃ s1, pairLoop alg nodes node_i i js s = some (ScanExit.returned 0 s1) := by
  intro js
  induction js with
  | nil => intro s _ h; simp at h
  | cons j js ih =>
    intro s h hex
    have hj : j < nodes.length := h j (by simp)
    simp only [pairLoop, List.getElem?_eq_getElem hj]
    split
    · exact ⟨_, rfl⟩
    · rename_i hno
      split
      · exact ⟨_, rfl⟩
      · apply ih _ (fun x hx => h x (by simp [hx]))
        obtain ⟨j1, hj1, nd, hnd, hv⟩ := hex
        rcases List.mem_cons.1 hj1 with e | e
        · subst e
          rw [List.getElem?_eq_getElem hj] at hnd
          simp at hnd
          subst hnd
          exact absurd hv hno
        · exact ⟨j1, e, nd, hnd, hv⟩

theorem mainLoop_total (alg : NPointAlg D B) (nodes : List (NPointNode B))
    (hlen : alg.tuple_size_ ≤ nodes.length) :
    ∀ (is : List Nat) (s : ScanState), (∀ i ∈ is, i < nodes.length) →
      (∃ s1, mainLoop alg nodes is s = some (ScanExit.returned 0 s1)) ∨
      (∃ s1, mainLoop alg nodes is s = some (ScanExit.completed s1)) := by
  intro is
  induction is with
  | nil => intro s _; exact Or.inr ⟨s, rfl⟩
  | cons i is ih =>
    intro s h
    have hi : i < nodes.length := h i (by simp)
    simp only [mainLoop, List.getElem?_eq_getElem hi]
    have hjs : ∀ j ∈ List.range' (i + 1) (alg.tuple_size_ - (i + 1)), j < nodes.length := by
      intro j hj
      have := List.mem_range'_1.1 hj
      omega
    rcases pairLoop_total alg nodes nodes[i] i _ (noteNode nodes[i] i s) hjs with
      ⟨s1, h1⟩ | ⟨s1, h1⟩
    · rw [h1]; exact Or.inl ⟨s1, rfl⟩
    · rw [h1]; exact ih s1 (fun x hx => h x (by simp [hx]))

/-- The main loop returns 0 when some pair of positions `i < j` below
`tuple_size_` is out of order. -/
theorem mainLoop_order_violation (alg : NPointAlg D B) (nodes : List (NPointNode B))
    (hlen : alg.tuple_size_ ≤ nodes.length) (i j : Nat) (hij : i < j)
    (hj : j < alg.tuple_size_) (node_i node_j : NPointNode B)
    (hi1 : nodes[i]? = some node_i) (hj1 : nodes[j]? = some node_j)
    (hviol : node_j.end_ ≤ node_i.begin) :
    ∀ (is : List Nat) (s : ScanState), (∀ x ∈ is, x < nodes.length) → i ∈ is →
      ∃ s1, mainLoop alg nodes is s = some (ScanExit.returned 0 s1) := by
  intro is
  induction is with
  | nil => intro s _ h; simp at h
  | cons i0 is ih =>
    intro s h hmem
    have hi0 : i0 < nodes.length := h i0 (by simp)
    simp only [mainLoop, List.getElem?_eq_getElem hi0]
    have hjs : ∀ x ∈ List.range' (i0 + 1) (alg.tuple_size_ - (i0 + 1)), x < nodes.length := by
      intro x hx
      have := List.mem_range'_1.1 hx
      omega
    rcases pairLoop_total alg nodes nodes[i0] i0 _ (noteNode nodes[i0] i0 s) hjs with
      ⟨s1, h1⟩ | ⟨s1, h1⟩
    · rw [h1]; exact ⟨s1, rfl⟩
    · rw [h1]
      rcases List.mem_cons.1 hmem with e | e
      · subst e
        have hn : nodes[i] = node_i := by
          rw [List.getElem?_eq_getElem hi0] at hi1
          simpa using hi1
        obtain ⟨s2, h2⟩ := pairLoop_order_violation alg nodes nodes[i] i _
          (noteNode nodes[i] i s) hjs
          ⟨j, List.mem_range'_1.2 ⟨by omega, by omega⟩, node_j, hj1, by rw [hn]; exact hviol⟩
        rw [h2] at h1
        simp at h1
      · exact ih s1 (fun x hx => h x (by simp [hx])) e

/-- The call returns what the main loop returns when the loop is left through
one of its `return` statements: lines 225-276 are not reached, at any
recursion budget. -/
theorem DepthFirstRecursion_of_returned (alg : NPointAlg D B) (nodes : List (NPointNode B))
    (hlen : nodes.length = alg.tuple_size_) (depth : Nat) (previous_split : Int) (prunes : Nat)
    (v : Nat) (s : ScanState)
    (h : mainLoop alg nodes (List.range alg.tuple_size_)
      ⟨true, -1, -1, List.replicate alg.matcher_.num_permutations alg.SUBSUME, prunes⟩
        = some (ScanExit.returned v s)) :
    DepthFirstRecursion_ alg (depth + 1) nodes previous_split prunes
      = some (v, nodes, s.num_exclusion_prunes_) := by
  simp [DepthFirstRecursion_, hlen, h]

/-- C9: for every node array of length `tuple_size_` in which some pair of
positions `i < j` has `end(nodes[j]) <= begin(nodes[i])`, whatever the matcher
answers, the main loop of `DepthFirstRecursion_` is left through a `return 0`,
so the call returns 0 with the node array untouched, at every recursion budget
(also budget 1, which admits no recursive call): neither the base case nor a
child is reached. -/
theorem DepthFirstRecursion_order_violation (alg : NPointAlg D B) (nodes : List (NPointNode B))
    (hlen : nodes.length = alg.tuple_size_) (i j : Nat) (hij : i < j)
    (node_i node_j : NPointNode B) (hi : nodes[i]? = some node_i) (hj : nodes[j]? = some node_j)
    (hviol : node_j.end_ ≤ node_i.begin) (depth : Nat) (previous_split : Int) (prunes : Nat) :
    ∃ s : ScanState,
      mainLoop alg nodes (List.range alg.tuple_size_)
          ⟨true, -1, -1, List.replicate alg.matcher_.num_permutations alg.SUBSUME, prunes⟩
        = some (ScanExit.returned 0 s)
      ∧ DepthFirstRecursion_ alg (depth + 1) nodes previous_split prunes
        = some (0, nodes, s.num_exclusion_prunes_) := by
  have hjl : j < nodes.length := by
    by_contra hc
    have : nodes[j]? = none := by simp; omega
    rw [this] at hj; simp at hj
  obtain ⟨s, hs⟩ := mainLoop_order_violation alg nodes (by omega) i j hij (by omega)
    node_i node_j hi hj hviol (List.range alg.tuple_size_)
    ⟨true, -1, -1, List.replicate alg.matcher_.num_permutations alg.SUBSUME, prunes⟩
    (by intro x hx; have := List.mem_range.1 hx; omega)
    (List.mem_range.2 (by omega))
  exact ⟨s, hs, DepthFirstRecursion_of_returned alg nodes hlen depth previous_split prunes 0 s hs⟩

/-- C9 at the leaves `[2, 4)` and `[0, 2)`, in this order. -/
theorem DepthFirstRecursion_order_violation_witness :
    ([leafOver 2 4, leafOver 0 2] : List (NPointNode Unit)).length
        = (lineAlg (fun i => i) (fun _ => 1) 2 100).tuple_size_
      ∧ 0 < 1
      ∧ ([leafOver 2 4, leafOver 0 2] : List (NPointNode Unit))[0]? = some (leafOver 2 4)
      ∧ ([leafOver 2 4, leafOver 0 2] : List (NPointNode Unit))[1]? = some (leafOver 0 2)
      ∧ (leafOver 0 2).end_ ≤ (leafOver 2 4).begin
      ∧ ∃ s : ScanState,
          mainLoop (lineAlg (fun i => i) (fun _ => 1) 2 100) [leafOver 2 4, leafOver 0 2]
              (List.range (lineAlg (fun i => i) (fun _ => 1) 2 100).tuple_size_)
              ⟨true, -1, -1, List.replicate
                (lineAlg (fun i => i) (fun _ => 1) 2 100).matcher_.num_permutations
                (lineAlg (fun i => i) (fun _ => 1) 2 100).SUBSUME, 0⟩
            = some (ScanExit.returned 0 s)
          ∧ DepthFirstRecursion_ (lineAlg (fun i => i) (fun _ => 1) 2 100) (0 + 1)
              [leafOver 2 4, leafOver 0 2] (-1) 0
            = some (0, [leafOver 2 4, leafOver 0 2], s.num_exclusion_prunes_) :=
  ⟨by decide, by decide, by decide, by decide, by decide,
    DepthFirstRecursion_order_violation (lineAlg (fun i => i) (fun _ => 1) 2 100)
      [leafOver 2 4, leafOver 0 2] (by decide) 0 1 (by decide) (leafOver 2 4) (leafOver 0 2)
      (by decide) (by decide) (by decide) 0 (-1) 0⟩

theorem noteNode_permutation_ok (node_i : NPointNode B) (i : Nat) (s : ScanState) :
    (noteNode node_i i s).permutation_ok = s.permutation_ok := by
  unfold noteNode; split <;> [split; skip] <;> rfl

theorem noteNode_prunes (node_i : NPointNode B) (i : Nat) (s : ScanState) :
    (noteNode node_i i s).num_exclusion_prunes_ = s.num_exclusion_prunes_ := by
  unfold noteNode; split <;> [split; skip] <;> rfl

theorem pairLoop_reaches (alg : NPointAlg D B) (nodes : List (NPointNode B))
    (node_i : NPointNode B) (i : Nat) (hi : nodes[i]? = some node_i)
    (more : List (Nat × Nat)) :
    ∀ (js : List Nat) (s : ScanState), (∀ j ∈ js, j < nodes.length) →
      reachesExclude alg nodes (js.map (fun j => (i, j)) ++ more) s.permutation_ok = true →
      (∃ s1, pairLoop alg nodes node_i i js s = some (ScanExit.returned 0 s1)
          ∧ s1.num_exclusion_prunes_ = s.num_exclusion_prunes_ + 1) ∨
      (∃ s1, pairLoop alg nodes node_i i js s = some (ScanExit.completed s1)
          ∧ s1.num_exclusion_prunes_ = s.num_exclusion_prunes_
          ∧ reachesExclude alg nodes more s1.permutation_ok = true) := by
  intro js
  induction js with
  | nil => intro s _ h; exact Or.inr ⟨s, rfl, rfl, by simpa using h⟩
  | cons j js ih =>
    intro s hl h
    have hj : j < nodes.length := hl j (by simp)
    simp only [List.map_cons, List.cons_append, reachesExclude, hi,
      List.getElem?_eq_getElem hj] at h
    simp only [pairLoop, List.getElem?_eq_getElem hj]
    by_cases hv : nodes[j].end_ ≤ node_i.begin
    · simp [hv] at h
    · simp only [hv, if_false] at h ⊢
      by_cases he : ((alg.matcher_.TestHrectPair node_i.bound nodes[j].bound i j
          s.permutation_ok).1 == alg.EXCLUDE) = true
      · simp only [he, if_true]
        exact Or.inl ⟨_, rfl, rfl⟩
      · simp only [he] at h ⊢
        simp only [Bool.false_eq_true, if_false] at h ⊢
        exact ih _ (fun x hx => hl x (by simp [hx])) h

theorem mainLoop_reaches (alg : NPointAlg D B) (nodes : List (NPointNode B)) :
    ∀ (is : List Nat) (s : ScanState), (∀ i ∈ is, i < nodes.length) →
      alg.tuple_size_ ≤ nodes.length →
      reachesExclude alg nodes
        (is.flatMap (fun i =>
          (List.range' (i + 1) (alg.tuple_size_ - (i + 1))).map (fun j => (i, j))))
        s.permutation_ok = true →
      ∃ s1, mainLoop alg nodes is s = some (ScanExit.returned 0 s1)
        ∧ s1.num_exclusion_prunes_ = s.num_exclusion_prunes_ + 1 := by
  intro is
  induction is with
  | nil => intro s _ _ h; simp [reachesExclude] at h
  | cons i is ih =>
    intro s hl hlen h
    have hi : i < nodes.length := hl i (by simp)
    simp only [List.flatMap_cons] at h
    simp only [mainLoop, List.getElem?_eq_getElem hi]
    have hjs : ∀ x ∈ List.range' (i + 1) (alg.tuple_size_ - (i + 1)), x < nodes.length := by
      intro x hx
      have := List.mem_range'_1.1 hx
      omega
    rw [← noteNode_permutation_ok nodes[i] i s] at h
    rcases pairLoop_reaches alg nodes nodes[i] i (List.getElem?_eq_getElem hi) _ _
        (noteNode nodes[i] i s) hjs h with ⟨s1, h1, h2⟩ | ⟨s1, h1, h2, h3⟩
    · rw [h1]
      exact ⟨s1, rfl, by rw [h2, noteNode_prunes]⟩
    · rw [h1]
      obtain ⟨s2, h4, h5⟩ := ih s1 (fun x hx => hl x (by simp [hx])) hlen h3
      exact ⟨s2, h4, by rw [h5, h2, noteNode_prunes]⟩

/-- C10: for every node array (of length `tuple_size_`, all nodes leaves or
not), if the scan of the pairs `i < j` in lexicographic order, each tested with
the status array narrowed by the earlier pairs of the same call, reaches a pair
for which `TestHrectPair` returns `EXCLUDE`, then the main loop of
`DepthFirstRecursion_` is left through its `return` of the exclusion prune:
the call returns 0 with one more exclusion prune counted and the node array
untouched, at every recursion budget (also budget 1, which admits no recursive
call), so neither the base case nor a child is reached. -/
theorem DepthFirstRecursion_exclusion_prune (alg : NPointAlg D B) (nodes : List (NPointNode B))
    (hlen : nodes.length = alg.tuple_size_)
    (hreach : reachesExclude alg nodes (pairsLex alg.tuple_size_)
      (List.replicate alg.matcher_.num_permutations alg.SUBSUME) = true)
    (depth : Nat) (previous_split : Int) (prunes : Nat) :
    (∃ s : ScanState,
      mainLoop alg nodes (List.range alg.tuple_size_)
          ⟨true, -1, -1, List.replicate alg.matcher_.num_permutations alg.SUBSUME, prunes⟩
        = some (ScanExit.returned 0 s))
      ∧ DepthFirstRecursion_ alg (depth + 1) nodes previous_split prunes
        = some (0, nodes, prunes + 1) := by
  obtain ⟨s, hs, hp⟩ := mainLoop_reaches alg nodes (List.range alg.tuple_size_)
    ⟨true, -1, -1, List.replicate alg.matcher_.num_permutations alg.SUBSUME, prunes⟩
    (by intro x hx; have := List.mem_range.1 hx; omega) (by omega) hreach
  refine ⟨⟨s, hs⟩, ?_⟩
  rw [DepthFirstRecursion_of_returned alg nodes hlen depth previous_split prunes 0 s hs, hp]

theorem checkAgainst_blocked (alg : NPointAlg D B) (c : Int) (k : Nat) :
    ∀ (placed : List Int) (j0 : Nat) (ok : List Bool) (i : Nat) (p : Int),
      placed[i]? = some p →
      (c ≤ p ∨ ∀ ok1, (alg.matcher_.TestPointPair (alg.DistanceSqEuclidean c p) (j0 + i) k
        ok1).1 = false) →
      (checkAgainst alg c k j0 placed ok).bad_symmetry = true
        ∨ (checkAgainst alg c k j0 placed ok).this_point_works = false := by
  intro placed
  induction placed with
  | nil => intro j0 ok i p h; simp at h
  | cons p0 placed ih =>
    intro j0 ok i p hp hblock
    by_cases hv : PointsViolateSymmetry_ p0 c = true
    · left; simp [checkAgainst, hv]
    · simp only [checkAgainst, hv]
      by_cases ht : (alg.matcher_.TestPointPair (alg.DistanceSqEuclidean c p0) j0 k ok).1 = true
      · simp only [ht, if_true, Bool.false_eq_true, if_false]
        cases i with
        | zero =>
          simp at hp
          subst hp
          rcases hblock with h | h
          · exact absurd (by simpa [PointsViolateSymmetry_] using h) hv
          · have := h ok
            simp at this
            rw [this] at ht
            simp at ht
        | succ i =>
          simp at hp
          apply ih (j0 + 1) _ i p hp
          rcases hblock with h | h
          · exact Or.inl h
          · right
            intro ok1
            have := h ok1
            rw [show j0 + (i + 1) = j0 + 1 + i by omega] at this
            exact this
      · right; simp [ht]

theorem enumCandidates_zero (alg : NPointAlg D B) (k : Nat) (placed : List Int)
    (ok : List Bool) (complete : Int → List Bool → Nat × ℚ) :
    ∀ cs : List Int,
      (∀ c ∈ cs, (checkAgainst alg c k 0 placed ok).bad_symmetry = true
        ∨ (checkAgainst alg c k 0 placed ok).this_point_works = false
        ∨ complete c (checkAgainst alg c k 0 placed ok).permutation_ok_copy = (0, 0)) →
      enumCandidates alg k placed ok complete cs = (0, 0) := by
  intro cs
  induction cs with
  | nil => intro _; rfl
  | cons c cs ih =>
    intro h
    have ih' := ih (fun d hd => h d (by simp [hd]))
    simp only [enumCandidates]
    rcases h c (by simp) with hb | hw | hc
    · simp [hb]
    · by_cases hb : (checkAgainst alg c k 0 placed ok).bad_symmetry = true
      · simp [hb]
      · simp [hb, hw, ih']
    · by_cases hb : (checkAgainst alg c k 0 placed ok).bad_symmetry = true
      · simp [hb]
      · by_cases hw : (checkAgainst alg c k 0 placed ok).this_point_works = true
        · simp [hb, hw, hc, ih']
        · simp [hb, hw, ih']

/-- No tuple is completed when, for two positions `i < j`, every candidate of
position `j` either violates symmetry against every index that may stand at
position `i` or is refused by `TestPointPair` with it. -/
theorem enumTuples_zero (alg : NPointAlg D B) (i j : Nat) (hij : i < j) :
    ∀ (rest : List (List Int)) (placed : List Int) (ok : List Bool),
      placed.length ≤ j →
      (∃ l, rest[j - placed.length]? = some l ∧ ∀ c ∈ l, ∀ p, MayStandAt placed rest i p →
        (c ≤ p ∨ ∀ ok1, (alg.matcher_.TestPointPair (alg.DistanceSqEuclidean c p) i j
          ok1).1 = false)) →
      enumTuples alg rest placed ok = (0, 0) := by
  intro rest
  induction rest with
  | nil => intro placed ok _ h; simp at h
  | cons k_rows rest ih =>
    intro placed ok hle hex
    obtain ⟨l, hl, hblock⟩ := hex
    simp only [enumTuples]
    apply enumCandidates_zero
    intro c hc
    by_cases hjk : j = placed.length
    · subst hjk
      simp at hl
      subst hl
      have hi : i < placed.length := hij
      have hb := hblock c hc placed[i] (Or.inl (List.getElem?_eq_getElem hi))
      rcases checkAgainst_blocked alg c placed.length placed 0 ok i placed[i]
          (List.getElem?_eq_getElem hi) (by simpa using hb) with h | h
      · exact Or.inl h
      · exact Or.inr (Or.inl h)
    · right; right
      apply ih (placed ++ [c]) _ (by simp; omega)
      have hl2 : rest[j - (placed ++ [c]).length]? = some l := by
        have : j - placed.length = (j - (placed.length + 1)) + 1 := by omega
        rw [this] at hl
        simpa using hl
      refine ⟨l, hl2, ?_⟩
      intro d hd p hp
      apply hblock d hd p
      rcases hp with hp | ⟨hp1, l2, hp2, hp3⟩
      · by_cases hip : i < placed.length
        · left
          rw [List.getElem?_append_left hip] at hp
          exact hp
        · right
          have hik : i = placed.length := by
            by_contra hne
            have : (placed ++ [c])[i]? = none := by
              simp; omega
            rw [this] at hp; simp at hp
          subst hik
          simp at hp
          subst hp
          exact ⟨le_refl _, k_rows, by simp, hc⟩
      · right
        simp at hp1
        refine ⟨by omega, l2, ?_, hp3⟩
        have : i - placed.length = (i - (placed.length + 1)) + 1 := by omega
        rw [this]
        simpa using hp2

theorem pairLoopVariant_true_true (alg : NPointAlg D B) (nodes : List (NPointNode B))
    (node_i : NPointNode B) (i : Nat) :
    ∀ (js : List Nat) (s : ScanState),
      pairLoopVariant true true alg nodes node_i i js s = pairLoop alg nodes node_i i js s := by
  intro js
  induction js with
  | nil => intro s; rfl
  | cons j js ih =>
    intro s
    simp only [pairLoopVariant, pairLoop, Bool.true_and, decide_eq_true_eq, ih]

theorem mainLoopVariant_true_true (alg : NPointAlg D B) (nodes : List (NPointNode B)) :
    ∀ (is : List Nat) (s : ScanState),
      mainLoopVariant true true alg nodes is s = mainLoop alg nodes is s := by
  intro is
  induction is with
  | nil => intro s; rfl
  | cons i is ih =>
    intro s
    simp only [mainLoopVariant, mainLoop, pairLoopVariant_true_true, ih]

/-- With both tests kept, the variant is the source function. -/
theorem DepthFirstRecursionVariant_true_true (alg : NPointAlg D B) :
    ∀ (depth : Nat) (nodes : List (NPointNode B)) (previous_split : Int) (prunes : Nat),
      DepthFirstRecursionVariant true true alg depth nodes previous_split prunes
        = DepthFirstRecursion_ alg depth nodes previous_split prunes := by
  intro depth
  induction depth with
  | zero => intro nodes p q; rfl
  | succ depth ih =>
    intro nodes p q
    simp only [DepthFirstRecursionVariant, DepthFirstRecursion_, mainLoopVariant_true_true, ih]

theorem pairLoopVariant_total (oc ec : Bool) (alg : NPointAlg D B) (nodes : List (NPointNode B))
    (node_i : NPointNode B) (i : Nat) :
    ∀ (js : List Nat) (s : ScanState), (∀ j ∈ js, j < nodes.length) →
      (∃ s1, pairLoopVariant oc ec alg nodes node_i i js s = some (ScanExit.returned 0 s1)) ∨
      (∃ s1, pairLoopVariant oc ec alg nodes node_i i js s = some (ScanExit.completed s1)
        ∧ s1.all_leaves = s.all_leaves ∧ s1.split_index = s.split_index
        ∧ s1.split_count = s.split_count) := by
  intro js
  induction js with
  | nil => intro s _; exact Or.inr ⟨s, rfl, rfl, rfl, rfl⟩
  | cons j js ih =>
    intro s h
    have hj : j < nodes.length := h j (by simp)
    simp only [pairLoopVariant, List.getElem?_eq_getElem hj]
    split
    · exact Or.inl ⟨_, rfl⟩
    · split
      · exact Or.inl ⟨_, rfl⟩
      · exact ih _ (fun x hx => h x (by simp [hx]))

theorem noteNode_splitReady (nodes : List (NPointNode B)) (node_i : NPointNode B) (i : Nat)
    (s : ScanState) (hi : nodes[i]? = some node_i)
    (hc : node_i.is_leaf = false → 0 ≤ node_i.count) (hs : SplitReady nodes s) :
    SplitReady nodes (noteNode node_i i s) := by
  unfold noteNode
  cases hl : node_i.is_leaf with
  | true => simpa using hs
  | false =>
    have h0 := hc hl
    simp only [Bool.not_false, if_true]
    by_cases hgt : node_i.count > s.split_count
    · simp only [hgt, if_true]
      refine ⟨by simp, fun _ => ⟨by simp, node_i, by simpa using hi, hl⟩⟩
    · simp only [hgt, if_false]
      refine ⟨by simp, fun _ => ?_⟩
      cases ha : s.all_leaves with
      | true =>
        have := hs.1 ha
        omega
      | false => exact hs.2 ha

theorem mainLoopVariant_splitReady (oc ec : Bool) (alg : NPointAlg D B)
    (nodes : List (NPointNode B)) (hlen : alg.tuple_size_ ≤ nodes.length)
    (hc : ∀ nd ∈ nodes, nd.is_leaf = false → 0 ≤ nd.count) :
    ∀ (is : List Nat) (s : ScanState), (∀ i ∈ is, i < nodes.length) → SplitReady nodes s →
      (∃ s1, mainLoopVariant oc ec alg nodes is s = some (ScanExit.returned 0 s1)) ∨
      (∃ s1, mainLoopVariant oc ec alg nodes is s = some (ScanExit.completed s1)
        ∧ SplitReady nodes s1) := by
  intro is
  induction is with
  | nil => intro s _ hs; exact Or.inr ⟨s, rfl, hs⟩
  | cons i is ih =>
    intro s h hs
    have hi : i < nodes.length := h i (by simp)
    simp only [mainLoopVariant, List.getElem?_eq_getElem hi]
    have hjs : ∀ j ∈ List.range' (i + 1) (alg.tuple_size_ - (i + 1)), j < nodes.length := by
      intro j hj
      have := List.mem_range'_1.1 hj
      omega
    have hs1 := noteNode_splitReady nodes nodes[i] i s (List.getElem?_eq_getElem hi)
      (hc _ (List.getElem_mem _)) hs
    rcases pairLoopVariant_total oc ec alg nodes nodes[i] i _ (noteNode nodes[i] i s) hjs with
      ⟨s1, h1⟩ | ⟨s1, h1, ha, hb, hcnt⟩
    · rw [h1]; exact Or.inl ⟨s1, rfl⟩
    · rw [h1]
      apply ih s1 (fun x hx => h x (by simp [hx]))
      unfold SplitReady at hs1 ⊢
      rw [ha, hb, hcnt]
      exact hs1

theorem fillPointSets_range' (nodes : List (NPointNode B)) :
    ∀ (len m : Nat), m + len ≤ nodes.length →
      fillPointSets nodes (List.range' m len) = some (((nodes.drop m).take len).map nodePoints) := by
  intro len
  induction len with
  | zero => intro m _; simp [fillPointSets]
  | succ len ih =>
    intro m h
    have hm : m < nodes.length := by omega
    have hd : nodes.drop m = nodes[m] :: nodes.drop (m + 1) := by simp
    simp only [List.range'_succ, fillPointSets, List.getElem?_eq_getElem hm, ih (m + 1) (by omega),
      hd, List.take_succ_cons, List.map_cons, nodePoints]

theorem fillPointSets_eq (nodes : List (NPointNode B)) (n : Nat) (h : nodes.length = n) :
    fillPointSets nodes (List.range n) = some (nodes.map nodePoints) := by
  rw [List.range_eq_range', fillPointSets_range' nodes n 0 (by omega)]
  simp [← h]

theorem mem_nodePoints (nd : NPointNode B) (p : Int) (h : p ∈ nodePoints nd) :
    nd.begin ≤ p ∧ p < nd.begin + nd.count := by
  simp only [nodePoints, List.mem_map, List.mem_range] at h
  obtain ⟨j, hj, rfl⟩ := h
  omega

theorem rangesNested_end (nd : NPointNode B) (h : nd.rangesNested = true) :
    nd.end_ = nd.begin + nd.count ∧ 0 ≤ nd.count := by
  cases nd with
  | leaf b e c bd =>
    simp [NPointNode.rangesNested] at h
    exact ⟨h.1, h.2⟩
  | inner b e c bd l r =>
    simp [NPointNode.rangesNested] at h
    exact ⟨h.1.1.1.1.1.1.1, h.1.1.1.1.1.1.2⟩

theorem rangesNested_children (nd l r : NPointNode B) (h : nd.rangesNested = true)
    (hl : nd.left = some l) (hr : nd.right = some r) :
    l.rangesNested = true ∧ r.rangesNested = true ∧ nd.begin ≤ l.begin ∧ l.end_ ≤ nd.end_
      ∧ nd.begin ≤ r.begin ∧ r.end_ ≤ nd.end_ ∧ nd.splits = 1 + l.splits + r.splits := by
  cases nd with
  | leaf b e c bd => simp [NPointNode.left] at hl
  | inner b e c bd l1 r1 =>
    simp [NPointNode.left, NPointNode.right] at hl hr
    subst hl; subst hr
    simp [NPointNode.rangesNested] at h
    simp [NPointNode.begin, NPointNode.end_, NPointNode.splits]
    tauto

theorem children_of_not_leaf (nd : NPointNode B) (h : nd.is_leaf = false) :
    ∃ l r, nd.left = some l ∧ nd.right = some r := by
  cases nd with
  | leaf b e c bd => simp [NPointNode.is_leaf] at h
  | inner b e c bd l r => exact ⟨l, r, rfl, rfl⟩

/-- The variant hands back the node array it was given. -/
theorem DepthFirstRecursionVariant_nodes (oc ec : Bool) (alg : NPointAlg D B) :
    ∀ (depth : Nat) (nodes : List (NPointNode B)) (previous_split : Int) (prunes n : Nat)
      (nodes1 : List (NPointNode B)) (prunes1 : Nat),
      DepthFirstRecursionVariant oc ec alg depth nodes previous_split prunes
        = some (n, nodes1, prunes1) → nodes1 = nodes := by
  intro depth
  induction depth with
  | zero => intro nodes p q n nodes1 q1 h; simp [DepthFirstRecursionVariant] at h
  | succ depth ih =>
    intro nodes p q n nodes1 q1 h
    simp only [DepthFirstRecursionVariant] at h
    split at h
    · simp at h
    · split at h
      · simp at h
      · simp at h; exact h.2.1.symm
      · split at h
        · split at h
          · simp at h
          · split at h
            · simp at h
            · simp at h; exact h.2.1.symm
        · split at h
          · simp at h
          · split at h
            · simp at h
            · rename_i split_node hsn
              split at h
              · rename_i l r hl hr
                split at h
                · simp at h
                · rename_i n1 nd1 p1 h1
                  split at h
                  · simp at h
                  · rename_i n2 nd2 p2 h2
                    have e1 := ih _ _ _ _ _ _ h1
                    have e2 := ih _ _ _ _ _ _ h2
                    simp at h
                    rw [← h.2.1, e2, e1]
                    rw [List.set_set, List.set_set]
                    apply List.ext_getElem?
                    intro a
                    by_cases ha : a = (ScanState.split_index ‹_›).toNat
                    · subst ha
                      rw [List.getElem?_set]
                      simp only [if_true]
                      split
                      · exact hsn.symm
                      · rename_i hlt
                        simp at hlt
                        rw [List.getElem?_eq_none_iff.2 (by omega)]
                    · rw [List.getElem?_set]
                      simp [Ne.symm ha]
              · simp at h

theorem sum_map_set (f : NPointNode B → Nat) :
    ∀ (nodes : List (NPointNode B)) (k : Nat) (nd x : NPointNode B), nodes[k]? = some nd →
      ((nodes.set k x).map f).sum + f nd = (nodes.map f).sum + f x := by
  intro nodes
  induction nodes with
  | nil => intro k nd x h; simp at h
  | cons a nodes ih =>
    intro k nd x h
    cases k with
    | zero =>
      simp at h
      subst h
      simp; omega
    | succ k =>
      simp at h
      have := ih k nd x h
      simp only [List.set_cons_succ, List.map_cons, List.sum_cons]
      omega

theorem set_set_self (nodes : List (NPointNode B)) (k : Nat) (nd x : NPointNode B)
    (h : nodes[k]? = some nd) : (nodes.set k x).set k nd = nodes := by
  rw [List.set_set]
  apply List.ext_getElem?
  intro a
  rw [List.getElem?_set]
  by_cases ha : k = a
  · subst ha
    simp only [if_true]
    split
    · exact h.symm
    · rename_i hlt
      rw [List.getElem?_eq_none_iff.2 (by omega)]
  · simp [ha]

theorem DeadPair_mono (alg : NPointAlg D B) (i j : Nat) (a b a1 b1 : NPointNode B)
    (h : DeadPair alg i j a b) (ha1 : a.begin ≤ a1.begin) (ha2 : a1.end_ ≤ a.end_)
    (hb1 : b.begin ≤ b1.begin) (hb2 : b1.end_ ≤ b.end_) : DeadPair alg i j a1 b1 := by
  intro p c h1 h2 h3 h4
  exact h p c (by omega) (by omega) (by omega) (by omega)

/-- A dead pair of positions stays dead when a node is replaced by one whose
range lies inside its own. -/
theorem deadPair_set (alg : NPointAlg D B) (nodes : List (NPointNode B)) (k : Nat)
    (nd x : NPointNode B) (hk : nodes[k]? = some nd) (hx1 : nd.begin ≤ x.begin)
    (hx2 : x.end_ ≤ nd.end_)
    (h : ∃ i j a b, i < j ∧ nodes[i]? = some a ∧ nodes[j]? = some b ∧ DeadPair alg i j a b) :
    ∃ i j a b, i < j ∧ (nodes.set k x)[i]? = some a ∧ (nodes.set k x)[j]? = some b
      ∧ DeadPair alg i j a b := by
  obtain ⟨i, j, a, b, hij, hi, hj, hd⟩ := h
  have hkl : k < nodes.length := by
    by_contra hc
    rw [List.getElem?_eq_none_iff.2 (by omega)] at hk
    simp at hk
  have key : ∀ (m : Nat) (y : NPointNode B), nodes[m]? = some y →
      ∃ y1, (nodes.set k x)[m]? = some y1 ∧ y.begin ≤ y1.begin ∧ y1.end_ ≤ y.end_ := by
    intro m y hm
    rw [List.getElem?_set]
    by_cases hkm : k = m
    · subst hkm
      rw [hk] at hm
      simp at hm
      subst hm
      exact ⟨x, by simp [hkl], hx1, hx2⟩
    · exact ⟨y, by simp [hkm, hm], le_refl _, le_refl _⟩
  obtain ⟨a1, ha1, ha2, ha3⟩ := key i a hi
  obtain ⟨b1, hb1, hb2, hb3⟩ := key j b hj
  exact ⟨i, j, a1, b1, hij, ha1, hb1, DeadPair_mono alg i j a b a1 b1 hd ha2 ha3 hb2 hb3⟩

/-- The all-leaves branch on a node array with a dead pair: the enumerator
completes no tuple. -/
theorem BaseCase_dead_pair (alg : NPointAlg D B) (nodes : List (NPointNode B))
    (hlen : nodes.length = alg.tuple_size_) (hn : ∀ nd ∈ nodes, nd.rangesNested = true)
    (h : ∃ i j a b, i < j ∧ nodes[i]? = some a ∧ nodes[j]? = some b ∧ DeadPair alg i j a b)
    (w : ℚ) :
    BaseCase_ alg (nodes.map nodePoints) w = some (0, w) := by
  obtain ⟨i, j, a, b, hij, hi, hj, hd⟩ := h
  have hjl : j < nodes.length := by
    by_contra hc
    rw [List.getElem?_eq_none_iff.2 (by omega)] at hj
    simp at hj
  have hz : enumTuples alg (nodes.map nodePoints) []
      (List.replicate alg.matcher_.num_permutations true) = (0, 0) := by
    apply enumTuples_zero alg i j hij _ _ _ (by simp)
    refine ⟨nodePoints b, by simp [hj], ?_⟩
    intro c hc p hp
    rcases hp with hp | ⟨_, l, hl, hpl⟩
    · simp at hp
    · simp only [List.length_nil, Nat.sub_zero, List.getElem?_map, hi, Option.map_some'] at hl
      simp at hl
      subst hl
      have ha := rangesNested_end a (hn a (List.getElem?_mem hi))
      have hb := rangesNested_end b (hn b (List.getElem?_mem hj))
      have h1 := mem_nodePoints a p hpl
      have h2 := mem_nodePoints b c hc
      exact hd p c h1.1 (by omega) h2.1 (by omega)
  rw [BaseCase_eq alg _ w (by simpa using hlen) (by omega), hz]
  simp [WeightFault]

theorem splitReady_init (nodes : List (NPointNode B)) (status : List Int) (prunes : Nat) :
    SplitReady nodes ⟨true, -1, -1, status, prunes⟩ :=
  ⟨fun _ => rfl, fun h => by simp at h⟩

theorem rangesNested_set (nodes : List (NPointNode B)) (k : Nat) (x : NPointNode B)
    (hn : ∀ nd ∈ nodes, nd.rangesNested = true) (hx : x.rangesNested = true) :
    ∀ nd ∈ nodes.set k x, nd.rangesNested = true := by
  intro nd hnd
  rcases List.mem_or_eq_of_mem_set hnd with h | h
  · exact hn nd h
  · rw [h]; exact hx

/-- On a node array with a dead pair of positions the traversal, with or
without its pruning checks, returns 0 and hands the array back. -/
theorem DepthFirstRecursionVariant_dead_pair (oc ec : Bool) (alg : NPointAlg D B) :
    ∀ (depth : Nat) (nodes : List (NPointNode B)) (previous_split : Int) (prunes : Nat),
      nodes.length = alg.tuple_size_ → (∀ nd ∈ nodes, nd.rangesNested = true) →
      (nodes.map NPointNode.splits).sum < depth →
      (∃ i j a b, i < j ∧ nodes[i]? = some a ∧ nodes[j]? = some b ∧ DeadPair alg i j a b) →
      ∃ prunes1, DepthFirstRecursionVariant oc ec alg depth nodes previous_split prunes
        = some (0, nodes, prunes1) := by
  intro depth
  induction depth with
  | zero => intro nodes ps pr _ _ hd _; omega
  | succ depth ih =>
    intro nodes ps pr hlen hn hd hdead
    have hdbg : (alg.debug && nodes.length != alg.tuple_size_) = false := by simp [hlen]
    simp only [DepthFirstRecursionVariant, hdbg, Bool.false_eq_true, if_false]
    rcases mainLoopVariant_splitReady oc ec alg nodes (by omega)
        (fun nd hnd _ => (rangesNested_end nd (hn nd hnd)).2) (List.range alg.tuple_size_)
        ⟨true, -1, -1, List.replicate alg.matcher_.num_permutations alg.SUBSUME, pr⟩
        (by intro x hx; have := List.mem_range.1 hx; omega)
        (splitReady_init nodes _ pr) with ⟨s1, h1⟩ | ⟨s1, h1, hs1⟩
    · rw [h1]; exact ⟨_, rfl⟩
    · rw [h1]
      cases hal : s1.all_leaves with
      | true =>
        simp only [hal, if_true, fillPointSets_eq nodes _ hlen,
          BaseCase_dead_pair alg nodes hlen hn hdead]
        exact ⟨_, rfl⟩
      | false =>
        obtain ⟨h0, nd, hnd, hleaf⟩ := hs1.2 hal
        obtain ⟨l, r, hl, hr⟩ := children_of_not_leaf nd hleaf
        have hneg : ¬ s1.split_index < 0 := by omega
        obtain ⟨hln, hrn, hl1, hl2, hr1, hr2, hsp⟩ :=
          rangesNested_children nd l r (hn nd (List.getElem?_mem hnd)) hl hr
        have hsl := sum_map_set NPointNode.splits nodes s1.split_index.toNat nd l hnd
        have hsr := sum_map_set NPointNode.splits nodes s1.split_index.toNat nd r hnd
        obtain ⟨p1, hp1⟩ := ih (nodes.set s1.split_index.toNat l) s1.split_index
          s1.num_exclusion_prunes_ (by simpa using hlen)
          (rangesNested_set nodes _ l hn hln) (by omega)
          (deadPair_set alg nodes _ nd l hnd hl1 hl2 hdead)
        obtain ⟨p2, hp2⟩ := ih (nodes.set s1.split_index.toNat r) s1.split_index
          p1 (by simpa using hlen)
          (rangesNested_set nodes _ r hn hrn) (by omega)
          (deadPair_set alg nodes _ nd r hnd hr1 hr2 hdead)
        have hback := set_set_self nodes _ nd r hnd
        rw [List.set_set] at hback
        simp only [hal, Bool.false_eq_true, if_false, hneg, hnd, hl, hr, hp1, List.set_set, hp2,
          hback]
        exact ⟨_, rfl⟩

theorem pairLoop_sim (oc ec : Bool) (alg : NPointAlg D B) (nodes : List (NPointNode B))
    (node_i : NPointNode B) (i : Nat) :
    ∀ (js : List Nat) (s t : ScanState), SameScan s t → (∀ j ∈ js, j < nodes.length) →
      (∃ s1 t1, pairLoop alg nodes node_i i js s = some (ScanExit.completed s1)
          ∧ pairLoopVariant oc ec alg nodes node_i i js t = some (ScanExit.completed t1)
          ∧ SameScan s1 t1) ∨
      (∃ s1 t1, pairLoop alg nodes node_i i js s = some (ScanExit.returned 0 s1)
          ∧ pairLoopVariant oc ec alg nodes node_i i js t = some (ScanExit.returned 0 t1)) ∨
      (∃ s1, pairLoop alg nodes node_i i js s = some (ScanExit.returned 0 s1)
          ∧ ∃ j ∈ js, ∃ node_j, nodes[j]? = some node_j
            ∧ DroppedTestFires oc ec alg i j node_i node_j) := by
  intro js
  induction js with
  | nil => intro s t h _; exact Or.inl ⟨s, t, rfl, rfl, h⟩
  | cons j js ih =>
    intro s t hst hl
    have hj : j < nodes.length := hl j (by simp)
    obtain ⟨h1, h2, h3, h4⟩ := hst
    simp only [pairLoop, pairLoopVariant, List.getElem?_eq_getElem hj]
    by_cases hv : nodes[j].end_ ≤ node_i.begin
    · simp only [hv, if_true, decide_True, Bool.and_true]
      cases oc with
      | true => exact Or.inr (Or.inl ⟨s, t, rfl, by simp⟩)
      | false =>
        exact Or.inr (Or.inr ⟨_, rfl, j, by simp, nodes[j], List.getElem?_eq_getElem hj,
          Or.inl ⟨rfl, hv⟩⟩)
    · simp only [hv, if_false, decide_False, Bool.and_false, Bool.false_eq_true]
      rw [← h4]
      by_cases he : ((alg.matcher_.TestHrectPair node_i.bound nodes[j].bound i j
          s.permutation_ok).1 == alg.EXCLUDE) = true
      · simp only [he, if_true, Bool.and_true]
        cases ec with
        | true =>
          exact Or.inr (Or.inl ⟨_, ⟨t.all_leaves, t.split_index, t.split_count,
            (alg.matcher_.TestHrectPair node_i.bound nodes[j].bound i j s.permutation_ok).2,
            t.num_exclusion_prunes_ + 1⟩, rfl, by simp⟩)
        | false =>
          exact Or.inr (Or.inr ⟨_, rfl, j, by simp, nodes[j], List.getElem?_eq_getElem hj,
            Or.inr ⟨rfl, s.permutation_ok, by simpa using he⟩⟩)
      · simp only [he, Bool.and_false, Bool.false_eq_true, if_false]
        rcases ih ⟨s.all_leaves, s.split_index, s.split_count,
              (alg.matcher_.TestHrectPair node_i.bound nodes[j].bound i j s.permutation_ok).2,
              s.num_exclusion_prunes_⟩
            ⟨t.all_leaves, t.split_index, t.split_count,
              (alg.matcher_.TestHrectPair node_i.bound nodes[j].bound i j s.permutation_ok).2,
              t.num_exclusion_prunes_⟩
            ⟨h1, h2, h3, rfl⟩ (fun x hx => hl x (by simp [hx])) with h | h | h
        · exact Or.inl h
        · exact Or.inr (Or.inl h)
        · obtain ⟨s1, e1, j1, hj1, rest⟩ := h
          exact Or.inr (Or.inr ⟨s1, e1, j1, by simp [hj1], rest⟩)

theorem noteNode_sameScan (node_i : NPointNode B) (i : Nat) (s t : ScanState)
    (h : SameScan s t) : SameScan (noteNode node_i i s) (noteNode node_i i t) := by
  obtain ⟨h1, h2, h3, h4⟩ := h
  unfold noteNode
  rw [h3]
  split
  · split
    · exact ⟨rfl, rfl, rfl, h4⟩
    · exact ⟨rfl, h2, rfl, h4⟩
  · exact ⟨h1, h2, h3, h4⟩

theorem mainLoop_sim (oc ec : Bool) (alg : NPointAlg D B) (nodes : List (NPointNode B))
    (hlen : alg.tuple_size_ ≤ nodes.length) :
    ∀ (is : List Nat) (s t : ScanState), SameScan s t → (∀ i ∈ is, i < nodes.length) →
      (∃ s1 t1, mainLoop alg nodes is s = some (ScanExit.completed s1)
          ∧ mainLoopVariant oc ec alg nodes is t = some (ScanExit.completed t1)
          ∧ SameScan s1 t1) ∨
      (∃ s1 t1, mainLoop alg nodes is s = some (ScanExit.returned 0 s1)
          ∧ mainLoopVariant oc ec alg nodes is t = some (ScanExit.returned 0 t1)) ∨
      (∃ s1, mainLoop alg nodes is s = some (ScanExit.returned 0 s1)
          ∧ ∃ i j node_i node_j, i < j ∧ nodes[i]? = some node_i ∧ nodes[j]? = some node_j
            ∧ DroppedTestFires oc ec alg i j node_i node_j) := by
  intro is
  induction is with
  | nil => intro s t h _; exact Or.inl ⟨s, t, rfl, rfl, h⟩
  | cons i is ih =>
    intro s t hst hl
    have hi : i < nodes.length := hl i (by simp)
    simp only [mainLoop, mainLoopVariant, List.getElem?_eq_getElem hi]
    have hjs : ∀ j ∈ List.range' (i + 1) (alg.tuple_size_ - (i + 1)), j < nodes.length := by
      intro j hj
      have := List.mem_range'_1.1 hj
      omega
    rcases pairLoop_sim oc ec alg nodes nodes[i] i _ _ _ (noteNode_sameScan nodes[i] i s t hst)
        hjs with ⟨s1, t1, e1, e2, hs⟩ | ⟨s1, t1, e1, e2⟩ | ⟨s1, e1, j, hj, node_j, hnj, hf⟩
    · rw [e1, e2]
      exact ih s1 t1 hs (fun x hx => hl x (by simp [hx]))
    · rw [e1, e2]
      exact Or.inr (Or.inl ⟨s1, t1, rfl, rfl⟩)
    · rw [e1]
      have := List.mem_range'_1.1 hj
      exact Or.inr (Or.inr ⟨s1, rfl, i, j, nodes[i], node_j, by omega,
        List.getElem?_eq_getElem hi, hnj, hf⟩)

theorem self_mem_subnodes (nd : NPointNode B) : nd ∈ nd.subnodes := by
  cases nd <;> simp [NPointNode.subnodes]

theorem subnodes_left (nd l : NPointNode B) (h : nd.left = some l) :
    ∀ x ∈ l.subnodes, x ∈ nd.subnodes := by
  cases nd with
  | leaf b e c bd => simp [NPointNode.left] at h
  | inner b e c bd l1 r1 =>
    simp [NPointNode.left] at h
    subst h
    intro x hx
    simp [NPointNode.subnodes, hx]

theorem subnodes_right (nd r : NPointNode B) (h : nd.right = some r) :
    ∀ x ∈ r.subnodes, x ∈ nd.subnodes := by
  cases nd with
  | leaf b e c bd => simp [NPointNode.right] at h
  | inner b e c bd l1 r1 =>
    simp [NPointNode.right] at h
    subst h
    intro x hx
    simp [NPointNode.subnodes, hx]

theorem ExcludeSound_set (alg : NPointAlg D B) (nodes : List (NPointNode B)) (k : Nat)
    (nd y : NPointNode B) (h : ExcludeSound alg nodes) (hk : nodes[k]? = some nd)
    (hy : ∀ x ∈ y.subnodes, x ∈ nd.subnodes) : ExcludeSound alg (nodes.set k y) := by
  have key : ∀ x ∈ (nodes.set k y).flatMap NPointNode.subnodes,
      x ∈ nodes.flatMap NPointNode.subnodes := by
    intro x hx
    obtain ⟨z, hz, hxz⟩ := List.mem_flatMap.1 hx
    rcases List.mem_or_eq_of_mem_set hz with h1 | h1
    · exact List.mem_flatMap.2 ⟨z, h1, hxz⟩
    · subst h1
      exact List.mem_flatMap.2 ⟨nd, List.getElem?_mem hk, hy x hxz⟩
  intro a ha b hb
  exact h a (key a ha) b (key b hb)

theorem deadPair_of_dropped (oc ec : Bool) (alg : NPointAlg D B) (nodes : List (NPointNode B))
    (i j : Nat) (a b : NPointNode B) (hs : ec = false → ExcludeSound alg nodes)
    (ha : a ∈ nodes) (hb : b ∈ nodes) (h : DroppedTestFires oc ec alg i j a b) :
    DeadPair alg i j a b := by
  intro p c h1 h2 h3 h4
  rcases h with ⟨_, hv⟩ | ⟨he, status, hx⟩
  · left; omega
  · right
    exact hs he a (List.mem_flatMap.2 ⟨a, ha, self_mem_subnodes a⟩) b
      (List.mem_flatMap.2 ⟨b, hb, self_mem_subnodes b⟩) i j status hx p c h1 h2 h3 h4

theorem map_core_eq_cases {α β γ : Type} (x y : Option (α × β × γ))
    (h : x.map (fun r => (r.1, r.2.1)) = y.map (fun r => (r.1, r.2.1))) :
    (x = none ∧ y = none) ∨ (∃ n nd p q, x = some (n, nd, p) ∧ y = some (n, nd, q)) := by
  cases x with
  | none =>
    cases y with
    | none => exact Or.inl ⟨rfl, rfl⟩
    | some b => simp at h
  | some a =>
    cases y with
    | none => simp at h
    | some b =>
      obtain ⟨a1, a2, a3⟩ := a
      obtain ⟨b1, b2, b3⟩ := b
      simp at h
      obtain ⟨h1, h2⟩ := h
      subst h1; subst h2
      exact Or.inr ⟨a1, a2, a3, b3, rfl, rfl⟩

/-- Pruning safety: on node arrays of length `tuple_size_` over trees with
nested ranges, and with a recursion budget that covers the trees, the source
function and its variant without the order test, without the `EXCLUDE` test, or
without both return the same count and the same node array (and fault
together), provided the `EXCLUDE` answers are sound when that test is the one
dropped. -/
theorem DepthFirstRecursion_eq_variant (oc ec : Bool) (alg : NPointAlg D B) :
    ∀ (depth : Nat) (nodes : List (NPointNode B)) (ps pt : Int) (pr qr : Nat),
      nodes.length = alg.tuple_size_ → (∀ nd ∈ nodes, nd.rangesNested = true) →
      (nodes.map NPointNode.splits).sum < depth →
      (ec = false → ExcludeSound alg nodes) →
      (DepthFirstRecursion_ alg depth nodes ps pr).map (fun r => (r.1, r.2.1))
        = (DepthFirstRecursionVariant oc ec alg depth nodes pt qr).map
            (fun r => (r.1, r.2.1)) := by
  intro depth
  induction depth with
  | zero => intro nodes ps pt pr qr _ _ hd _; omega
  | succ depth ih =>
    intro nodes ps pt pr qr hlen hn hd hsound
    have hdbg : (alg.debug && nodes.length != alg.tuple_size_) = false := by simp [hlen]
    rcases mainLoop_sim oc ec alg nodes (by omega) (List.range alg.tuple_size_)
        ⟨true, -1, -1, List.replicate alg.matcher_.num_permutations alg.SUBSUME, pr⟩
        ⟨true, -1, -1, List.replicate alg.matcher_.num_permutations alg.SUBSUME, qr⟩
        ⟨rfl, rfl, rfl, rfl⟩ (by intro x hx; have := List.mem_range.1 hx; omega) with
      ⟨s1, t1, e1, e2, hs⟩ | ⟨s1, t1, e1, e2⟩ | ⟨s1, e1, i, j, a, b, hij, hi, hj, hf⟩
    · obtain ⟨ha, hix, _, _⟩ := hs
      simp only [DepthFirstRecursion_, DepthFirstRecursionVariant, hdbg, e1, e2,
        Bool.false_eq_true, if_false]
      rw [← ha, ← hix]
      cases hal : s1.all_leaves with
      | true =>
        simp only [if_true]
        cases hfill : fillPointSets nodes (List.range alg.tuple_size_) with
        | none => rfl
        | some sets =>
          cases hb : BaseCase_ alg sets 0 with
          | none => simp [hb]
          | some r => simp [hb]
      | false =>
        simp only [Bool.false_eq_true, if_false]
        by_cases hneg : s1.split_index < 0
        · simp [hneg]
        · simp only [hneg, if_false]
          cases hnd : nodes[s1.split_index.toNat]? with
          | none => rfl
          | some nd =>
            cases hleft : nd.left with
            | none => simp [hleft]
            | some l =>
              cases hright : nd.right with
              | none => simp [hleft, hright]
              | some r =>
                obtain ⟨hln, hrn, hl1, hl2, hr1, hr2, hsp⟩ :=
                  rangesNested_children nd l r (hn nd (List.getElem?_mem hnd)) hleft hright
                have hsl := sum_map_set NPointNode.splits nodes s1.split_index.toNat nd l hnd
                have hsr := sum_map_set NPointNode.splits nodes s1.split_index.toNat nd r hnd
                have ih1 := ih (nodes.set s1.split_index.toNat l) s1.split_index s1.split_index
                  s1.num_exclusion_prunes_ t1.num_exclusion_prunes_ (by simpa using hlen)
                  (rangesNested_set nodes _ l hn hln) (by omega)
                  (fun h => ExcludeSound_set alg nodes _ nd l (hsound h) hnd
                    (subnodes_left nd l hleft))
                rcases map_core_eq_cases _ _ ih1 with ⟨x1, x2⟩ | ⟨n1, nd1, p1, q1, x1, x2⟩
                · simp only [hleft, hright, x1, x2]
                · have hfr := DepthFirstRecursionVariant_nodes oc ec alg _ _ _ _ _ _ _ x2
                  subst hfr
                  simp only [hleft, hright, x1, x2, List.set_set]
                  have ih2 := ih (nodes.set s1.split_index.toNat r) s1.split_index
                    s1.split_index p1 q1 (by simpa using hlen)
                    (rangesNested_set nodes _ r hn hrn) (by omega)
                    (fun h => ExcludeSound_set alg nodes _ nd r (hsound h) hnd
                      (subnodes_right nd r hright))
                  rcases map_core_eq_cases _ _ ih2 with ⟨y1, y2⟩ | ⟨n2, nd2, p2, q2, y1, y2⟩
                  · simp only [y1, y2]
                  · simp only [y1, y2, Option.map_some']
    · simp only [DepthFirstRecursion_, DepthFirstRecursionVariant, hdbg, e1, e2,
        Bool.false_eq_true, if_false, Option.map_some']
    · rw [DepthFirstRecursion_of_returned alg nodes hlen depth ps pr 0 s1 e1]
      obtain ⟨q1, hz⟩ := DepthFirstRecursionVariant_dead_pair oc ec alg (depth + 1) nodes pt qr
        hlen hn hd ⟨i, j, a, b, hij, hi, hj,
          deadPair_of_dropped oc ec alg nodes i j a b hsound (List.getElem?_mem hi)
            (List.getElem?_mem hj) hf⟩
      rw [hz]
      rfl

/-- The traversal, with or without its pruning checks, returns a count and
hands the node array back, when the array has length `tuple_size_ ≥ 1`, the
trees have nested ranges, the weight loop stays inside the tuple array and the
recursion budget covers the trees. -/
theorem DepthFirstRecursionVariant_total (oc ec : Bool) (alg : NPointAlg D B)
    (hpos : 0 < alg.tuple_size_) (hnt : alg.num_tuples_ ≤ alg.tuple_size_) :
    ∀ (depth : Nat) (nodes : List (NPointNode B)) (previous_split : Int) (prunes : Nat),
      nodes.length = alg.tuple_size_ → (∀ nd ∈ nodes, nd.rangesNested = true) →
      (nodes.map NPointNode.splits).sum < depth →
      ∃ n prunes1, DepthFirstRecursionVariant oc ec alg depth nodes previous_split prunes
        = some (n, nodes, prunes1) := by
  intro depth
  induction depth with
  | zero => intro nodes ps pr _ _ hd; omega
  | succ depth ih =>
    intro nodes ps pr hlen hn hd
    have hdbg : (alg.debug && nodes.length != alg.tuple_size_) = false := by simp [hlen]
    simp only [DepthFirstRecursionVariant, hdbg, Bool.false_eq_true, if_false]
    rcases mainLoopVariant_splitReady oc ec alg nodes (by omega)
        (fun nd hnd _ => (rangesNested_end nd (hn nd hnd)).2) (List.range alg.tuple_size_)
        ⟨true, -1, -1, List.replicate alg.matcher_.num_permutations alg.SUBSUME, pr⟩
        (by intro x hx; have := List.mem_range.1 hx; omega)
        (splitReady_init nodes _ pr) with ⟨s1, h1⟩ | ⟨s1, h1, hs1⟩
    · rw [h1]; exact ⟨_, _, rfl⟩
    · rw [h1]
      cases hal : s1.all_leaves with
      | true =>
        have hf : ¬ WeightFault alg (enumTuples alg (nodes.map nodePoints) []
            (List.replicate alg.matcher_.num_permutations true)).1 := by
          intro h; have := h.2; omega
        simp only [hal, if_true, fillPointSets_eq nodes _ hlen,
          BaseCase_eq alg (nodes.map nodePoints) 0 (by simpa using hlen) hpos, if_neg hf]
        exact ⟨_, _, rfl⟩
      | false =>
        obtain ⟨h0, nd, hnd, hleaf⟩ := hs1.2 hal
        obtain ⟨l, r, hl, hr⟩ := children_of_not_leaf nd hleaf
        have hneg : ¬ s1.split_index < 0 := by omega
        obtain ⟨hln, hrn, hl1, hl2, hr1, hr2, hsp⟩ :=
          rangesNested_children nd l r (hn nd (List.getElem?_mem hnd)) hl hr
        have hsl := sum_map_set NPointNode.splits nodes s1.split_index.toNat nd l hnd
        have hsr := sum_map_set NPointNode.splits nodes s1.split_index.toNat nd r hnd
        obtain ⟨n1, p1, hp1⟩ := ih (nodes.set s1.split_index.toNat l) s1.split_index
          s1.num_exclusion_prunes_ (by simpa using hlen)
          (rangesNested_set nodes _ l hn hln) (by omega)
        obtain ⟨n2, p2, hp2⟩ := ih (nodes.set s1.split_index.toNat r) s1.split_index
          p1 (by simpa using hlen)
          (rangesNested_set nodes _ r hn hrn) (by omega)
        have hback := set_set_self nodes _ nd r hnd
        rw [List.set_set] at hback
        simp only [hal, Bool.false_eq_true, if_false, hneg, hnd, hl, hr, hp1, List.set_set, hp2,
          hback]
        exact ⟨_, _, rfl⟩

/-- The source function returns a count under the same conditions. -/
theorem DepthFirstRecursion_total (alg : NPointAlg D B)
    (hpos : 0 < alg.tuple_size_) (hnt : alg.num_tuples_ ≤ alg.tuple_size_)
    (depth : Nat) (nodes : List (NPointNode B)) (previous_split : Int) (prunes : Nat)
    (hlen : nodes.length = alg.tuple_size_) (hn : ∀ nd ∈ nodes, nd.rangesNested = true)
    (hd : (nodes.map NPointNode.splits).sum < depth) :
    ∃ n prunes1, DepthFirstRecursion_ alg depth nodes previous_split prunes
      = some (n, nodes, prunes1) := by
  rw [← DepthFirstRecursionVariant_true_true]
  exact DepthFirstRecursionVariant_total true true alg hpos hnt depth nodes previous_split prunes
    hlen hn hd

/-- The interval matcher is sound on trees whose bounds are the intervals of
their index ranges. -/
theorem intervalAlg_sound (tuple_size : Nat) (r2 : Int) (trees : List (NPointNode (Int × Int)))
    (hb : ∀ nd ∈ trees.flatMap NPointNode.subnodes, nd.bound = (nd.begin, nd.end_ - 1)) :
    ExcludeSound (intervalAlg tuple_size r2) trees := by
  intro a ha b hb2 i j st hex p c h1 h2 h3 h4 ok
  simp only [intervalAlg, intervalMatcher, hb a ha, hb b hb2] at hex ⊢
  by_cases hc : a.end_ - 1 < b.begin ∧ r2 < (b.begin - (a.end_ - 1)) * (b.begin - (a.end_ - 1))
  · simp only [decide_eq_false_iff_not, not_le]
    obtain ⟨hc1, hc2⟩ := hc
    nlinarith
  · simp [hc] at hex

/-- C7: removing the order-violation check is count-preserving. For every
matcher, every node array of length `tuple_size_` over trees with nested ranges
and every recursion budget that covers the trees, `DepthFirstRecursion_` and
its variant without the test of line 192 return the same count (and fault
together); and a count is returned whenever the tuple size is at least 1 and
the weight loop stays inside the tuple array. -/
theorem order_check_removal_preserves_count (alg : NPointAlg D B)
    (nodes : List (NPointNode B)) (depth : Nat) (ps pt : Int) (pr qr : Nat)
    (hlen : nodes.length = alg.tuple_size_) (hn : ∀ nd ∈ nodes, nd.rangesNested = true)
    (hd : (nodes.map NPointNode.splits).sum < depth) :
    (DepthFirstRecursion_ alg depth nodes ps pr).map Prod.fst
        = (DepthFirstRecursionVariant false true alg depth nodes pt qr).map Prod.fst
      ∧ (0 < alg.tuple_size_ → alg.num_tuples_ ≤ alg.tuple_size_ →
          ∃ n, (DepthFirstRecursion_ alg depth nodes ps pr).map Prod.fst = some n) := by
  constructor
  · have h := DepthFirstRecursion_eq_variant false true alg depth nodes ps pt pr qr hlen hn hd
      (by simp)
    have := congrArg (Option.map Prod.fst) h
    simpa [Option.map_map] using this
  · intro hpos hnt
    obtain ⟨n, p, h⟩ := DepthFirstRecursion_total alg hpos hnt depth nodes ps pr hlen hn hd
    exact ⟨n, by rw [h]; rfl⟩

/-- C7 at (root, root) of the tree with the leaves `[0, 2)` and `[2, 3)`, where
the order test fires on the pair (right leaf, left leaf). -/
theorem order_check_removal_preserves_count_witness :
    ([nodeOver (leafOver 0 2) (leafOver 2 3), nodeOver (leafOver 0 2) (leafOver 2 3)] :
          List (NPointNode Unit)).length = (lineAlg (fun i => i) (fun _ => 1) 2 1).tuple_size_
      ∧ (∀ nd ∈ ([nodeOver (leafOver 0 2) (leafOver 2 3),
          nodeOver (leafOver 0 2) (leafOver 2 3)] : List (NPointNode Unit)),
            nd.rangesNested = true)
      ∧ (([nodeOver (leafOver 0 2) (leafOver 2 3), nodeOver (leafOver 0 2) (leafOver 2 3)] :
          List (NPointNode Unit)).map NPointNode.splits).sum < 3
      ∧ ((DepthFirstRecursion_ (lineAlg (fun i => i) (fun _ => 1) 2 1) 3
            [nodeOver (leafOver 0 2) (leafOver 2 3), nodeOver (leafOver 0 2) (leafOver 2 3)]
            (-1) 0).map Prod.fst
          = (DepthFirstRecursionVariant false true (lineAlg (fun i => i) (fun _ => 1) 2 1) 3
            [nodeOver (leafOver 0 2) (leafOver 2 3), nodeOver (leafOver 0 2) (leafOver 2 3)]
            (-1) 0).map Prod.fst
        ∧ (0 < (lineAlg (fun i => i) (fun _ => 1) 2 1).tuple_size_ →
            (lineAlg (fun i => i) (fun _ => 1) 2 1).num_tuples_
              ≤ (lineAlg (fun i => i) (fun _ => 1) 2 1).tuple_size_ →
            ∃ n, (DepthFirstRecursion_ (lineAlg (fun i => i) (fun _ => 1) 2 1) 3
              [nodeOver (leafOver 0 2) (leafOver 2 3), nodeOver (leafOver 0 2) (leafOver 2 3)]
              (-1) 0).map Prod.fst = some n)) :=
  ⟨by decide, by decide, by decide,
    order_check_removal_preserves_count (lineAlg (fun i => i) (fun _ => 1) 2 1)
      [nodeOver (leafOver 0 2) (leafOver 2 3), nodeOver (leafOver 0 2) (leafOver 2 3)] 3
      (-1) (-1) 0 0 (by decide) (by decide) (by decide)⟩

/-- C8: removing the bound-exclusion check is count-preserving. For every
matcher whose `TestHrectPair` returns `EXCLUDE` only when no pair of points
drawn from the two nodes' ranges can pass `TestPointPair` for those positions,
every node array of length `tuple_size_` over trees with nested ranges and
every recursion budget that covers the trees, `DepthFirstRecursion_` and its
variant that ignores the `EXCLUDE` status return the same count (and fault
together); and a count is returned whenever the tuple size is at least 1 and
the weight loop stays inside the tuple array. -/
theorem exclusion_check_removal_preserves_count (alg : NPointAlg D B)
    (nodes : List (NPointNode B)) (depth : Nat) (ps pt : Int) (pr qr : Nat)
    (hlen : nodes.length = alg.tuple_size_) (hn : ∀ nd ∈ nodes, nd.rangesNested = true)
    (hd : (nodes.map NPointNode.splits).sum < depth) (hsound : ExcludeSound alg nodes) :
    (DepthFirstRecursion_ alg depth nodes ps pr).map Prod.fst
        = (DepthFirstRecursionVariant true false alg depth nodes pt qr).map Prod.fst
      ∧ (0 < alg.tuple_size_ → alg.num_tuples_ ≤ alg.tuple_size_ →
          ∃ n, (DepthFirstRecursion_ alg depth nodes ps pr).map Prod.fst = some n) := by
  constructor
  · have h := DepthFirstRecursion_eq_variant true false alg depth nodes ps pt pr qr hlen hn hd
      (fun _ => hsound)
    have := congrArg (Option.map Prod.fst) h
    simpa [Option.map_map] using this
  · intro hpos hnt
    obtain ⟨n, p, h⟩ := DepthFirstRecursion_total alg hpos hnt depth nodes ps pr hlen hn hd
    exact ⟨n, by rw [h]; rfl⟩

/-- C8 at (root, root) of the tree over the points 0, 1, 5, 6 with the interval
matcher of radius 1, which excludes the pair (left half, right half). -/
theorem exclusion_check_removal_preserves_count_witness :
    ([fourPointTree, fourPointTree] : List (NPointNode (Int × Int))).length
        = (intervalAlg 2 1).tuple_size_
      ∧ (∀ nd ∈ ([fourPointTree, fourPointTree] : List (NPointNode (Int × Int))),
            nd.rangesNested = true)
      ∧ (([fourPointTree, fourPointTree] : List (NPointNode (Int × Int))).map
          NPointNode.splits).sum < 7
      ∧ ExcludeSound (intervalAlg 2 1) [fourPointTree, fourPointTree]
      ∧ ((DepthFirstRecursion_ (intervalAlg 2 1) 7 [fourPointTree, fourPointTree] (-1) 0).map
            Prod.fst
          = (DepthFirstRecursionVariant true false (intervalAlg 2 1) 7
            [fourPointTree, fourPointTree] (-1) 0).map Prod.fst
        ∧ (0 < (intervalAlg 2 1).tuple_size_ →
            (intervalAlg 2 1).num_tuples_ ≤ (intervalAlg 2 1).tuple_size_ →
            ∃ n, (DepthFirstRecursion_ (intervalAlg 2 1) 7 [fourPointTree, fourPointTree]
              (-1) 0).map Prod.fst = some n)) :=
  ⟨by decide, by decide, by decide, intervalAlg_sound 2 1 _ (by decide),
    exclusion_check_removal_preserves_count (intervalAlg 2 1) [fourPointTree, fourPointTree] 7
      (-1) (-1) 0 0 (by decide) (by decide) (by decide) (intervalAlg_sound 2 1 _ (by decide))⟩

/-- C10 at the leaves `[0, 2)` and `[5, 7)` with the interval matcher of radius
1: both nodes are leaves and the only pair is excluded. -/
theorem DepthFirstRecursion_exclusion_prune_witness :
    ([boundedLeaf 0 2, boundedLeaf 5 7] : List (NPointNode (Int × Int))).length
        = (intervalAlg 2 1).tuple_size_
      ∧ reachesExclude (intervalAlg 2 1) [boundedLeaf 0 2, boundedLeaf 5 7]
          (pairsLex (intervalAlg 2 1).tuple_size_)
          (List.replicate (intervalAlg 2 1).matcher_.num_permutations (intervalAlg 2 1).SUBSUME)
          = true
      ∧ ((∃ s : ScanState,
          mainLoop (intervalAlg 2 1) [boundedLeaf 0 2, boundedLeaf 5 7]
              (List.range (intervalAlg 2 1).tuple_size_)
              ⟨true, -1, -1, List.replicate (intervalAlg 2 1).matcher_.num_permutations
                (intervalAlg 2 1).SUBSUME, 0⟩
            = some (ScanExit.returned 0 s))
        ∧ DepthFirstRecursion_ (intervalAlg 2 1) (0 + 1) [boundedLeaf 0 2, boundedLeaf 5 7] (-1) 0
          = some (0, [boundedLeaf 0 2, boundedLeaf 5 7], 0 + 1)) :=
  ⟨by decide, by decide,
    DepthFirstRecursion_exclusion_prune (intervalAlg 2 1) [boundedLeaf 0 2, boundedLeaf 5 7]
      (by decide) (by decide) 0 (-1) 0⟩

/-- The source function hands back the node array it was given. -/
theorem DepthFirstRecursion_nodes (alg : NPointAlg D B) (depth : Nat)
    (nodes : List (NPointNode B)) (previous_split : Int) (prunes n : Nat)
    (nodes1 : List (NPointNode B)) (prunes1 : Nat)
    (h : DepthFirstRecursion_ alg depth nodes previous_split prunes = some (n, nodes1, prunes1)) :
    nodes1 = nodes := by
  rw [← DepthFirstRecursionVariant_true_true] at h
  exact DepthFirstRecursionVariant_nodes true true alg depth nodes previous_split prunes n nodes1
    prunes1 h

/-- C11: for every finite tree, matcher and node array, when
`DepthFirstRecursion_` returns (through an order prune, an exclusion prune, the
base case or after both child recursions) the node array holds, at every
position, the node it held when the call began; and the call does return, on
arrays of length `tuple_size_ ≥ 1` over trees with nested ranges, when the
weight loop stays inside the tuple array and the recursion budget covers the
trees. -/
theorem DepthFirstRecursion_restores_nodes (alg : NPointAlg D B) (depth : Nat)
    (nodes : List (NPointNode B)) (previous_split : Int) (prunes : Nat) :
    (∀ n nodes1 prunes1,
        DepthFirstRecursion_ alg depth nodes previous_split prunes = some (n, nodes1, prunes1) →
        nodes1 = nodes ∧ ∀ i : Nat, nodes1[i]? = nodes[i]?)
      ∧ (nodes.length = alg.tuple_size_ → 0 < alg.tuple_size_ →
          alg.num_tuples_ ≤ alg.tuple_size_ → (∀ nd ∈ nodes, nd.rangesNested = true) →
          (nodes.map NPointNode.splits).sum < depth →
          ∃ n prunes1, DepthFirstRecursion_ alg depth nodes previous_split prunes
            = some (n, nodes, prunes1)) := by
  constructor
  · intro n nodes1 prunes1 h
    have := DepthFirstRecursion_nodes alg depth nodes previous_split prunes n nodes1 prunes1 h
    subst this
    exact ⟨rfl, fun _ => rfl⟩
  · intro hlen hpos hnt hn hd
    exact DepthFirstRecursion_total alg hpos hnt depth nodes previous_split prunes hlen hn hd

/-- C11 at (root, root) of the tree with the leaves `[0, 2)` and `[2, 3)`: the
call splits both positions, returns 1 and hands the array back. -/
theorem DepthFirstRecursion_restores_nodes_witness :
    DepthFirstRecursion_ (lineAlg (fun i => i) (fun _ => 1) 2 1) 3
        [nodeOver (leafOver 0 2) (leafOver 2 3), nodeOver (leafOver 0 2) (leafOver 2 3)] (-1) 0
      = some (1, [nodeOver (leafOver 0 2) (leafOver 2 3),
          nodeOver (leafOver 0 2) (leafOver 2 3)], 0)
      ∧ ∀ n nodes1 prunes1,
        DepthFirstRecursion_ (lineAlg (fun i => i) (fun _ => 1) 2 1) 3
            [nodeOver (leafOver 0 2) (leafOver 2 3), nodeOver (leafOver 0 2) (leafOver 2 3)]
            (-1) 0 = some (n, nodes1, prunes1) →
        nodes1 = [nodeOver (leafOver 0 2) (leafOver 2 3), nodeOver (leafOver 0 2) (leafOver 2 3)]
          ∧ ∀ i : Nat, nodes1[i]?
            = [nodeOver (leafOver 0 2) (leafOver 2 3),
                nodeOver (leafOver 0 2) (leafOver 2 3)][i]? :=
  ⟨by decide,
    (DepthFirstRecursion_restores_nodes (lineAlg (fun i => i) (fun _ => 1) 2 1) 3
      [nodeOver (leafOver 0 2) (leafOver 2 3), nodeOver (leafOver 0 2) (leafOver 2 3)] (-1) 0).1⟩

theorem enumTuples_of_empty (alg : NPointAlg D B) :
    ∀ (rest : List (List Int)) (placed : List Int) (ok : List Bool), [] ∈ rest →
      enumTuples alg rest placed ok = (0, 0) := by
  intro rest
  induction rest with
  | nil => intro placed ok h; simp at h
  | cons k_rows rest ih =>
    intro placed ok h
    simp only [enumTuples]
    rcases List.mem_cons.1 h with e | e
    · rw [← e]; rfl
    · apply enumCandidates_zero
      intro c _
      exact Or.inr (Or.inr (ih _ _ e))

/-- C12: for every matcher and every family of candidate lists, one per
position, in which the list of at least one position is empty, `BaseCase_`
returns 0 as an ordinary result (no fault) and leaves `*weighted_result`
unchanged. -/
theorem BaseCase_empty_list (alg : NPointAlg D B) (point_sets : List (List Int)) (w : ℚ)
    (hlen : point_sets.length = alg.tuple_size_) (hempty : [] ∈ point_sets) :
    BaseCase_ alg point_sets w = some (0, w) := by
  have hpos : 0 < alg.tuple_size_ := by
    rw [← hlen]; exact List.length_pos_of_mem hempty
  rw [BaseCase_eq alg point_sets w hlen hpos, enumTuples_of_empty alg point_sets _ _ hempty]
  simp [WeightFault]

/-- C12 at three positions of which the second has no candidate. -/
theorem BaseCase_empty_list_witness :
    ([[0, 1], [], [2, 3]] : List (List Int)).length
        = (lineAlg (fun i => i) (fun _ => 1) 3 100).tuple_size_
      ∧ [] ∈ ([[0, 1], [], [2, 3]] : List (List Int))
      ∧ BaseCase_ (lineAlg (fun i => i) (fun _ => 1) 3 100) [[0, 1], [], [2, 3]] 7
        = some (0, 7) :=
  ⟨by decide, by decide,
    BaseCase_empty_list (lineAlg (fun i => i) (fun _ => 1) 3 100) [[0, 1], [], [2, 3]] 7
      (by decide) (by decide)⟩

theorem enumTuples_first_violation (alg : NPointAlg D B) (l0 l1 : List Int) (c1 : Int)
    (rest : List (List Int)) (ok : List Bool) (h : ∀ p ∈ l0, c1 ≤ p) :
    enumTuples alg (l0 :: (c1 :: l1) :: rest) [] ok = (0, 0) := by
  simp only [enumTuples]
  apply enumCandidates_zero
  intro c hc
  right; right
  have hv : PointsViolateSymmetry_ c c1 = true := by
    simp [PointsViolateSymmetry_, h c hc]
  simp [enumCandidates, checkAgainst, hv]

theorem nodePoints_head (nd : NPointNode B) :
    nodePoints nd = [] ∨ ∃ l, nodePoints nd = nd.begin :: l ∧ ∀ p ∈ nodePoints nd, nd.begin ≤ p := by
  by_cases h : nd.count.toNat = 0
  · left; simp [nodePoints, h]
  · right
    obtain ⟨m, hm⟩ := Nat.exists_eq_succ_of_ne_zero h
    refine ⟨(List.range' 1 m).map (fun (j : Nat) => (j : Int) + nd.begin), ?_,
      fun p hp => (mem_nodePoints nd p hp).1⟩
    simp [nodePoints, hm, List.range_eq_range', List.range'_succ]

/-- C20: for every matcher and tuple size at least 2 (one candidate list per
position), if the first candidate of position 1 is less than or equal to every
candidate of position 0, `BaseCase_` returns 0 and leaves `*weighted_result`
unchanged: at position 1 that first candidate violates symmetry against
whatever was placed at position 0, and the violation ends the candidate loop.
In particular this happens whenever positions 0 and 1 receive the index list of
the same node. -/
theorem BaseCase_first_candidate_violation (alg : NPointAlg D B) :
    (∀ (l0 l1 : List Int) (c1 : Int) (rest : List (List Int)) (w : ℚ),
        (l0 :: (c1 :: l1) :: rest).length = alg.tuple_size_ → (∀ p ∈ l0, c1 ≤ p) →
        BaseCase_ alg (l0 :: (c1 :: l1) :: rest) w = some (0, w))
      ∧ (∀ (nd : NPointNode B) (rest : List (List Int)) (w : ℚ),
        (nodePoints nd :: nodePoints nd :: rest).length = alg.tuple_size_ →
        BaseCase_ alg (nodePoints nd :: nodePoints nd :: rest) w = some (0, w)) := by
  have part1 : ∀ (l0 l1 : List Int) (c1 : Int) (rest : List (List Int)) (w : ℚ),
      (l0 :: (c1 :: l1) :: rest).length = alg.tuple_size_ → (∀ p ∈ l0, c1 ≤ p) →
      BaseCase_ alg (l0 :: (c1 :: l1) :: rest) w = some (0, w) := by
    intro l0 l1 c1 rest w hlen h
    have hpos : 0 < alg.tuple_size_ := by rw [← hlen]; simp
    rw [BaseCase_eq alg _ w hlen hpos, enumTuples_first_violation alg l0 l1 c1 rest _ h]
    simp [WeightFault]
  refine ⟨part1, ?_⟩
  intro nd rest w hlen
  rcases nodePoints_head nd with h | ⟨l, h1, h2⟩
  · have hpos : 0 < alg.tuple_size_ := by rw [← hlen]; simp
    rw [BaseCase_eq alg _ w hlen hpos, enumTuples_of_empty alg _ _ _ (by simp [h])]
    simp [WeightFault]
  · have h3 : ∀ p ∈ nd.begin :: l, nd.begin ≤ p := by rw [← h1]; exact h2
    rw [h1] at hlen ⊢
    exact part1 (nd.begin :: l) l nd.begin rest w hlen h3
/-- C20 at the list `[0, 1, 2]` of one leaf standing at both positions. -/
theorem BaseCase_first_candidate_violation_witness :
    ([[0, 1, 2], [0, 1, 2]] : List (List Int)).length
        = (lineAlg (fun i => i) (fun _ => 1) 2 100).tuple_size_
      ∧ (∀ p ∈ ([0, 1, 2] : List Int), (0 : Int) ≤ p)
      ∧ BaseCase_ (lineAlg (fun i => i) (fun _ => 1) 2 100) [[0, 1, 2], [0, 1, 2]] 5
        = some (0, 5) :=
  ⟨by decide, by decide,
    (BaseCase_first_candidate_violation (lineAlg (fun i => i) (fun _ => 1) 2 100)).1
      [0, 1, 2] [1, 2] 0 [] 5 (by decide) (by decide)⟩

theorem pairwise_of_all_gt (p : Int) :
    ∀ l : List Int, (∀ c ∈ l, p < c) → l.Pairwise (fun c d => c ≤ p → d ≤ p) := by
  intro l
  induction l with
  | nil => intro _; exact List.Pairwise.nil
  | cons c l ih =>
    intro h
    refine List.Pairwise.cons ?_ (ih (fun d hd => h d (by simp [hd])))
    intro d _ hc
    have := h c (by simp)
    omega

theorem symmetryContiguous_of_ordered :
    ∀ (rest : List (List Int)) (pool : List Int),
      (∀ p ∈ pool, ∀ l ∈ rest, ∀ c ∈ l, p < c) → orderedDisjoint rest →
      symmetryContiguous pool rest = true := by
  intro rest
  induction rest with
  | nil => intro pool _ _; rfl
  | cons k_rows rest ih =>
    intro pool hpool hord
    have hord' := List.pairwise_cons.1 hord
    simp only [symmetryContiguous, Bool.and_eq_true, List.all_eq_true, decide_eq_true_eq]
    refine ⟨fun p hp => pairwise_of_all_gt p k_rows (fun c hc => hpool p hp k_rows (by simp) c hc),
      ih (pool ++ k_rows) ?_ hord'.2⟩
    intro p hp l hl c hc
    rcases List.mem_append.1 hp with h | h
    · exact hpool p h l (by simp [hl]) c hc
    · exact hord'.1 l hl p h c hc

theorem mem_tuplesOf_cons (k_rows : List Int) (rest : List (List Int)) (t : List Int)
    (h : t ∈ tuplesOf (k_rows :: rest)) :
    ∃ c t1, c ∈ k_rows ∧ t1 ∈ tuplesOf rest ∧ t = c :: t1 := by
  simp only [tuplesOf, List.mem_flatten, List.mem_map] at h
  obtain ⟨l, ⟨c, hc, rfl⟩, ht⟩ := h
  obtain ⟨t1, ht1, rfl⟩ := List.mem_map.1 ht
  exact ⟨c, t1, hc, ht1, rfl⟩

theorem sorted_of_mem_tuplesOf :
    ∀ (rest : List (List Int)) (t : List Int), t ∈ tuplesOf rest → orderedDisjoint rest →
      t.Sorted (fun a b => a < b) ∧ ∀ x ∈ t, ∃ l ∈ rest, x ∈ l := by
  intro rest
  induction rest with
  | nil =>
    intro t ht _
    simp [tuplesOf] at ht
    subst ht
    simp [List.Sorted]
  | cons k_rows rest ih =>
    intro t ht hord
    have hord' := List.pairwise_cons.1 hord
    obtain ⟨c, t1, hc, ht1, rfl⟩ := mem_tuplesOf_cons k_rows rest t ht
    obtain ⟨hs, hm⟩ := ih t1 ht1 hord'.2
    constructor
    · refine List.Pairwise.cons ?_ hs
      intro b hb
      obtain ⟨l, hl, hbl⟩ := hm b hb
      exact hord'.1 l hl c hc b hbl
    · intro x hx
      rcases List.mem_cons.1 hx with e | e
      · exact ⟨k_rows, by simp, by rw [e]; exact hc⟩
      · obtain ⟨l, hl, hxl⟩ := hm x e
        exact ⟨l, by simp [hl], hxl⟩

/-- On ordered, disjoint lists the functional reading counts the accepted
tuples of the Cartesian product. -/
theorem enumTuples_ordered (alg : NPointAlg D B) (point_sets : List (List Int))
    (hord : orderedDisjoint point_sets) :
    (enumTuples alg point_sets [] (List.replicate alg.matcher_.num_permutations true)).1
      = ((tuplesOf point_sets).filter (tupleAccepted alg)).length := by
  rw [enumTuples_count alg point_sets [] _ [] (by simp [List.Sorted]) (by simp)
    (symmetryContiguous_of_ordered point_sets [] (by simp) hord)]
  congr 1
  apply List.filter_congr
  intro t ht
  have := (sorted_of_mem_tuplesOf point_sets t ht hord).1
  simp [this, tupleAccepted]

/-- C13 (as stated) fails: in a build without `DEBUG` the assertion of line 150
is compiled out. With tuple size 2 and the three leaves `[0, 1)`, `[1, 2)`,
`[2, 3)` in the node array, `DepthFirstRecursion_` proceeds on the first two
positions and returns the count 1. -/
theorem DepthFirstRecursion_proceeds_on_long_array :
    ([leafOver 0 1, leafOver 1 2, leafOver 2 3] : List (NPointNode Unit)).length
        ≠ (lineAlg (fun i => i) (fun _ => 1) 2 1).tuple_size_
      ∧ DepthFirstRecursion_ (lineAlg (fun i => i) (fun _ => 1) 2 1) 1
          [leafOver 0 1, leafOver 1 2, leafOver 2 3] (-1) 0
        = some (1, [leafOver 0 1, leafOver 1 2, leafOver 2 3], 0) := by
  decide

theorem noteNode_scanTracks (nodes : List (NPointNode B)) (nd : NPointNode B) (m : Nat)
    (s : ScanState) (hm : nodes[m]? = some nd) (hc : nd.is_leaf = false → 0 ≤ nd.count)
    (hs : ScanTracks nodes s m) : ScanTracks nodes (noteNode nd m s) (m + 1) := by
  obtain ⟨hs1, hs2⟩ := hs
  unfold noteNode
  cases hl : nd.is_leaf with
  | true =>
    simp only [Bool.not_true, Bool.false_eq_true, if_false]
    constructor
    · intro ha
      obtain ⟨h1, h2⟩ := hs1 ha
      refine ⟨?_, h2⟩
      intro i nd1 hi hnd1
      by_cases him : i < m
      · exact h1 i nd1 him hnd1
      · have : i = m := by omega
        subst this
        rw [hm] at hnd1
        simp at hnd1
        rw [← hnd1]; exact hl
    · intro ha
      obtain ⟨k, nd0, e1, e2, e3, nd2, c1, c2, c3, c4, c5⟩ := hs2 ha
      refine ⟨k, nd0, e1, e2, e3, nd2, by omega, c2, c3, ?_, c5⟩
      intro i nd1 hi hnd1 hleaf
      by_cases him : i < m
      · exact c4 i nd1 him hnd1 hleaf
      · have : i = m := by omega
        subst this
        rw [hm] at hnd1
        simp at hnd1
        rw [← hnd1, hl] at hleaf
        simp at hleaf
  | false =>
    have h0 := hc hl
    simp only [Bool.not_false, if_true]
    have hbelow : nd.count > s.split_count →
        ∀ i nd1, i < m → nodes[i]? = some nd1 → nd1.is_leaf = false → nd1.count < nd.count := by
      intro hgt i nd1 hi hnd1 hleaf
      cases ha : s.all_leaves with
      | true =>
        have := (hs1 ha).1 i nd1 hi hnd1
        rw [this] at hleaf
        simp at hleaf
      | false =>
        obtain ⟨k, nd0, e1, e2, e3, nd2, c1, c2, c3, c4, c5⟩ := hs2 ha
        have hnd : nd2 = nd0 := by
          rw [e2] at c2; simpa using c2.symm
        subst hnd
        have := c4 i nd1 hi hnd1 hleaf
        omega
    by_cases hgt : nd.count > s.split_count
    · simp only [hgt, if_true]
      refine ⟨by simp, fun _ => ⟨m, nd, rfl, hm, rfl, nd, by omega, hm, hl, ?_, ?_⟩⟩
      · intro i nd1 hi hnd1 hleaf
        by_cases him : i < m
        · exact le_of_lt (hbelow hgt i nd1 him hnd1 hleaf)
        · have : i = m := by omega
          subst this
          rw [hm] at hnd1
          simp at hnd1
          rw [hnd1]
      · intro i nd1 hi hnd1 hleaf
        exact hbelow hgt i nd1 hi hnd1 hleaf
    · simp only [hgt, if_false]
      refine ⟨by simp, fun _ => ?_⟩
      cases ha : s.all_leaves with
      | true =>
        have := (hs1 ha).2
        omega
      | false =>
        obtain ⟨k, nd0, e1, e2, e3, nd2, c1, c2, c3, c4, c5⟩ := hs2 ha
        have hnd : nd2 = nd0 := by
          rw [e2] at c2; simpa using c2.symm
        subst hnd
        refine ⟨k, nd2, e1, e2, e3, nd2, by omega, c2, c3, ?_, c5⟩
        intro i nd1 hi hnd1 hleaf
        by_cases him : i < m
        · exact c4 i nd1 him hnd1 hleaf
        · have : i = m := by omega
          subst this
          rw [hm] at hnd1
          simp at hnd1
          rw [← hnd1]
          omega

theorem pairLoop_noprune (alg : NPointAlg D B) (nodes : List (NPointNode B))
    (node_i : NPointNode B) (i : Nat) (hi : nodes[i]? = some node_i)
    (more : List (Nat × Nat)) :
    ∀ (js : List Nat) (s : ScanState), (∀ j ∈ js, j < nodes.length) →
      prunesPair alg nodes (js.map (fun j => (i, j)) ++ more) s.permutation_ok = false →
      ∃ s1, pairLoop alg nodes node_i i js s = some (ScanExit.completed s1)
        ∧ s1.num_exclusion_prunes_ = s.num_exclusion_prunes_
        ∧ s1.all_leaves = s.all_leaves ∧ s1.split_index = s.split_index
        ∧ s1.split_count = s.split_count
        ∧ prunesPair alg nodes more s1.permutation_ok = false := by
  intro js
  induction js with
  | nil => intro s _ h; exact ⟨s, rfl, rfl, rfl, rfl, rfl, by simpa using h⟩
  | cons j js ih =>
    intro s hl h
    have hj : j < nodes.length := hl j (by simp)
    simp only [List.map_cons, List.cons_append, prunesPair, hi,
      List.getElem?_eq_getElem hj] at h
    simp only [pairLoop, List.getElem?_eq_getElem hj]
    by_cases hv : nodes[j].end_ ≤ node_i.begin
    · simp [hv] at h
    · simp only [hv, if_false] at h ⊢
      by_cases he : ((alg.matcher_.TestHrectPair node_i.bound nodes[j].bound i j
          s.permutation_ok).1 == alg.EXCLUDE) = true
      · simp [he] at h
      · simp only [he] at h ⊢
        simp only [Bool.false_eq_true, if_false] at h ⊢
        exact ih _ (fun x hx => hl x (by simp [hx])) h

/-- When no pair is pruned the main loop runs to its end, counts no exclusion
prune and tracks the leaf status and the split candidate. -/
theorem mainLoop_noprune (alg : NPointAlg D B) (nodes : List (NPointNode B))
    (hlen : alg.tuple_size_ ≤ nodes.length)
    (hc : ∀ nd ∈ nodes, nd.is_leaf = false → 0 ≤ nd.count) :
    ∀ (len m : Nat) (s : ScanState), m + len = alg.tuple_size_ → ScanTracks nodes s m →
      prunesPair alg nodes
        ((List.range' m len).flatMap (fun i =>
          (List.range' (i + 1) (alg.tuple_size_ - (i + 1))).map (fun j => (i, j))))
        s.permutation_ok = false →
      ∃ s1, mainLoop alg nodes (List.range' m len) s = some (ScanExit.completed s1)
        ∧ s1.num_exclusion_prunes_ = s.num_exclusion_prunes_
        ∧ ScanTracks nodes s1 alg.tuple_size_ := by
  intro len
  induction len with
  | zero =>
    intro m s hm hs _
    simp at hm
    subst hm
    exact ⟨s, rfl, rfl, hs⟩
  | succ len ih =>
    intro m s hm hs h
    have hml : m < nodes.length := by omega
    simp only [List.range'_succ, List.flatMap_cons] at h
    simp only [List.range'_succ, mainLoop, List.getElem?_eq_getElem hml]
    have hjs : ∀ x ∈ List.range' (m + 1) (alg.tuple_size_ - (m + 1)), x < nodes.length := by
      intro x hx
      have := List.mem_range'_1.1 hx
      omega
    rw [← noteNode_permutation_ok nodes[m] m s] at h
    obtain ⟨s1, e1, e2, e3, e4, e5, e6⟩ := pairLoop_noprune alg nodes nodes[m] m
      (List.getElem?_eq_getElem hml) _ _ (noteNode nodes[m] m s) hjs h
    rw [e1]
    have hs1 : ScanTracks nodes s1 (m + 1) := by
      have := noteNode_scanTracks nodes nodes[m] m s (List.getElem?_eq_getElem hml)
        (hc _ (List.getElem_mem _)) hs
      unfold ScanTracks at this ⊢
      rw [e3, e4, e5]
      exact this
    obtain ⟨s2, f1, f2, f3⟩ := ih (m + 1) s1 (by omega) hs1 e6
    exact ⟨s2, f1, by rw [f2, e2, noteNode_prunes], f3⟩

/-- The main loop of a call in which no pair is pruned: it runs to its end
without counting a prune, and its final state tracks all positions. -/
theorem mainLoop_of_noprune (alg : NPointAlg D B) (nodes : List (NPointNode B))
    (hlen : nodes.length = alg.tuple_size_)
    (hc : ∀ nd ∈ nodes, nd.is_leaf = false → 0 ≤ nd.count) (prunes : Nat)
    (hnp : prunesPair alg nodes (pairsLex alg.tuple_size_)
      (List.replicate alg.matcher_.num_permutations alg.SUBSUME) = false) :
    ∃ s1, mainLoop alg nodes (List.range alg.tuple_size_)
          ⟨true, -1, -1, List.replicate alg.matcher_.num_permutations alg.SUBSUME, prunes⟩
        = some (ScanExit.completed s1)
      ∧ s1.num_exclusion_prunes_ = prunes ∧ ScanTracks nodes s1 alg.tuple_size_ := by
  have := mainLoop_noprune alg nodes (by omega) hc alg.tuple_size_ 0
    ⟨true, -1, -1, List.replicate alg.matcher_.num_permutations alg.SUBSUME, prunes⟩ (by omega)
    ⟨fun _ => ⟨fun i nd hi _ => by omega, rfl⟩, fun h => by simp at h⟩
    (by simpa [pairsLex, List.range_eq_range'] using hnp)
  simpa [List.range_eq_range'] using this

theorem nodePoints_sorted (nd : NPointNode B) : (nodePoints nd).Sorted (fun a b => a < b) := by
  unfold nodePoints
  generalize nd.count.toNat = m
  induction m with
  | zero => simp [List.Sorted]
  | succ m ih =>
    rw [List.range_succ, List.map_append]
    apply List.pairwise_append.2
    refine ⟨ih, by simp, ?_⟩
    intro a ha b hb
    simp only [List.mem_map, List.mem_range] at ha
    obtain ⟨j, hj, rfl⟩ := ha
    simp at hb
    subst hb
    omega

theorem mem_nodePoints_iff (nd : NPointNode B) (p : Int) :
    p ∈ nodePoints nd ↔ nd.begin ≤ p ∧ p < nd.begin + nd.count := by
  constructor
  · exact mem_nodePoints nd p
  · intro h
    simp only [nodePoints, List.mem_map, List.mem_range]
    exact ⟨(p - nd.begin).toNat, by omega, by omega⟩

/-- C18: for every node array (of length `tuple_size_`) in which all nodes are
leaves and no pair is pruned, `DepthFirstRecursion_` returns the count of
`BaseCase_` (and has no result when `BaseCase_` has none) applied to the lists
whose `i`-th entry holds `begin(nodes[i])`, ..., `begin(nodes[i]) +
count(nodes[i]) - 1` in increasing order, which are exactly the indices of the
node's range `[begin, end)` when `count = end - begin`; the node array and the
prune counter are as before the call. -/
theorem DepthFirstRecursion_all_leaves (alg : NPointAlg D B) (nodes : List (NPointNode B))
    (hlen : nodes.length = alg.tuple_size_) (hleaf : ∀ nd ∈ nodes, nd.is_leaf = true)
    (hnp : prunesPair alg nodes (pairsLex alg.tuple_size_)
      (List.replicate alg.matcher_.num_permutations alg.SUBSUME) = false)
    (depth : Nat) (previous_split : Int) (prunes : Nat) :
    DepthFirstRecursion_ alg (depth + 1) nodes previous_split prunes
        = (BaseCase_ alg (nodes.map nodePoints) 0).map (fun r => (r.1, nodes, prunes))
      ∧ ∀ nd ∈ nodes, (nodePoints nd).Sorted (fun a b => a < b)
        ∧ (∀ p, p ∈ nodePoints nd ↔ nd.begin ≤ p ∧ p < nd.begin + nd.count)
        ∧ (nd.count = nd.end_ - nd.begin →
            ∀ p, p ∈ nodePoints nd ↔ nd.begin ≤ p ∧ p < nd.end_) := by
  constructor
  · have hc : ∀ nd ∈ nodes, nd.is_leaf = false → 0 ≤ nd.count := by
      intro nd hnd h
      rw [hleaf nd hnd] at h
      simp at h
    obtain ⟨s1, e1, e2, ht⟩ := mainLoop_of_noprune alg nodes hlen hc prunes hnp
    have hal : s1.all_leaves = true := by
      cases ha : s1.all_leaves with
      | true => rfl
      | false =>
        obtain ⟨k, nd, _, hk, _, nd2, _, c2, c3, _⟩ := ht.2 ha
        rw [hleaf nd2 (List.getElem?_mem c2)] at c3
        simp at c3
    have hdbg : (alg.debug && nodes.length != alg.tuple_size_) = false := by simp [hlen]
    simp only [DepthFirstRecursion_, hdbg, e1, hal, Bool.false_eq_true, if_false, if_true,
      fillPointSets_eq nodes _ hlen, e2]
    cases hb : BaseCase_ alg (nodes.map nodePoints) 0 with
    | none => rfl
    | some r => rfl
  · intro nd _
    refine ⟨nodePoints_sorted nd, mem_nodePoints_iff nd, ?_⟩
    intro h p
    rw [mem_nodePoints_iff]
    constructor <;> intro hp <;> constructor <;> omega

/-- C18 at the leaves `[0, 2)` and `[2, 4)`: pairs within squared distance 1. -/
theorem DepthFirstRecursion_all_leaves_witness :
    ([leafOver 0 2, leafOver 2 4] : List (NPointNode Unit)).length
        = (lineAlg (fun i => i) (fun _ => 1) 2 1).tuple_size_
      ∧ (∀ nd ∈ ([leafOver 0 2, leafOver 2 4] : List (NPointNode Unit)), nd.is_leaf = true)
      ∧ prunesPair (lineAlg (fun i => i) (fun _ => 1) 2 1) [leafOver 0 2, leafOver 2 4]
          (pairsLex (lineAlg (fun i => i) (fun _ => 1) 2 1).tuple_size_)
          (List.replicate (lineAlg (fun i => i) (fun _ => 1) 2 1).matcher_.num_permutations
            (lineAlg (fun i => i) (fun _ => 1) 2 1).SUBSUME) = false
      ∧ (DepthFirstRecursion_ (lineAlg (fun i => i) (fun _ => 1) 2 1) (0 + 1)
            [leafOver 0 2, leafOver 2 4] (-1) 0
          = (BaseCase_ (lineAlg (fun i => i) (fun _ => 1) 2 1)
              (([leafOver 0 2, leafOver 2 4] : List (NPointNode Unit)).map nodePoints) 0).map
              (fun r => (r.1, [leafOver 0 2, leafOver 2 4], 0))
        ∧ ∀ nd ∈ ([leafOver 0 2, leafOver 2 4] : List (NPointNode Unit)),
          (nodePoints nd).Sorted (fun a b => a < b)
          ∧ (∀ p, p ∈ nodePoints nd ↔ nd.begin ≤ p ∧ p < nd.begin + nd.count)
          ∧ (nd.count = nd.end_ - nd.begin →
              ∀ p, p ∈ nodePoints nd ↔ nd.begin ≤ p ∧ p < nd.end_)) :=
  ⟨by decide, by decide, by decide,
    DepthFirstRecursion_all_leaves (lineAlg (fun i => i) (fun _ => 1) 2 1)
      [leafOver 0 2, leafOver 2 4] (by decide) (by decide) (by decide) 0 (-1) 0⟩

/-- C15 (as stated) fails: at position 1 of a tuple of size 2, with 5 placed at
position 0 and pairs accepted within squared distance 100, `BaseCaseHelper_`
returns 0 for the candidate list `[3, 7]`, but 0 for `[3]` and 1 for `[7]`:
the rejected candidate 3 violates symmetry and ends the loop, so 7 is never
judged. -/
theorem BaseCaseHelper_candidates_not_independent :
    (BaseCaseHelper_ (lineAlg (fun i => i) (fun _ => 1) 2 100) [[5], [3, 7]] 1 [true] [5, 0]
        0 1).map Prod.fst = some 0
      ∧ (BaseCaseHelper_ (lineAlg (fun i => i) (fun _ => 1) 2 100) [[5], [3]] 1 [true] [5, 0]
        0 1).map Prod.fst = some 0
      ∧ (BaseCaseHelper_ (lineAlg (fun i => i) (fun _ => 1) 2 100) [[5], [7]] 1 [true] [5, 0]
        0 1).map Prod.fst = some 1 := by
  decide

theorem enumCandidates_takeWhile (alg : NPointAlg D B) (k : Nat) (placed : List Int)
    (ok : List Bool) (complete : Int → List Bool → Nat × ℚ) :
    ∀ cs : List Int,
      (enumCandidates alg k placed ok complete cs).1
        = ((cs.takeWhile (fun c => !(checkAgainst alg c k 0 placed ok).bad_symmetry)).map
            (fun c => (enumCandidates alg k placed ok complete [c]).1)).sum := by
  intro cs
  induction cs with
  | nil => simp [enumCandidates]
  | cons c cs ih =>
    by_cases hb : (checkAgainst alg c k 0 placed ok).bad_symmetry = true
    · simp [enumCandidates, List.takeWhile, hb]
    · have hb2 : (checkAgainst alg c k 0 placed ok).bad_symmetry = false := by simpa using hb
      by_cases hw : (checkAgainst alg c k 0 placed ok).this_point_works = true
      · simp [enumCandidates, List.takeWhile, hb2, hw, ih]
      · simp [enumCandidates, List.takeWhile, hb2, hw, ih]

theorem drop_set_self (point_sets : List (List Int)) (k : Nat) (l : List Int)
    (hk : k < point_sets.length) :
    (point_sets.set k l).drop k = l :: point_sets.drop (k + 1) := by
  induction point_sets generalizing k with
  | nil => simp at hk
  | cons a point_sets ih =>
    cases k with
    | zero => simp
    | succ k =>
      simp only [List.length_cons, Nat.add_lt_add_iff_right] at hk
      simpa using ih k hk

/-- C15 (amended): the only state besides the accumulator that one candidate of
a level leaves to the next is `bad_symmetry`. For every level `k`, placed
indices, validity vector and candidate list `k_rows` of position `k` (one list
per position, the weight loop inside the tuple array), the count
`BaseCaseHelper_` returns equals the sum, over the candidates that come before
the first one at which the symmetry test of line 56 fires, of the count it
returns for the one-element list of that candidate; each of these calls
returns. A candidate refused by `TestPointPair` does not change how later
candidates are judged; a candidate refused by the symmetry test ends the
loop. -/
theorem BaseCaseHelper_sum_until_violation (alg : NPointAlg D B)
    (point_sets : List (List Int)) (k_rows : List Int) (k levels : Nat) (ok : List Bool)
    (pts : List Int) (w : ℚ)
    (hlen : point_sets.length = alg.tuple_size_) (hnt : alg.num_tuples_ ≤ alg.tuple_size_)
    (hpts : pts.length = alg.tuple_size_) (hk : point_sets[k]? = some k_rows)
    (hlev : alg.tuple_size_ - k ≤ levels) :
    (BaseCaseHelper_ alg point_sets levels ok pts w k).map Prod.fst
        = some (((k_rows.takeWhile
            (fun c => !(checkAgainst alg c k 0 (pts.take k) ok).bad_symmetry)).map
            (fun c => ((BaseCaseHelper_ alg (point_sets.set k [c]) levels ok pts w k).map
              Prod.fst).getD 0)).sum)
      ∧ ∀ c, (BaseCaseHelper_ alg (point_sets.set k [c]) levels ok pts w k).isSome = true := by
  have hkl : k < point_sets.length := by
    by_contra hc
    rw [List.getElem?_eq_none_iff.2 (by omega)] at hk
    simp at hk
  have hkn : k < alg.tuple_size_ := by omega
  have hnf : ∀ m, ¬ WeightFault alg m := by
    intro m h; have := h.2; omega
  have hd : point_sets.drop k = k_rows :: point_sets.drop (k + 1) := by
    have h1 : point_sets[k] = k_rows := by
      rw [List.getElem?_eq_getElem hkl] at hk
      simpa using hk
    rw [← h1]; simp
  have hsingle : ∀ c, ∃ after,
      BaseCaseHelper_ alg (point_sets.set k [c]) levels ok pts w k
        = some ((enumCandidates alg k (pts.take k) ok
            (fun c1 ok1 => enumTuples alg (point_sets.drop (k + 1)) (pts.take k ++ [c1]) ok1)
            [c]).1, after,
          w + (enumCandidates alg k (pts.take k) ok
            (fun c1 ok1 => enumTuples alg (point_sets.drop (k + 1)) (pts.take k ++ [c1]) ok1)
            [c]).2) := by
    intro c
    obtain ⟨after, _, _, h3⟩ := BaseCaseHelper_eq alg (point_sets.set k [c])
      (by simpa using hlen) levels k ok pts w hpts hkn hlev
    rw [if_neg (hnf _), drop_set_self point_sets k [c] hkl] at h3
    refine ⟨after, ?_⟩
    rw [h3]
    simp [enumTuples, hpts, Nat.min_eq_left (Nat.le_of_lt hkn)]
  constructor
  · obtain ⟨after, _, _, h3⟩ := BaseCaseHelper_eq alg point_sets hlen levels k ok pts w hpts hkn
      hlev
    rw [if_neg (hnf _), hd] at h3
    rw [h3]
    simp only [Option.map_some', enumTuples]
    have hpl : (pts.take k).length = k := by simp; omega
    rw [hpl, enumCandidates_takeWhile]
    congr 2
    apply List.map_congr_left
    intro c _
    obtain ⟨a, ha⟩ := hsingle c
    rw [ha]
    rfl
  · intro c
    obtain ⟨a, ha⟩ := hsingle c
    rw [ha]
    rfl
/-- C15 (amended) at position 1 with 5 placed at position 0 and the candidates
`[6, 3, 9]`: 6 is counted, 3 violates symmetry and ends the loop. -/
theorem BaseCaseHelper_sum_until_violation_witness :
    ([[5], [6, 3, 9]] : List (List Int)).length
        = (lineAlg (fun i => i) (fun _ => 1) 2 100).tuple_size_
      ∧ (lineAlg (fun i => i) (fun _ => 1) 2 100).num_tuples_
        ≤ (lineAlg (fun i => i) (fun _ => 1) 2 100).tuple_size_
      ∧ ([5, 0] : List Int).length = (lineAlg (fun i => i) (fun _ => 1) 2 100).tuple_size_
      ∧ ([[5], [6, 3, 9]] : List (List Int))[1]? = some [6, 3, 9]
      ∧ (lineAlg (fun i => i) (fun _ => 1) 2 100).tuple_size_ - 1 ≤ 1
      ∧ ((BaseCaseHelper_ (lineAlg (fun i => i) (fun _ => 1) 2 100) [[5], [6, 3, 9]] 1 [true]
            [5, 0] 0 1).map Prod.fst
          = some (((([6, 3, 9] : List Int).takeWhile
              (fun c => !(checkAgainst (lineAlg (fun i => i) (fun _ => 1) 2 100) c 1 0
                (([5, 0] : List Int).take 1) [true]).bad_symmetry)).map
              (fun c => ((BaseCaseHelper_ (lineAlg (fun i => i) (fun _ => 1) 2 100)
                (([[5], [6, 3, 9]] : List (List Int)).set 1 [c]) 1 [true] [5, 0] 0 1).map
                Prod.fst).getD 0)).sum)
        ∧ ∀ c, (BaseCaseHelper_ (lineAlg (fun i => i) (fun _ => 1) 2 100)
            (([[5], [6, 3, 9]] : List (List Int)).set 1 [c]) 1 [true] [5, 0] 0 1).isSome
          = true) :=
  ⟨by decide, by decide, by decide, by decide, by decide,
    BaseCaseHelper_sum_until_violation (lineAlg (fun i => i) (fun _ => 1) 2 100)
      [[5], [6, 3, 9]] [6, 3, 9] 1 1 [true] [5, 0] 0 (by decide) (by decide) (by decide)
      (by decide) (by decide)⟩

theorem candidateLoopTraced_erase (alg : NPointAlg D B)
    (recurseT : List Bool → List Int → ℚ → HelperTrace →
      HelperTrace × Option (Nat × List Bool × List Int × ℚ))
    (recurse : List Bool → List Int → ℚ → Option (Nat × List Int × ℚ)) (k : Nat)
    (hrec : ∀ ok1 p w t, (recurseT ok1 p w t).2
      = (recurse ok1 p w).map (fun y => (y.1, ok1, y.2.1, y.2.2))) :
    ∀ (cs : List Int) (bad : Bool) (r : Nat) (ok copy : List Bool) (pts : List Int) (w : ℚ)
      (tr : HelperTrace),
      (candidateLoopTraced alg recurseT k cs bad r ok copy pts w tr).2
        = (candidateLoop alg recurse ok k cs bad r pts w).map
            (fun y => (y.1, ok, y.2.1, y.2.2)) := by
  intro cs
  induction cs with
  | nil => intro bad r ok copy pts w tr; simp [candidateLoopTraced, candidateLoop]
  | cons c cs ih =>
    intro bad r ok copy pts w tr
    simp only [candidateLoopTraced, candidateLoop, List.nil_append]
    cases bad with
    | true => simp
    | false =>
      simp only [Bool.false_eq_true, if_false]
      cases hp : previousPointsLoop alg pts c k (List.range k) ⟨false, true, ok⟩ with
      | none => simp
      | some s =>
        simp only []
        by_cases hacc : (s.this_point_works && !s.bad_symmetry) = true
        · simp only [hacc, if_true]
          by_cases hkl : k < pts.length
          · simp only [hkl, if_true]
            by_cases hlast : ((k : Int) == (alg.tuple_size_ : Int) - 1) = true
            · simp only [hlast, if_true]
              cases hw : weightLoop alg (pts.set k c) (List.range alg.num_tuples_.toNat) 1 with
              | none => simp
              | some tw => exact ih _ _ _ _ _ _ _
            · simp only [hlast, if_false]
              have h := hrec s.permutation_ok_copy (pts.set k c) w tr
              cases hr : recurseT s.permutation_ok_copy (pts.set k c) w tr with
              | mk tr1 o =>
                rw [hr] at h
                cases hr2 : recurse s.permutation_ok_copy (pts.set k c) w with
                | none =>
                  rw [hr2] at h
                  simp only [Option.map_none'] at h
                  subst h
                  simp
                | some y =>
                  obtain ⟨r1, after, w1⟩ := y
                  rw [hr2] at h
                  simp only [Option.map_some'] at h
                  subst h
                  exact ih _ _ _ _ _ _ _
          · simp [hkl]
        · simp only [hacc, if_false]
          exact ih _ _ _ _ _ _ _

/-- The traced enumerator returns what `BaseCaseHelper_` returns, and as the
contents of `permutation_ok` the contents it was given. -/
theorem BaseCaseHelperTraced_erase (alg : NPointAlg D B) (point_sets : List (List Int)) :
    ∀ (levels : Nat) (ok : List Bool) (pts : List Int) (w : ℚ) (k : Nat) (tr : HelperTrace),
      (BaseCaseHelperTraced_ alg point_sets levels ok pts w k tr).2
        = (BaseCaseHelper_ alg point_sets levels ok pts w k).map
            (fun y => (y.1, ok, y.2.1, y.2.2)) := by
  intro levels
  induction levels with
  | zero => intro ok pts w k tr; simp [BaseCaseHelperTraced_, BaseCaseHelper_]
  | succ levels ih =>
    intro ok pts w k tr
    simp only [BaseCaseHelperTraced_, BaseCaseHelper_]
    cases hk : point_sets[k]? with
    | none => simp
    | some k_rows =>
      exact candidateLoopTraced_erase alg _ _ k (fun ok1 p w1 t => ih ok1 p w1 (k + 1) t) _ _ _ _
        _ _ _ _

theorem BaseCaseTraced_erase (alg : NPointAlg D B) (point_sets : List (List Int)) (w : ℚ) :
    (BaseCaseTraced_ alg point_sets w).2 = BaseCase_ alg point_sets w := by
  simp only [BaseCaseTraced_, BaseCase_, BaseCaseHelperTraced_erase]
  cases BaseCaseHelper_ alg point_sets point_sets.length
    (List.replicate alg.matcher_.num_permutations true)
    (List.replicate alg.tuple_size_ (if alg.debug then (-1 : Int) else alg.uninitialized)) w 0 with
  | none => rfl
  | some y => rfl

/-- A candidate that the loop of lines 51-71 lets pass is greater than every
index at the positions the loop ran over. -/
theorem previousPointsLoop_accept (alg : NPointAlg D B) (pts : List Int) (c : Int) (k : Nat) :
    ∀ (js : List Nat) (s0 s : PairLoopState),
      previousPointsLoop alg pts c k js s0 = some s →
      (s.this_point_works && !s.bad_symmetry) = true →
      ∀ j ∈ js, ∃ q, pts[j]? = some q ∧ q < c := by
  intro js
  induction js with
  | nil => intro s0 s _ _ j hj; simp at hj
  | cons j0 js ih =>
    intro s0 s h hacc j hj
    simp only [previousPointsLoop] at h
    by_cases hact : (!s0.bad_symmetry && s0.this_point_works) = true
    · simp only [hact, if_true] at h
      cases hq : pts[j0]? with
      | none => simp [hq] at h
      | some q =>
        simp only [hq] at h
        by_cases hv : PointsViolateSymmetry_ q c = true
        · simp only [hv, Bool.not_true, Bool.false_eq_true, if_false] at h
          rw [previousPointsLoop_stop alg pts c k js _ (by simp)] at h
          simp at h
          subst h
          simp at hacc
        · simp only [hv, Bool.not_false, if_true] at h
          rcases List.mem_cons.1 hj with e | e
          · subst e
            exact ⟨q, hq, by simpa [PointsViolateSymmetry_] using hv⟩
          · exact ih _ s h hacc j e
    · simp only [hact, if_false] at h
      simp at h
      subst h
      simp at hact hacc
      rw [hacc.2] at hact
      simp [hacc.1] at hact

theorem sorted_append_singleton (l : List Int) (c : Int) (hs : l.Sorted (fun a b => a < b))
    (hc : ∀ p ∈ l, p < c) : (l ++ [c]).Sorted (fun a b => a < b) := by
  apply List.pairwise_append.2
  refine ⟨hs, by simp, ?_⟩
  intro a ha b hb
  simp at hb
  subst hb
  exact hc a ha

theorem candidateLoopTraced_good (alg : NPointAlg D B)
    (recurseT : List Bool → List Int → ℚ → HelperTrace →
      HelperTrace × Option (Nat × List Bool × List Int × ℚ))
    (k : Nat)
    (hrec : ∀ ok1 p w t, GoodTrace t → p.length = alg.tuple_size_ →
      (p.take (k + 1)).Sorted (fun a b => a < b) → k + 1 ≤ alg.tuple_size_ →
      GoodTrace (recurseT ok1 p w t).1 ∧
        ∀ r1 ok2 p2 w2, (recurseT ok1 p w t).2 = some (r1, ok2, p2, w2) →
          (recurseT ok1 p w t).1.counted.length = t.counted.length + r1
            ∧ p2.take (k + 1) = p.take (k + 1) ∧ p2.length = alg.tuple_size_) :
    ∀ (cs : List Int) (bad : Bool) (r : Nat) (ok copy : List Bool) (pts : List Int) (w : ℚ)
      (tr : HelperTrace),
      GoodTrace tr → pts.length = alg.tuple_size_ → (pts.take k).Sorted (fun a b => a < b) →
      GoodTrace (candidateLoopTraced alg recurseT k cs bad r ok copy pts w tr).1 ∧
        ∀ r1 ok2 p2 w2,
          (candidateLoopTraced alg recurseT k cs bad r ok copy pts w tr).2
            = some (r1, ok2, p2, w2) →
          (candidateLoopTraced alg recurseT k cs bad r ok copy pts w tr).1.counted.length + r
              = tr.counted.length + r1
            ∧ p2.take k = pts.take k ∧ p2.length = alg.tuple_size_ := by
  intro cs
  induction cs with
  | nil =>
    intro bad r ok copy pts w tr hg hlen hs
    simp only [candidateLoopTraced]
    refine ⟨hg, ?_⟩
    intro r1 ok2 p2 w2 h
    simp at h
    obtain ⟨h1, _, h3, _⟩ := h
    subst h1; subst h3
    exact ⟨rfl, rfl, hlen⟩
  | cons c cs ih =>
    intro bad r ok copy pts w tr hg hlen hs
    simp only [candidateLoopTraced, List.nil_append]
    cases bad with
    | true =>
      simp only [if_true]
      refine ⟨hg, ?_⟩
      intro r1 ok2 p2 w2 h
      simp at h
      obtain ⟨h1, _, h3, _⟩ := h
      subst h1; subst h3
      exact ⟨rfl, rfl, hlen⟩
    | false =>
      simp only [Bool.false_eq_true, if_false]
      cases hp : previousPointsLoop alg pts c k (List.range k) ⟨false, true, ok⟩ with
      | none => exact ⟨hg, by intro r1 ok2 p2 w2 h; simp at h⟩
      | some s =>
        simp only []
        by_cases hacc : (s.this_point_works && !s.bad_symmetry) = true
        · simp only [hacc, if_true]
          by_cases hkl : k < pts.length
          · simp only [hkl, if_true]
            have hlt : ∀ p ∈ pts.take k, p < c := by
              intro p hp2
              obtain ⟨j, hj⟩ := List.mem_iff_getElem?.1 hp2
              have hjk : j < k := by
                by_contra hcon
                rw [List.getElem?_eq_none_iff.2 (by simp; omega)] at hj
                simp at hj
              obtain ⟨q, hq1, hq2⟩ := previousPointsLoop_accept alg pts c k _ _ s hp hacc j
                (List.mem_range.2 hjk)
              rw [List.getElem?_take_of_lt hjk, hq1] at hj
              simp at hj
              rw [← hj]; exact hq2
            have hset : (pts.set k c).take (k + 1) = pts.take k ++ [c] :=
              take_succ_set pts k c hkl
            have hsorted : (pts.take k ++ [c]).Sorted (fun a b => a < b) :=
              sorted_append_singleton _ c hs hlt
            by_cases hlast : ((k : Int) == (alg.tuple_size_ : Int) - 1) = true
            · simp only [hlast, if_true]
              have hk1 : k + 1 = alg.tuple_size_ := by simp at hlast; omega
              have hfull : pts.set k c = pts.take k ++ [c] := by
                rw [← hset]; symm; apply List.take_of_length_le; simp; omega
              have hg2 : GoodTrace ⟨tr.calls, tr.counted ++ [pts.set k c]⟩ := by
                refine ⟨hg.1, ?_⟩
                intro t ht
                rcases List.mem_append.1 ht with e | e
                · exact hg.2 t e
                · simp at e
                  rw [e, hfull]; exact hsorted
              cases hw : weightLoop alg (pts.set k c) (List.range alg.num_tuples_.toNat) 1 with
              | none => exact ⟨hg2, by intro r1 ok2 p2 w2 h; simp at h⟩
              | some tw =>
                simp only []
                have := ih s.bad_symmetry (r + 1) ok s.permutation_ok_copy
                  (if alg.debug then (pts.set k c).set k (-1) else pts.set k c) (w + tw)
                  ⟨tr.calls, tr.counted ++ [pts.set k c]⟩ hg2
                  (by split <;> simpa using hlen)
                  (by split <;> simpa [take_set_self] using hs)
                refine ⟨this.1, ?_⟩
                intro r1 ok2 p2 w2 h
                obtain ⟨a1, a2, a3⟩ := this.2 r1 ok2 p2 w2 h
                refine ⟨?_, ?_, a3⟩
                · simp only [List.length_append, List.length_singleton] at a1; omega
                · rw [a2]; split <;> simp [take_set_self]
            · simp only [hlast, Bool.false_eq_true, if_false]
              have hr := hrec s.permutation_ok_copy (pts.set k c) w tr hg (by simpa using hlen)
                (by rw [hset]; exact hsorted) (by omega)
              cases hrt : recurseT s.permutation_ok_copy (pts.set k c) w tr with
              | mk tr1 o =>
                rw [hrt] at hr
                cases o with
                | none => exact ⟨hr.1, by intro r1 ok2 p2 w2 h; simp at h⟩
                | some x =>
                  obtain ⟨r2, copy1, after, w1⟩ := x
                  simp only []
                  obtain ⟨b1, b2, b3⟩ := hr.2 r2 copy1 after w1 rfl
                  have htk : after.take k = pts.take k := by
                    apply take_of_take_succ after (pts.take k) k c (by simp; omega)
                    rw [b2, hset]
                  have := ih s.bad_symmetry (r + r2) ok copy1
                    (if alg.debug then after.set k (-1) else after) w1 tr1 hr.1
                    (by split <;> simpa using b3)
                    (by split <;> simpa [take_set_self, htk] using hs)
                  refine ⟨this.1, ?_⟩
                  intro r1 ok2 p2 w2 h
                  obtain ⟨a1, a2, a3⟩ := this.2 r1 ok2 p2 w2 h
                  refine ⟨?_, ?_, a3⟩
                  · simp only at b1; omega
                  · rw [a2]; split <;> simp [take_set_self, htk]
          · simp only [hkl, if_false]
            exact ⟨hg, by intro r1 ok2 p2 w2 h; simp at h⟩
        · simp only [hacc, if_false]
          exact ih _ _ _ _ _ _ _ hg hlen hs

theorem goodTrace_call (tr : HelperTrace) (k : Nat) (pts : List Int) (hg : GoodTrace tr)
    (hk : k ≤ pts.length) (hs : (pts.take k).Sorted (fun a b => a < b)) :
    GoodTrace ⟨tr.calls ++ [(k, pts.take k)], tr.counted⟩ := by
  refine ⟨?_, hg.2⟩
  intro x hx
  rcases List.mem_append.1 hx with e | e
  · exact hg.1 x e
  · simp at e
    subst e
    exact ⟨by simp; omega, hs⟩

/-- Every call of the traced enumerator keeps the record good: all calls below
it have a strictly increasing tuple in progress, and all tuples it counts are
strictly increasing. -/
theorem BaseCaseHelperTraced_good (alg : NPointAlg D B) (point_sets : List (List Int)) :
    ∀ (levels : Nat) (ok : List Bool) (pts : List Int) (w : ℚ) (k : Nat) (tr : HelperTrace),
      GoodTrace tr → pts.length = alg.tuple_size_ →
      (pts.take k).Sorted (fun a b => a < b) → k ≤ alg.tuple_size_ →
      GoodTrace (BaseCaseHelperTraced_ alg point_sets levels ok pts w k tr).1 ∧
        ∀ r1 ok2 p2 w2,
          (BaseCaseHelperTraced_ alg point_sets levels ok pts w k tr).2 = some (r1, ok2, p2, w2) →
          (BaseCaseHelperTraced_ alg point_sets levels ok pts w k tr).1.counted.length
              = tr.counted.length + r1
            ∧ p2.take k = pts.take k ∧ p2.length = alg.tuple_size_ := by
  intro levels
  induction levels with
  | zero =>
    intro ok pts w k tr hg hlen hs hk
    simp only [BaseCaseHelperTraced_]
    exact ⟨goodTrace_call tr k pts hg (by omega) hs, by intro r1 ok2 p2 w2 h; simp at h⟩
  | succ levels ih =>
    intro ok pts w k tr hg hlen hs hk
    simp only [BaseCaseHelperTraced_]
    cases hps : point_sets[k]? with
    | none =>
      exact ⟨goodTrace_call tr k pts hg (by omega) hs, by intro r1 ok2 p2 w2 h; simp at h⟩
    | some k_rows =>
      simp only []
      have := candidateLoopTraced_good alg
        (fun ok1 p w1 t => BaseCaseHelperTraced_ alg point_sets levels ok1 p w1 (k + 1) t) k
        (fun ok1 p w1 t hg1 hl1 hs1 hk1 => ih ok1 p w1 (k + 1) t hg1 hl1 hs1 hk1)
        k_rows false 0 ok ok pts w ⟨tr.calls ++ [(k, pts.take k)], tr.counted⟩
        (goodTrace_call tr k pts hg (by omega) hs) hlen hs
      refine ⟨this.1, ?_⟩
      intro r1 ok2 p2 w2 h
      obtain ⟨a1, a2, a3⟩ := this.2 r1 ok2 p2 w2 h
      exact ⟨by simpa using a1, a2, a3⟩

/-- C16: `BaseCaseHelper_` never mutates its caller's validity vector. With the
reference `permutation_ok` threaded through as state, for every level, matcher
and input, a call that returns hands back the contents of `permutation_ok` it
was given; the candidate loop does not depend on what `permutation_ok_copy`
holds when a candidate is taken up (it is cleared and refilled from
`permutation_ok`), so the checks of every candidate start from a copy equal to
the argument and `TestPointPair` narrows only the copy; and nothing else
changes with the threading: the call returns what `BaseCaseHelper_` returns. -/
theorem BaseCaseHelper_keeps_permutation_ok (alg : NPointAlg D B)
    (point_sets : List (List Int)) (levels : Nat) (ok : List Bool) (pts : List Int) (w : ℚ)
    (k : Nat) (tr : HelperTrace) :
    (∀ r ok2 p2 w2,
        (BaseCaseHelperTraced_ alg point_sets levels ok pts w k tr).2 = some (r, ok2, p2, w2) →
        ok2 = ok)
      ∧ (∀ recurseT cs bad r copy1 copy2,
          candidateLoopTraced alg recurseT k cs bad r ok copy1 pts w tr
            = candidateLoopTraced alg recurseT k cs bad r ok copy2 pts w tr)
      ∧ (BaseCaseHelperTraced_ alg point_sets levels ok pts w k tr).2.map
            (fun x => (x.1, x.2.2.1, x.2.2.2))
          = BaseCaseHelper_ alg point_sets levels ok pts w k := by
  have he := BaseCaseHelperTraced_erase alg point_sets levels ok pts w k tr
  refine ⟨?_, ?_, ?_⟩
  · intro r ok2 p2 w2 h
    rw [he] at h
    cases hb : BaseCaseHelper_ alg point_sets levels ok pts w k with
    | none => rw [hb] at h; simp at h
    | some y =>
      rw [hb] at h
      simp at h
      exact h.2.1.symm
  · intro recurseT cs bad r copy1 copy2
    cases cs <;> simp [candidateLoopTraced]
  · rw [he]
    cases BaseCaseHelper_ alg point_sets levels ok pts w k with
    | none => rfl
    | some y => rfl

/-- C16 at position 0 of the lists `[0, 1]`, `[2, 3]`, with a validity vector
of two entries. -/
theorem BaseCaseHelper_keeps_permutation_ok_witness :
    (BaseCaseHelperTraced_ (lineAlg (fun i => i) (fun _ => 1) 2 100) [[0, 1], [2, 3]] 2
        [true, false] [0, 0] 0 0 ⟨[], []⟩).2.map (fun x => (x.1, x.2.1))
      = some (4, [true, false])
      ∧ ∀ r ok2 p2 w2,
        (BaseCaseHelperTraced_ (lineAlg (fun i => i) (fun _ => 1) 2 100) [[0, 1], [2, 3]] 2
          [true, false] [0, 0] 0 0 ⟨[], []⟩).2 = some (r, ok2, p2, w2) →
        ok2 = [true, false] :=
  ⟨by decide,
    (BaseCaseHelper_keeps_permutation_ok (lineAlg (fun i => i) (fun _ => 1) 2 100)
      [[0, 1], [2, 3]] 2 [true, false] [0, 0] 0 0 ⟨[], []⟩).1⟩

/-- C17: the symmetry-order invariant of the tuple in progress. In the record
of a run of `BaseCase_` (which returns what `BaseCase_` returns), every call of
`BaseCaseHelper_` at a level `k` has `points_in_tuple[0..k)` of length `k` and
strictly increasing; every tuple that increments the count is strictly
increasing, and a run that returns has counted as many tuples as it returns;
and a candidate is rejected by the loop of lines 51-71 whenever some already
placed index is greater than or equal to it. -/
theorem BaseCase_tuple_in_progress_increasing (alg : NPointAlg D B)
    (point_sets : List (List Int)) (w : ℚ) :
    (BaseCaseTraced_ alg point_sets w).2 = BaseCase_ alg point_sets w
      ∧ (∀ x ∈ (BaseCaseTraced_ alg point_sets w).1.calls,
          x.2.length = x.1 ∧ x.2.Sorted (fun a b => a < b))
      ∧ (∀ t ∈ (BaseCaseTraced_ alg point_sets w).1.counted, t.Sorted (fun a b => a < b))
      ∧ (∀ n w1, BaseCase_ alg point_sets w = some (n, w1) →
          (BaseCaseTraced_ alg point_sets w).1.counted.length = n)
      ∧ (∀ (pts : List Int) (c : Int) (k : Nat) (ok : List Bool) (s : PairLoopState),
          previousPointsLoop alg pts c k (List.range k) ⟨false, true, ok⟩ = some s →
          (∃ j q, j < k ∧ pts[j]? = some q ∧ c ≤ q) →
          (s.this_point_works && !s.bad_symmetry) = false) := by
  have hgood := BaseCaseHelperTraced_good alg point_sets point_sets.length
    (List.replicate alg.matcher_.num_permutations true)
    (List.replicate alg.tuple_size_ (if alg.debug then (-1 : Int) else alg.uninitialized)) w 0
    ⟨[], []⟩ ⟨by simp, by simp⟩ (by simp) (by simp [List.Sorted]) (by omega)
  refine ⟨BaseCaseTraced_erase alg point_sets w, hgood.1.1, hgood.1.2, ?_, ?_⟩
  · intro n w1 h
    rw [← BaseCaseTraced_erase] at h
    simp only [BaseCaseTraced_] at h ⊢
    cases hb : (BaseCaseHelperTraced_ alg point_sets point_sets.length
        (List.replicate alg.matcher_.num_permutations true)
        (List.replicate alg.tuple_size_ (if alg.debug then (-1 : Int) else alg.uninitialized)) w 0
        ⟨[], []⟩).2 with
    | none => rw [hb] at h; simp at h
    | some x =>
      obtain ⟨r1, ok2, p2, w2⟩ := x
      rw [hb] at h
      simp at h
      have := (hgood.2 r1 ok2 p2 w2 hb).1
      simp at this
      omega
  · intro pts c k ok s hp hex
    by_contra hcon
    have hacc : (s.this_point_works && !s.bad_symmetry) = true := by
      simpa using hcon
    obtain ⟨j, q, hj, hq, hcq⟩ := hex
    obtain ⟨q2, hq2, hlt⟩ := previousPointsLoop_accept alg pts c k _ _ s hp hacc j
      (List.mem_range.2 hj)
    rw [hq] at hq2
    simp at hq2
    omega

/-- C17 at the list `[0, 1, 2]` of one leaf at both positions of a pair search:
four calls, each with an increasing tuple in progress. -/
theorem BaseCase_tuple_in_progress_increasing_witness :
    (BaseCaseTraced_ (lineAlg (fun i => i) (fun _ => 1) 2 100) [[0, 1, 2], [1, 2, 3]] 0).1.calls
        = [(0, []), (1, [0]), (1, [1]), (1, [2])]
      ∧ ∀ x ∈ (BaseCaseTraced_ (lineAlg (fun i => i) (fun _ => 1) 2 100)
          [[0, 1, 2], [1, 2, 3]] 0).1.calls,
        x.2.length = x.1 ∧ x.2.Sorted (fun a b => a < b) :=
  ⟨by decide,
    (BaseCase_tuple_in_progress_increasing (lineAlg (fun i => i) (fun _ => 1) 2 100)
      [[0, 1, 2], [1, 2, 3]] 0).2.1⟩

theorem DepthFirstRecursionTraced_erase (alg : NPointAlg D B) :
    ∀ (depth : Nat) (nodes : List (NPointNode B)) (previous_split : Int) (prunes : Nat),
      (DepthFirstRecursionTraced_ alg depth nodes previous_split prunes).map
          (fun x => (x.1, x.2.1, x.2.2.1))
        = DepthFirstRecursion_ alg depth nodes previous_split prunes := by
  intro depth
  induction depth with
  | zero => intro nodes p q; rfl
  | succ depth ih =>
    intro nodes p q
    simp only [DepthFirstRecursionTraced_, DepthFirstRecursion_, BaseCaseTraced_erase]
    split
    · rfl
    · split
      · rfl
      · rfl
      · split
        · split
          · rfl
          · split
            · rfl
            · rfl
        · split
          · rfl
          · split
            · rfl
            · split
              · rename_i l r hl hr
                rw [← ih]
                cases h1 : DepthFirstRecursionTraced_ alg depth
                    (nodes.set (ScanState.split_index ‹_›).toNat l) (ScanState.split_index ‹_›)
                    (ScanState.num_exclusion_prunes_ ‹_›) with
                | none => rfl
                | some x =>
                  obtain ⟨n1, nodes1, prunes1, c1⟩ := x
                  simp only [Option.map_some']
                  rw [← ih]
                  cases h2 : DepthFirstRecursionTraced_ alg depth
                      (nodes1.set (ScanState.split_index ‹_›).toNat r)
                      (ScanState.split_index ‹_›) prunes1 with
                  | none => rfl
                  | some y => rfl
              · rfl

theorem enumTuplesList_sublist (alg : NPointAlg D B) :
    ∀ (rest : List (List Int)) (placed : List Int) (ok : List Bool),
      placed.Sorted (fun a b => a < b) →
      List.Sublist (enumTuplesList alg rest placed ok)
        ((tuplesOf rest).filter (fun t =>
          decide ((placed ++ t).Sorted (fun a b => a < b)) && acceptedFrom alg t placed ok)) := by
  intro rest
  induction rest with
  | nil =>
    intro placed ok hs
    simp [enumTuplesList, tuplesOf, acceptedFrom, hs]
  | cons k_rows rest ih =>
    intro placed ok hs
    simp only [enumTuplesList, tuplesOf]
    induction k_rows with
    | nil => simp [enumCandidatesList]
    | cons c cs ihc =>
      simp only [enumCandidatesList, List.map_cons, List.flatten_cons, List.filter_append]
      cases hb : (checkAgainst alg c placed.length 0 placed ok).bad_symmetry with
      | true => simp
      | false =>
        cases hw : (checkAgainst alg c placed.length 0 placed ok).this_point_works with
        | false =>
          simp only [Bool.false_eq_true, if_false]
          exact List.sublist_append_of_sublist_right ihc
        | true =>
          simp only [Bool.false_eq_true, if_false, if_true]
          apply List.Sublist.append _ ihc
          have hlt := checkAgainst_accept alg c placed.length placed 0 ok hb hw
          have hca := checkAgainst_of_lt alg c placed.length placed 0 ok hlt
          have hm : (matchAgainst alg c placed.length 0 placed ok).1 = true := by
            rw [hca] at hw; exact hw
          have hs2 : (placed ++ [c]).Sorted (fun a b => a < b) :=
            sorted_append_singleton placed c hs hlt
          have := (ih (placed ++ [c])
            (checkAgainst alg c placed.length 0 placed ok).permutation_ok_copy hs2).map
            (fun t => c :: t)
          rw [List.filter_map]
          have hfun : ((fun t => decide ((placed ++ t).Sorted (fun a b => a < b))
                && acceptedFrom alg t placed ok) ∘ fun t => c :: t)
              = (fun t => decide ((placed ++ [c] ++ t).Sorted (fun a b => a < b))
                && acceptedFrom alg t (placed ++ [c])
                  (checkAgainst alg c placed.length 0 placed ok).permutation_ok_copy) := by
            funext t
            rw [hca]
            simp [acceptedFrom, hm]
          rw [hfun]
          exact this

theorem candidateLoopTraced_bad (alg : NPointAlg D B)
    (recurseT : List Bool → List Int → ℚ → HelperTrace →
      HelperTrace × Option (Nat × List Bool × List Int × ℚ))
    (k : Nat) (cs : List Int) (r : Nat) (ok copy : List Bool) (pts : List Int) (w : ℚ)
    (tr : HelperTrace) :
    candidateLoopTraced alg recurseT k cs true r ok copy pts w tr = (tr, some (r, ok, pts, w)) := by
  cases cs <;> simp [candidateLoopTraced]

/-- The record of the candidate loop: a run that returns has appended to
`counted` the tuples of `enumCandidatesList`, each behind the placed indices. -/
theorem candidateLoopTraced_counted (alg : NPointAlg D B) (k : Nat) (placed : List Int)
    (ok : List Bool)
    (recurseT : List Bool → List Int → ℚ → HelperTrace →
      HelperTrace × Option (Nat × List Bool × List Int × ℚ))
    (complete : Int → List Bool → List (List Int))
    (hk : k < alg.tuple_size_) (hpl : placed.length = k)
    (hlast : k + 1 = alg.tuple_size_ → ∀ c ok1, complete c ok1 = [[]])
    (hrec : k + 1 ≠ alg.tuple_size_ → ∀ (c : Int) (ok1 : List Bool) (p : List Int) (w : ℚ)
      (t : HelperTrace), p.length = alg.tuple_size_ → p.take (k + 1) = placed ++ [c] →
      ∀ r1 ok2 p2 w2, (recurseT ok1 p w t).2 = some (r1, ok2, p2, w2) →
        (recurseT ok1 p w t).1.counted
            = t.counted ++ (complete c ok1).map (fun s => placed ++ [c] ++ s)
          ∧ p2.take (k + 1) = placed ++ [c] ∧ p2.length = alg.tuple_size_) :
    ∀ (cs : List Int) (r : Nat) (copy : List Bool) (pts : List Int) (w : ℚ) (tr : HelperTrace),
      pts.length = alg.tuple_size_ → pts.take k = placed →
      ∀ r1 ok2 p2 w2,
        (candidateLoopTraced alg recurseT k cs false r ok copy pts w tr).2
          = some (r1, ok2, p2, w2) →
        (candidateLoopTraced alg recurseT k cs false r ok copy pts w tr).1.counted
            = tr.counted ++ (enumCandidatesList alg k placed ok complete cs).map
                (fun s => placed ++ s)
          ∧ p2.take k = placed ∧ p2.length = alg.tuple_size_ := by
  intro cs
  induction cs with
  | nil =>
    intro r copy pts w tr hlen htake r1 ok2 p2 w2 h
    simp only [candidateLoopTraced] at h ⊢
    simp at h
    obtain ⟨_, _, h3, _⟩ := h
    subst h3
    exact ⟨by simp [enumCandidatesList], htake, hlen⟩
  | cons c cs ih =>
    intro r copy pts w tr hlen htake r1 ok2 p2 w2 h
    have hkl : k ≤ pts.length := by omega
    have hkl' : k < pts.length := by omega
    simp only [candidateLoopTraced, List.nil_append, Bool.false_eq_true, if_false,
      previousPointsLoop_eq alg pts c k ok hkl, htake, enumCandidatesList] at h ⊢
    cases hb : (checkAgainst alg c k 0 placed ok).bad_symmetry with
    | true =>
      simp only [hb, Bool.not_true, Bool.and_false, Bool.false_eq_true, if_false, if_true,
        candidateLoopTraced_bad] at h ⊢
      simp at h
      obtain ⟨_, _, h3, _⟩ := h
      subst h3
      exact ⟨by simp, htake, hlen⟩
    | false =>
      cases hw : (checkAgainst alg c k 0 placed ok).this_point_works with
      | false =>
        simp only [hb, hw, Bool.false_and, Bool.false_eq_true, if_false] at h ⊢
        exact ih _ _ _ _ _ hlen htake r1 ok2 p2 w2 h
      | true =>
        have hset : (pts.set k c).take (k + 1) = placed ++ [c] := by
          rw [take_succ_set pts k c hkl', htake]
        simp only [hb, hw, Bool.not_false, Bool.and_true, if_true, hkl', Bool.false_eq_true,
          if_false] at h ⊢
        by_cases hl : k + 1 = alg.tuple_size_
        · have hcond : ((k : Int) == (alg.tuple_size_ : Int) - 1) = true := by
            simp; omega
          have hfull : pts.set k c = placed ++ [c] := by
            rw [← hset]; symm; apply List.take_of_length_le; simp; omega
          simp only [hcond, if_true, hlast hl] at h ⊢
          cases hwl : weightLoop alg (pts.set k c) (List.range alg.num_tuples_.toNat) 1 with
          | none => rw [hwl] at h; simp at h
          | some tw =>
            rw [hwl] at h
            simp only [] at h ⊢
            obtain ⟨a1, a2, a3⟩ := ih (r + 1) _
              (if alg.debug then (pts.set k c).set k (-1) else pts.set k c) (w + tw)
              ⟨tr.calls, tr.counted ++ [pts.set k c]⟩
              (by split <;> simpa using hlen)
              (by split <;> simp [take_set_self, htake]) r1 ok2 p2 w2 h
            refine ⟨?_, a2, a3⟩
            rw [a1, hfull]
            simp
        · have hcond : ((k : Int) == (alg.tuple_size_ : Int) - 1) = false := by
            simp; omega
          simp only [hcond, Bool.false_eq_true, if_false] at h ⊢
          cases hrt : recurseT (checkAgainst alg c k 0 placed ok).permutation_ok_copy
              (pts.set k c) w tr with
          | mk tr1 o =>
            rw [hrt] at h
            cases o with
            | none => simp at h
            | some x =>
              obtain ⟨r2, copy1, after, w1⟩ := x
              simp only [] at h ⊢
              have hr := hrec hl c (checkAgainst alg c k 0 placed ok).permutation_ok_copy
                (pts.set k c) w tr (by simpa using hlen) hset r2 copy1 after w1 (by rw [hrt])
              rw [hrt] at hr
              obtain ⟨b1, b2, b3⟩ := hr
              have htk : after.take k = placed := take_of_take_succ after placed k c hpl b2
              obtain ⟨a1, a2, a3⟩ := ih (r + r2) copy1
                (if alg.debug then after.set k (-1) else after) w1 tr1
                (by split <;> simpa using b3)
                (by split <;> simp [take_set_self, htk]) r1 ok2 p2 w2 h
              refine ⟨?_, a2, a3⟩
              rw [a1]
              simp only at b1
              rw [b1]
              simp [List.append_assoc]

/-- The record of `BaseCaseHelper_`: a call at position `k` that returns has
appended to `counted` the tuples of `enumTuplesList`, each behind the placed
indices. -/
theorem BaseCaseHelperTraced_counted (alg : NPointAlg D B) (point_sets : List (List Int))
    (hps : point_sets.length = alg.tuple_size_) :
    ∀ (levels k : Nat) (ok : List Bool) (pts : List Int) (w : ℚ) (tr : HelperTrace),
      pts.length = alg.tuple_size_ → k < alg.tuple_size_ →
      ∀ r1 ok2 p2 w2,
        (BaseCaseHelperTraced_ alg point_sets levels ok pts w k tr).2 = some (r1, ok2, p2, w2) →
        (BaseCaseHelperTraced_ alg point_sets levels ok pts w k tr).1.counted
            = tr.counted ++ (enumTuplesList alg (point_sets.drop k) (pts.take k) ok).map
                (fun s => pts.take k ++ s)
          ∧ p2.take k = pts.take k ∧ p2.length = alg.tuple_size_ := by
  intro levels
  induction levels with
  | zero =>
    intro k ok pts w tr _ _ r1 ok2 p2 w2 h
    simp [BaseCaseHelperTraced_] at h
  | succ levels ih =>
    intro k ok pts w tr hlen hk r1 ok2 p2 w2 h
    have hkp : k < point_sets.length := by omega
    have hd : point_sets.drop k = point_sets[k] :: point_sets.drop (k + 1) := by simp
    have hpl : (pts.take k).length = k := by simp; omega
    simp only [BaseCaseHelperTraced_, List.getElem?_eq_getElem hkp, hd, enumTuplesList, hpl]
      at h ⊢
    exact candidateLoopTraced_counted alg k (pts.take k) ok
      (fun ok1 p1 w1 t => BaseCaseHelperTraced_ alg point_sets levels ok1 p1 w1 (k + 1) t)
      (fun c ok1 => enumTuplesList alg (point_sets.drop (k + 1)) (pts.take k ++ [c]) ok1)
      hk hpl
      (by
        intro hlast c ok1
        have : point_sets.drop (k + 1) = [] := by
          apply List.drop_eq_nil_of_le; omega
        simp [this, enumTuplesList])
      (by
        intro hne c ok1 p1 w1 t hp1 hp2 r3 ok3 p3 w3 h3
        obtain ⟨a1, a2, a3⟩ := ih (k + 1) ok1 p1 w1 t hp1 (by omega) r3 ok3 p3 w3 h3
        rw [hp2] at a1 a2
        exact ⟨a1, a2, a3⟩)
      point_sets[k] 0 ok pts w ⟨tr.calls ++ [(k, pts.take k)], tr.counted⟩ hlen rfl
      r1 ok2 p2 w2 h

/-- The record of `BaseCase_`: a run that returns has counted exactly the
tuples of `enumTuplesList`, as many as the count it returns. -/
theorem BaseCaseTraced_counted (alg : NPointAlg D B) (point_sets : List (List Int)) (w : ℚ)
    (hps : point_sets.length = alg.tuple_size_) (n : Nat) (w1 : ℚ)
    (h : (BaseCaseTraced_ alg point_sets w).2 = some (n, w1)) :
    (BaseCaseTraced_ alg point_sets w).1.counted
        = enumTuplesList alg point_sets [] (List.replicate alg.matcher_.num_permutations true)
      ∧ (BaseCaseTraced_ alg point_sets w).1.counted.length = n := by
  simp only [BaseCaseTraced_] at h ⊢
  cases hb : (BaseCaseHelperTraced_ alg point_sets point_sets.length
      (List.replicate alg.matcher_.num_permutations true)
      (List.replicate alg.tuple_size_ (if alg.debug then (-1 : Int) else alg.uninitialized)) w 0
      ⟨[], []⟩).2 with
  | none => rw [hb] at h; simp at h
  | some x =>
    obtain ⟨r1, ok2, p2, w2⟩ := x
    rw [hb] at h
    simp at h
    have hpos : 0 < alg.tuple_size_ := by
      by_contra hcon
      have h0 : point_sets.length = 0 := by omega
      rw [h0] at hb
      simp [BaseCaseHelperTraced_] at hb
    have hc := (BaseCaseHelperTraced_counted alg point_sets hps point_sets.length 0 _ _ w
      ⟨[], []⟩ (by simp) hpos r1 ok2 p2 w2 hb).1
    have hgood := (BaseCaseHelperTraced_good alg point_sets point_sets.length
      (List.replicate alg.matcher_.num_permutations true)
      (List.replicate alg.tuple_size_ (if alg.debug then (-1 : Int) else alg.uninitialized)) w 0
      ⟨[], []⟩ ⟨by simp, by simp⟩ (by simp) (by simp [List.Sorted]) (by omega)).2
        r1 ok2 p2 w2 hb
    refine ⟨?_, ?_⟩
    · rw [hc]; simp
    · have := hgood.1
      simp at this
      omega

theorem mem_tuplesOf_iff :
    ∀ (point_sets : List (List Int)) (t : List Int),
      t ∈ tuplesOf point_sets ↔
        t.length = point_sets.length ∧
          ∀ (i : Nat) (x : Int) (l : List Int), t[i]? = some x → point_sets[i]? = some l → x ∈ l := by
  intro point_sets
  induction point_sets with
  | nil =>
    intro t
    simp [tuplesOf]
  | cons k_rows rest ih =>
    intro t
    constructor
    · intro h
      obtain ⟨c, t1, hc, ht1, rfl⟩ := mem_tuplesOf_cons k_rows rest t h
      obtain ⟨h1, h2⟩ := (ih t1).1 ht1
      refine ⟨by simp [h1], ?_⟩
      intro i x l hx hl
      cases i with
      | zero =>
        simp at hx hl
        subst hx; subst hl
        exact hc
      | succ i =>
        simp at hx hl
        exact h2 i x l hx hl
    · rintro ⟨h1, h2⟩
      cases t with
      | nil => simp at h1
      | cons c t1 =>
        have hc : c ∈ k_rows := h2 0 c k_rows (by simp) (by simp)
        have ht1 : t1 ∈ tuplesOf rest := by
          apply (ih t1).2
          refine ⟨by simpa using h1, ?_⟩
          intro i x l hx hl
          exact h2 (i + 1) x l (by simpa using hx) (by simpa using hl)
        simp only [tuplesOf, List.mem_flatten, List.mem_map]
        exact ⟨(tuplesOf rest).map (fun t => c :: t), ⟨c, hc, rfl⟩,
          List.mem_map.2 ⟨t1, ht1, rfl⟩⟩

theorem tuplesOf_nodup :
    ∀ (point_sets : List (List Int)), (∀ l ∈ point_sets, l.Nodup) →
      (tuplesOf point_sets).Nodup := by
  intro point_sets
  induction point_sets with
  | nil => intro _; simp [tuplesOf]
  | cons k_rows rest ih =>
    intro h
    have hrest := ih (fun l hl => h l (by simp [hl]))
    have hk : k_rows.Nodup := h k_rows (by simp)
    clear h ih
    induction k_rows with
    | nil => simp [tuplesOf]
    | cons c cs ihc =>
      have hcs := List.nodup_cons.1 hk
      have e : tuplesOf ((c :: cs) :: rest)
          = (tuplesOf rest).map (fun t => c :: t) ++ tuplesOf (cs :: rest) := by
        simp [tuplesOf]
      rw [e]
      apply List.nodup_append.2
      refine ⟨?_, ihc hcs.2, ?_⟩
      · apply List.Nodup.map _ hrest
        intro a b hab
        simpa using hab
      · intro t ht1 ht2
        obtain ⟨s, _, rfl⟩ := List.mem_map.1 ht1
        obtain ⟨c2, t2, hc2, _, e2⟩ := mem_tuplesOf_cons cs rest _ ht2
        simp at e2
        rw [e2.1] at hcs
        exact hcs.1 hc2

/-- The tuples that `matchingTuples` lists: one index from the range of each
node of the array, strictly increasing, accepted by the point-level test. -/
theorem mem_matchingTuples_iff (alg : NPointAlg D B) (nodes : List (NPointNode B))
    (t : List Int) :
    t ∈ matchingTuples alg nodes ↔
      (t.length = nodes.length ∧
        ∀ (i : Nat) (p : Int) (nd : NPointNode B), t[i]? = some p → nodes[i]? = some nd →
          nd.begin ≤ p ∧ p < nd.begin + nd.count)
      ∧ t.Sorted (fun a b => a < b) ∧ tupleAccepted alg t = true := by
  simp only [matchingTuples, List.mem_filter, mem_tuplesOf_iff, List.length_map,
    Bool.and_eq_true, decide_eq_true_eq]
  constructor
  · rintro ⟨⟨h1, h2⟩, h3⟩
    refine ⟨⟨h1, ?_⟩, h3⟩
    intro i p nd hp hnd
    exact (mem_nodePoints_iff nd p).1 (h2 i p (nodePoints nd) hp (by simp [hnd]))
  · rintro ⟨⟨h1, h2⟩, h3⟩
    refine ⟨⟨h1, ?_⟩, h3⟩
    intro i p l hp hl
    simp only [List.getElem?_map] at hl
    cases hnd : nodes[i]? with
    | none => rw [hnd] at hl; simp at hl
    | some nd =>
      rw [hnd] at hl
      simp at hl
      subst hl
      exact (mem_nodePoints_iff nd p).2 (h2 i p nd hp hnd)

theorem matchingTuples_nodup (alg : NPointAlg D B) (nodes : List (NPointNode B)) :
    (matchingTuples alg nodes).Nodup := by
  unfold matchingTuples
  apply List.Nodup.filter
  apply tuplesOf_nodup
  intro l hl
  obtain ⟨nd, _, rfl⟩ := List.mem_map.1 hl
  exact (nodePoints_sorted nd).nodup

theorem childrenDisjoint_children (nd l r : NPointNode B) (h : nd.childrenDisjoint = true)
    (hl : nd.left = some l) (hr : nd.right = some r) :
    l.childrenDisjoint = true ∧ r.childrenDisjoint = true ∧
      (l.end_ ≤ r.begin ∨ r.end_ ≤ l.begin ∨ l.end_ ≤ l.begin ∨ r.end_ ≤ r.begin) := by
  cases nd with
  | leaf b e c bd => simp [NPointNode.left] at hl
  | inner b e c bd l1 r1 =>
    simp only [NPointNode.left, NPointNode.right, Option.some.injEq] at hl hr
    subst hl; subst hr
    simp only [NPointNode.childrenDisjoint, Bool.and_eq_true, decide_eq_true_eq] at h
    exact ⟨h.1.2, h.2, h.1.1⟩

/-- Replacing a node of the array by a node whose range lies inside its own
keeps every matching tuple a matching tuple of the original array. -/
theorem matchingTuples_set (alg : NPointAlg D B) (nodes : List (NPointNode B)) (k : Nat)
    (nd x : NPointNode B) (hk : nodes[k]? = some nd)
    (hb : nd.begin ≤ x.begin) (he : x.begin + x.count ≤ nd.begin + nd.count) (t : List Int)
    (h : t ∈ matchingTuples alg (nodes.set k x)) :
    t ∈ matchingTuples alg nodes ∧ ∃ p, t[k]? = some p ∧ x.begin ≤ p ∧ p < x.begin + x.count := by
  rw [mem_matchingTuples_iff] at h ⊢
  obtain ⟨⟨h1, h2⟩, h3⟩ := h
  have hkl : k < nodes.length := by
    by_contra hcon
    rw [List.getElem?_eq_none_iff.2 (by omega)] at hk
    simp at hk
  refine ⟨⟨⟨by simpa using h1, ?_⟩, h3⟩, ?_⟩
  · intro i p nd1 hp hnd1
    by_cases hik : i = k
    · subst hik
      rw [hk] at hnd1
      simp at hnd1
      subst hnd1
      have := h2 i p x hp (by simp [List.getElem?_set, hkl])
      omega
    · exact h2 i p nd1 hp (by rw [List.getElem?_set]; simp [Ne.symm hik, hnd1])
  · have hkt : k < t.length := by simp at h1; omega
    refine ⟨t[k], by simp [hkt], ?_⟩
    exact h2 k t[k] x (by simp [hkt]) (by simp [List.getElem?_set, hkl])

theorem childrenDisjoint_set (nodes : List (NPointNode B)) (k : Nat) (x : NPointNode B)
    (hn : ∀ nd ∈ nodes, nd.childrenDisjoint = true) (hx : x.childrenDisjoint = true) :
    ∀ nd ∈ nodes.set k x, nd.childrenDisjoint = true := by
  intro nd hnd
  rcases List.mem_or_eq_of_mem_set hnd with h | h
  · exact hn nd h
  · rw [h]; exact hx

theorem pairLoop_exit (alg : NPointAlg D B) (nodes : List (NPointNode B))
    (node_i : NPointNode B) (i : Nat) :
    ∀ (js : List Nat) (s : ScanState),
      (∀ v s1, pairLoop alg nodes node_i i js s = some (ScanExit.returned v s1) → v = 0) ∧
      (∀ s1, pairLoop alg nodes node_i i js s = some (ScanExit.completed s1) →
        s1.split_index = s.split_index) := by
  intro js
  induction js with
  | nil =>
    intro s
    simp only [pairLoop]
    exact ⟨by intro v s1 h; simp at h, by intro s1 h; simp at h; rw [← h]⟩
  | cons j js ih =>
    intro s
    simp only [pairLoop]
    cases nodes[j]? with
    | none => exact ⟨by intro v s1 h; simp at h, by intro s1 h; simp at h⟩
    | some node_j =>
      simp only []
      split
      · exact ⟨by intro v s1 h; simp at h; exact h.1.symm, by intro s1 h; simp at h⟩
      · split
        · exact ⟨by intro v s1 h; simp at h; exact h.1.symm, by intro s1 h; simp at h⟩
        · refine ⟨(ih _).1, ?_⟩
          intro s1 h
          have := (ih _).2 s1 h
          exact this

/-- How the main loop can be left: a `return` inside it returns 0; when it runs
to its end, every position it visited is inside the node array and
`split_index` is below the positions visited. -/
theorem mainLoop_exit (alg : NPointAlg D B) (nodes : List (NPointNode B)) :
    ∀ (len m : Nat) (s : ScanState),
      (∀ v s1, mainLoop alg nodes (List.range' m len) s = some (ScanExit.returned v s1) → v = 0) ∧
      (∀ s1, mainLoop alg nodes (List.range' m len) s = some (ScanExit.completed s1) →
        m + len ≤ max m nodes.length ∧
          (s.split_index < (m : Int) → s1.split_index < ((m + len : Nat) : Int))) := by
  intro len
  induction len with
  | zero =>
    intro m s
    simp only [List.range'_zero, mainLoop]
    refine ⟨by intro v s1 h; simp at h, ?_⟩
    intro s1 h
    simp at h
    subst h
    exact ⟨by omega, by intro h; simpa using h⟩
  | succ len ih =>
    intro m s
    simp only [List.range'_succ, mainLoop]
    cases hm : nodes[m]? with
    | none => exact ⟨by intro v s1 h; simp at h, by intro s1 h; simp at h⟩
    | some node_m =>
      have hml : m < nodes.length := by
        by_contra hcon
        rw [List.getElem?_eq_none_iff.2 (by omega)] at hm
        simp at hm
      simp only []
      cases hp : pairLoop alg nodes node_m m (List.range' (m + 1) (alg.tuple_size_ - (m + 1)))
          (noteNode node_m m s) with
      | none => exact ⟨by intro v s1 h; simp at h, by intro s1 h; simp at h⟩
      | some x =>
        cases x with
        | returned v0 s0 =>
          simp only []
          refine ⟨?_, by intro s1 h; simp at h⟩
          intro v s1 h
          simp at h
          rw [← h.1]
          exact (pairLoop_exit alg nodes node_m m _ _).1 v0 s0 hp
        | completed s2 =>
          simp only []
          have e2 := (pairLoop_exit alg nodes node_m m _ _).2 s2 hp
          refine ⟨(ih (m + 1) s2).1, ?_⟩
          intro s1 h
          obtain ⟨a1, a2⟩ := (ih (m + 1) s2).2 s1 h
          refine ⟨by omega, ?_⟩
          intro hs
          have : s2.split_index < ((m + 1 : Nat) : Int) := by
            rw [e2]
            unfold noteNode
            split
            · split
              · simp
              · simp only []; omega
            · omega
          have := a2 this
          simpa [Nat.add_assoc, Nat.add_comm 1 len] using this

theorem fillPointSets_take (nodes : List (NPointNode B)) (n : Nat) (h : n ≤ nodes.length) :
    fillPointSets nodes (List.range n) = some ((nodes.take n).map nodePoints) := by
  rw [List.range_eq_range', fillPointSets_range' nodes n 0 (by omega)]
  simp

/-- The record of the traversal: a call that returns has counted as many tuples
as it returns, no tuple twice, and each of them is a matching tuple of the
first `tuple_size_` nodes of the array. -/
theorem DepthFirstRecursionTraced_counted (alg : NPointAlg D B) :
    ∀ (depth : Nat) (nodes : List (NPointNode B)) (previous_split : Int) (prunes : Nat),
      (∀ nd ∈ nodes, nd.rangesNested = true) → (∀ nd ∈ nodes, nd.childrenDisjoint = true) →
      ∀ (n : Nat) (nodes1 : List (NPointNode B)) (prunes1 : Nat) (counted : List (List Int)),
        DepthFirstRecursionTraced_ alg depth nodes previous_split prunes
          = some (n, nodes1, prunes1, counted) →
        counted.length = n ∧ counted.Nodup ∧
          ∀ t ∈ counted, t ∈ matchingTuples alg (nodes.take alg.tuple_size_) := by
  intro depth
  induction depth with
  | zero => intro nodes p q _ _ n nodes1 q1 c h; simp [DepthFirstRecursionTraced_] at h
  | succ depth ih =>
    intro nodes p q hrn hcd n nodes1 q1 c h
    simp only [DepthFirstRecursionTraced_] at h
    split at h
    · simp at h
    · split at h
      · simp at h
      · rename_i v s hm
        simp at h
        obtain ⟨h1, _, _, h4⟩ := h
        subst h4
        rw [List.range_eq_range'] at hm
        have := (mainLoop_exit alg nodes alg.tuple_size_ 0 _).1 v s hm
        exact ⟨by simp; omega, by simp, by simp⟩
      · rename_i s hm
        rw [List.range_eq_range'] at hm
        obtain ⟨hle, hsp⟩ := (mainLoop_exit alg nodes alg.tuple_size_ 0 _).2 s hm
        have hle2 : alg.tuple_size_ ≤ nodes.length := by omega
        have hsp2 : s.split_index < (alg.tuple_size_ : Int) := by
          simpa using hsp (by simp)
        split at h
        · rw [fillPointSets_take nodes alg.tuple_size_ hle2] at h
          simp only [] at h
          split at h
          · simp at h
          · rename_i result w1 hbc
            simp only [Option.some.injEq, Prod.mk.injEq] at h
            obtain ⟨h1, _, _, h4⟩ := h
            obtain ⟨e1, e2⟩ := BaseCaseTraced_counted alg
              ((nodes.take alg.tuple_size_).map nodePoints) 0
              (by simp; omega) result w1 hbc
            subst h4; subst h1
            have hsub := enumTuplesList_sublist alg ((nodes.take alg.tuple_size_).map nodePoints)
              [] (List.replicate alg.matcher_.num_permutations true) (by simp [List.Sorted])
            rw [← e1] at hsub
            have hsub2 : List.Sublist
                (BaseCaseTraced_ alg ((nodes.take alg.tuple_size_).map nodePoints) 0).1.counted
                (matchingTuples alg (nodes.take alg.tuple_size_)) := by
              simpa [matchingTuples, tupleAccepted] using hsub
            exact ⟨e2, hsub2.nodup (matchingTuples_nodup alg _), fun t ht => hsub2.subset ht⟩
        · split at h
          · simp at h
          · rename_i hneg
            have hkn : s.split_index.toNat < alg.tuple_size_ := by omega
            split at h
            · simp at h
            · rename_i split_node hsn
              split at h
              · rename_i l r hl hr
                split at h
                · simp at h
                · rename_i n1 nd1 p1 c1 h1
                  split at h
                  · simp at h
                  · rename_i n2 nd2 p2 c2 h2
                    have hmem : split_node ∈ nodes := List.getElem?_mem hsn
                    have hsn2 : (nodes.take alg.tuple_size_)[s.split_index.toNat]?
                        = some split_node := by
                      rw [List.getElem?_take_of_lt hkn]; exact hsn
                    obtain ⟨rl, rr, bl, el, br, er, _⟩ :=
                      rangesNested_children split_node l r (hrn _ hmem) hl hr
                    obtain ⟨dl, dr, dd⟩ :=
                      childrenDisjoint_children split_node l r (hcd _ hmem) hl hr
                    have en := rangesNested_end split_node (hrn _ hmem)
                    have enl := rangesNested_end l rl
                    have enr := rangesNested_end r rr
                    have f1 : nd1 = nodes.set s.split_index.toNat l := by
                      have := DepthFirstRecursionTraced_erase alg depth
                        (nodes.set s.split_index.toNat l) s.split_index s.num_exclusion_prunes_
                      rw [h1] at this
                      exact DepthFirstRecursion_nodes alg depth _ _ _ _ _ _ this.symm
                    rw [f1, List.set_set] at h2
                    obtain ⟨a1, a2, a3⟩ := ih _ _ _
                      (rangesNested_set nodes _ l hrn rl) (childrenDisjoint_set nodes _ l hcd dl)
                      _ _ _ _ h1
                    obtain ⟨b1, b2, b3⟩ := ih _ _ _
                      (rangesNested_set nodes _ r hrn rr) (childrenDisjoint_set nodes _ r hcd dr)
                      _ _ _ _ h2
                    rw [List.set_take] at a3 b3
                    simp at h
                    obtain ⟨g1, _, _, g4⟩ := h
                    subst g4
                    refine ⟨by simp; omega, ?_, ?_⟩
                    · apply List.nodup_append.2
                      refine ⟨a2, b2, ?_⟩
                      intro t ht1 ht2
                      obtain ⟨_, x1, hx1, hx2, hx3⟩ := matchingTuples_set alg _ _ split_node l
                        hsn2 (by omega) (by omega) t (a3 t ht1)
                      obtain ⟨_, y1, hy1, hy2, hy3⟩ := matchingTuples_set alg _ _ split_node r
                        hsn2 (by omega) (by omega) t (b3 t ht2)
                      rw [hx1] at hy1
                      simp at hy1
                      subst hy1
                      omega
                    · intro t ht
                      rcases List.mem_append.1 ht with e | e
                      · exact (matchingTuples_set alg _ _ split_node l hsn2 (by omega)
                          (by omega) t (a3 t e)).1
                      · exact (matchingTuples_set alg _ _ split_node r hsn2 (by omega)
                          (by omega) t (b3 t e)).1
              · simp at h

/-- C21: the traversal never overcounts. For every node array over trees whose
nodes hold `count ≥ 0` points in `[begin, end)` and whose children have
disjoint index ranges inside the parent's range, every matcher and every
recursion budget, whenever `DepthFirstRecursion_` returns a count `n`: `n` is
at most the number of strictly increasing index tuples with `p_i` in the range
of `nodes[i]`, `i < tuple_size_`, that pass the point-level test; and the run,
replayed with a record of `points_in_tuple` at every `result++`, has counted
exactly `n` tuples, no tuple twice, each of them one of those matching tuples.
The replay returns what `DepthFirstRecursion_` returns; `matchingTuples` lists
each matching tuple once, `bruteForceCount` is their number; and the call does
return on arrays of length `tuple_size_ ≥ 1` when the weight loop stays inside
the tuple array and the recursion budget covers the trees. -/
theorem DepthFirstRecursion_never_overcounts (alg : NPointAlg D B) (depth : Nat)
    (nodes : List (NPointNode B)) (previous_split : Int) (prunes : Nat)
    (hvalid : ∀ nd ∈ nodes, nd.rangesNested = true ∧ nd.childrenDisjoint = true) :
    (∀ n nodes1 prunes1,
        DepthFirstRecursion_ alg depth nodes previous_split prunes = some (n, nodes1, prunes1) →
        n ≤ bruteForceCount alg ((nodes.take alg.tuple_size_).map nodePoints)
          ∧ ∃ counted : List (List Int),
            DepthFirstRecursionTraced_ alg depth nodes previous_split prunes
                = some (n, nodes1, prunes1, counted)
              ∧ counted.length = n ∧ counted.Nodup
              ∧ ∀ t ∈ counted, t ∈ matchingTuples alg (nodes.take alg.tuple_size_))
      ∧ (DepthFirstRecursionTraced_ alg depth nodes previous_split prunes).map
            (fun x => (x.1, x.2.1, x.2.2.1))
          = DepthFirstRecursion_ alg depth nodes previous_split prunes
      ∧ (matchingTuples alg (nodes.take alg.tuple_size_)).Nodup
      ∧ (matchingTuples alg (nodes.take alg.tuple_size_)).length
          = bruteForceCount alg ((nodes.take alg.tuple_size_).map nodePoints)
      ∧ (∀ t : List Int, t ∈ matchingTuples alg (nodes.take alg.tuple_size_) ↔
          (t.length = min alg.tuple_size_ nodes.length ∧
            ∀ (i : Nat) (p : Int) (nd : NPointNode B), t[i]? = some p → nodes[i]? = some nd →
              nd.begin ≤ p ∧ p < nd.end_)
          ∧ t.Sorted (fun a b => a < b) ∧ tupleAccepted alg t = true)
      ∧ (nodes.length = alg.tuple_size_ → 0 < alg.tuple_size_ →
          alg.num_tuples_ ≤ alg.tuple_size_ → (nodes.map NPointNode.splits).sum < depth →
          ∃ n prunes1, DepthFirstRecursion_ alg depth nodes previous_split prunes
            = some (n, nodes, prunes1)) := by
  have herase := DepthFirstRecursionTraced_erase alg depth nodes previous_split prunes
  have hnd := matchingTuples_nodup alg (nodes.take alg.tuple_size_)
  refine ⟨?_, herase, hnd, rfl, ?_, ?_⟩
  · intro n nodes1 prunes1 h
    rw [← herase] at h
    cases ht : DepthFirstRecursionTraced_ alg depth nodes previous_split prunes with
    | none => rw [ht] at h; simp at h
    | some x =>
      obtain ⟨n0, nd0, p0, counted⟩ := x
      rw [ht] at h
      simp only [Option.map_some', Option.some.injEq, Prod.mk.injEq] at h
      obtain ⟨e1, e2, e3⟩ := h
      subst e1; subst e2; subst e3
      obtain ⟨a1, a2, a3⟩ := DepthFirstRecursionTraced_counted alg depth nodes previous_split
        prunes (fun nd h => (hvalid nd h).1) (fun nd h => (hvalid nd h).2) _ _ _ _ ht
      refine ⟨?_, counted, rfl, a1, a2, a3⟩
      have := (List.subperm_of_subset a2 a3).length_le
      rw [a1] at this
      exact this
  · intro t
    rw [mem_matchingTuples_iff, List.length_take]
    constructor
    · rintro ⟨⟨h1, h2⟩, h3⟩
      refine ⟨⟨h1, ?_⟩, h3⟩
      intro i p nd hp hnode
      have hi : i < t.length := by
        by_contra hcon
        rw [List.getElem?_eq_none_iff.2 (by omega)] at hp
        simp at hp
      have hin : i < alg.tuple_size_ := by omega
      have := h2 i p nd hp (by rw [List.getElem?_take_of_lt hin]; exact hnode)
      have he := rangesNested_end nd (hvalid nd (List.getElem?_mem hnode)).1
      omega
    · rintro ⟨⟨h1, h2⟩, h3⟩
      refine ⟨⟨h1, ?_⟩, h3⟩
      intro i p nd hp hnode
      have hi : i < t.length := by
        by_contra hcon
        rw [List.getElem?_eq_none_iff.2 (by omega)] at hp
        simp at hp
      have hin : i < alg.tuple_size_ := by omega
      rw [List.getElem?_take_of_lt hin] at hnode
      have := h2 i p nd hp hnode
      have he := rangesNested_end nd (hvalid nd (List.getElem?_mem hnode)).1
      omega
  · intro hlen hpos hnt hd
    exact DepthFirstRecursion_total alg hpos hnt depth nodes previous_split prunes hlen
      (fun nd h => (hvalid nd h).1) hd

/-- C21 at (root, root) of the tree with the leaves `[0, 2)` and `[2, 3)`,
points at their own index on a line, pairs accepted within squared distance 1:
the call counts the pair `(1, 2)` once and returns 1, and two pairs match. -/
theorem DepthFirstRecursion_never_overcounts_witness :
    (∀ nd ∈ [nodeOver (leafOver 0 2) (leafOver 2 3), nodeOver (leafOver 0 2) (leafOver 2 3)],
        nd.rangesNested = true ∧ nd.childrenDisjoint = true)
      ∧ DepthFirstRecursionTraced_ (lineAlg (fun i => i) (fun _ => 1) 2 1) 3
          [nodeOver (leafOver 0 2) (leafOver 2 3), nodeOver (leafOver 0 2) (leafOver 2 3)] (-1) 0
        = some (1, [nodeOver (leafOver 0 2) (leafOver 2 3),
            nodeOver (leafOver 0 2) (leafOver 2 3)], 0, [[1, 2]])
      ∧ matchingTuples (lineAlg (fun i => i) (fun _ => 1) 2 1)
          [nodeOver (leafOver 0 2) (leafOver 2 3), nodeOver (leafOver 0 2) (leafOver 2 3)]
        = [[0, 1], [1, 2]]
      ∧ ∀ n nodes1 prunes1,
        DepthFirstRecursion_ (lineAlg (fun i => i) (fun _ => 1) 2 1) 3
            [nodeOver (leafOver 0 2) (leafOver 2 3), nodeOver (leafOver 0 2) (leafOver 2 3)]
            (-1) 0 = some (n, nodes1, prunes1) →
        n ≤ bruteForceCount (lineAlg (fun i => i) (fun _ => 1) 2 1)
            (([nodeOver (leafOver 0 2) (leafOver 2 3),
              nodeOver (leafOver 0 2) (leafOver 2 3)].take
                (lineAlg (fun i => i) (fun _ => 1) 2 1).tuple_size_).map nodePoints)
          ∧ ∃ counted : List (List Int),
            DepthFirstRecursionTraced_ (lineAlg (fun i => i) (fun _ => 1) 2 1) 3
                [nodeOver (leafOver 0 2) (leafOver 2 3), nodeOver (leafOver 0 2) (leafOver 2 3)]
                (-1) 0 = some (n, nodes1, prunes1, counted)
              ∧ counted.length = n ∧ counted.Nodup
              ∧ ∀ t ∈ counted, t ∈ matchingTuples (lineAlg (fun i => i) (fun _ => 1) 2 1)
                  ([nodeOver (leafOver 0 2) (leafOver 2 3),
                    nodeOver (leafOver 0 2) (leafOver 2 3)].take
                      (lineAlg (fun i => i) (fun _ => 1) 2 1).tuple_size_) :=
  ⟨by decide, by decide, by decide,
    (DepthFirstRecursion_never_overcounts (lineAlg (fun i => i) (fun _ => 1) 2 1) 3
      [nodeOver (leafOver 0 2) (leafOver 2 3), nodeOver (leafOver 0 2) (leafOver 2 3)] (-1) 0
      (by decide)).1⟩

/-- Why the children's ranges must be disjoint: over a node whose two children
are the same leaf `[0, 1)`, paired with the leaf `[1, 2)`, the traversal counts
the one matching pair `(0, 1)` twice. -/
theorem DepthFirstRecursionTraced_overlapping_children :
    (NPointNode.inner 0 1 1 () (leafOver 0 1) (leafOver 0 1)).rangesNested = true
      ∧ (NPointNode.inner 0 1 1 () (leafOver 0 1) (leafOver 0 1)).childrenDisjoint = false
      ∧ DepthFirstRecursionTraced_ (lineAlg (fun i => i) (fun _ => 1) 2 100) 2
          [NPointNode.inner 0 1 1 () (leafOver 0 1) (leafOver 0 1), leafOver 1 2] (-1) 0
        = some (2, [NPointNode.inner 0 1 1 () (leafOver 0 1) (leafOver 0 1), leafOver 1 2], 0,
            [[0, 1], [0, 1]])
      ∧ matchingTuples (lineAlg (fun i => i) (fun _ => 1) 2 100)
          [NPointNode.inner 0 1 1 () (leafOver 0 1) (leafOver 0 1), leafOver 1 2] = [[0, 1]] := by
  decide

theorem wrapInt_succ (r : Nat) : wrapInt (wrapInt (r : Int) + 1) = wrapInt ((r + 1 : Nat) : Int) := by
  unfold wrapInt
  push_cast
  omega

theorem wrapInt_add (a b : Nat) :
    wrapInt (wrapInt (a : Int) + wrapInt (b : Int)) = wrapInt ((a + b : Nat) : Int) := by
  unfold wrapInt
  push_cast
  omega

theorem wrapInt_of_le (n : Nat) (h : n ≤ 2147483647) : wrapInt (n : Int) = (n : Int) := by
  unfold wrapInt
  omega

theorem candidateLoopInt_eq (alg : NPointAlg D B)
    (recurseI : List Bool → List Int → ℚ → Option (Int × List Int × ℚ))
    (recurse : List Bool → List Int → ℚ → Option (Nat × List Int × ℚ))
    (hrec : ∀ ok1 p w, recurseI ok1 p w
      = (recurse ok1 p w).map (fun y => (wrapInt (y.1 : Int), y.2.1, y.2.2)))
    (ok : List Bool) (k : Nat) :
    ∀ (cs : List Int) (bad : Bool) (r : Nat) (pts : List Int) (w : ℚ),
      candidateLoopInt alg recurseI ok k cs bad (wrapInt (r : Int)) pts w
        = (candidateLoop alg recurse ok k cs bad r pts w).map
            (fun y => (wrapInt (y.1 : Int), y.2.1, y.2.2)) := by
  intro cs
  induction cs with
  | nil => intro bad r pts w; simp [candidateLoopInt, candidateLoop]
  | cons c cs ih =>
    intro bad r pts w
    simp only [candidateLoopInt, candidateLoop]
    cases bad with
    | true => simp
    | false =>
      simp only [Bool.false_eq_true, if_false]
      cases hp : previousPointsLoop alg pts c k (List.range k) ⟨false, true, ok⟩ with
      | none => rfl
      | some s =>
        simp only []
        split
        · split
          · split
            · cases hw : weightLoop alg (pts.set k c) (List.range alg.num_tuples_.toNat) 1 with
              | none => rfl
              | some tw =>
                simp only []
                rw [wrapInt_succ]
                exact ih _ _ _ _
            · rw [hrec]
              cases hr : recurse s.permutation_ok_copy (pts.set k c) w with
              | none => rfl
              | some x =>
                obtain ⟨r2, after, w1⟩ := x
                simp only [Option.map_some']
                rw [wrapInt_add]
                exact ih _ _ _ _
          · rfl
        · exact ih _ _ _ _

theorem BaseCaseHelperInt_eq (alg : NPointAlg D B) (point_sets : List (List Int)) :
    ∀ (levels : Nat) (ok : List Bool) (pts : List Int) (w : ℚ) (k : Nat),
      BaseCaseHelperInt_ alg point_sets levels ok pts w k
        = (BaseCaseHelper_ alg point_sets levels ok pts w k).map
            (fun y => (wrapInt (y.1 : Int), y.2.1, y.2.2)) := by
  intro levels
  induction levels with
  | zero => intro ok pts w k; rfl
  | succ levels ih =>
    intro ok pts w k
    simp only [BaseCaseHelperInt_, BaseCaseHelper_]
    cases point_sets[k]? with
    | none => rfl
    | some k_rows =>
      simp only []
      have h0 : (0 : Int) = wrapInt ((0 : Nat) : Int) := by decide
      rw [h0]
      exact candidateLoopInt_eq alg _ _ (fun ok1 p w1 => ih ok1 p w1 (k + 1)) ok k k_rows false 0
        pts w

/-- The two readings of the count: `BaseCase_` with the `int` result returns
what `BaseCase_` with the count in `ℕ` returns, reduced to the range of `int`;
one call faults exactly when the other does. -/
theorem BaseCaseInt_eq (alg : NPointAlg D B) (point_sets : List (List Int)) (w : ℚ) :
    BaseCaseInt_ alg point_sets w
      = (BaseCase_ alg point_sets w).map (fun r => (wrapInt (r.1 : Int), r.2)) := by
  simp only [BaseCaseInt_, BaseCase_, BaseCaseHelperInt_eq]
  cases BaseCaseHelper_ alg point_sets point_sets.length
      (List.replicate alg.matcher_.num_permutations true)
      (List.replicate alg.tuple_size_ (if alg.debug then (-1 : Int) else alg.uninitialized))
      w 0 with
  | none => rfl
  | some x => rfl

/-- With all weights 1 the count in `ℕ` and the weighted sum run together: a
call of `BaseCase_` started at 0 that returns has added exactly the number of
completed tuples to `*weighted_result`. -/
theorem BaseCase_weight_ones (alg : NPointAlg D B) (point_sets : List (List Int))
    (hw : ∀ i, alg.data_weights_ i = 1) :
    ∀ (n : Nat) (w : ℚ), BaseCase_ alg point_sets 0 = some (n, w) → w = (n : ℚ) := by
  intro n w h
  simp only [BaseCase_] at h
  split at h
  · simp at h
  · rename_i r after w2 hh
    have := BaseCaseHelper_weight_ones alg hw point_sets _ _ _ _ _ _ _ _ hh
    simp at h
    obtain ⟨h1, h2⟩ := h
    rw [← h1, ← h2, this]; simp

/-- The functional reading of `BaseCase_` with the `int` result. -/
theorem BaseCaseInt_enum (alg : NPointAlg D B) (point_sets : List (List Int)) (w : ℚ)
    (hps : point_sets.length = alg.tuple_size_) (hpos : 0 < alg.tuple_size_) :
    BaseCaseInt_ alg point_sets w
      = if WeightFault alg (enumTuples alg point_sets []
            (List.replicate alg.matcher_.num_permutations true)).1 then none
        else some (wrapInt ((enumTuples alg point_sets []
            (List.replicate alg.matcher_.num_permutations true)).1 : Int),
          w + (enumTuples alg point_sets []
            (List.replicate alg.matcher_.num_permutations true)).2) := by
  rw [BaseCaseInt_eq, BaseCase_eq alg point_sets w hps hpos]
  split <;> rfl

theorem bruteForceCount_of_contiguous (alg : NPointAlg D B) (point_sets : List (List Int))
    (hord : symmetryContiguous [] point_sets = true) :
    (enumTuples alg point_sets [] (List.replicate alg.matcher_.num_permutations true)).1
      = bruteForceCount alg point_sets := by
  rw [enumTuples_count alg point_sets [] (List.replicate alg.matcher_.num_permutations true) []
    (by simp [List.Sorted]) (by simp) hord]
  simp [bruteForceCount, tupleAccepted]

theorem length_tuplesOf :
    ∀ point_sets : List (List Int),
      (tuplesOf point_sets).length = (point_sets.map List.length).prod := by
  intro point_sets
  induction point_sets with
  | nil => simp [tuplesOf]
  | cons k_rows rest ih =>
    simp only [tuplesOf, List.map_cons, List.prod_cons, List.length_flatten, List.map_map]
    have : (List.map (List.length ∘ fun c => List.map (fun t => c :: t) (tuplesOf rest)) k_rows)
        = k_rows.map (fun _ => (rest.map List.length).prod) := by
      apply List.map_congr_left
      intro c _
      simp [ih]
    rw [this]
    simp

theorem matchAgainst_of_accepting (alg : NPointAlg D B)
    (hacc : ∀ c p j k ok, (alg.matcher_.TestPointPair (alg.DistanceSqEuclidean c p) j k ok).1 = true)
    (c : Int) (k : Nat) :
    ∀ (placed : List Int) (j : Nat) (ok : List Bool), (matchAgainst alg c k j placed ok).1 = true := by
  intro placed
  induction placed with
  | nil => intro j ok; rfl
  | cons p rest ih =>
    intro j ok
    simp only [matchAgainst, hacc, if_true]
    exact ih _ _

theorem acceptedFrom_of_accepting (alg : NPointAlg D B)
    (hacc : ∀ c p j k ok, (alg.matcher_.TestPointPair (alg.DistanceSqEuclidean c p) j k ok).1 = true) :
    ∀ (t placed : List Int) (ok : List Bool), acceptedFrom alg t placed ok = true := by
  intro t
  induction t with
  | nil => intro placed ok; rfl
  | cons c t ih =>
    intro placed ok
    simp only [acceptedFrom, matchAgainst_of_accepting alg hacc, ih, Bool.and_self]

theorem orderedDisjoint_ranges (n : Nat) (m : Int) (h : (n : Int) ≤ m) :
    orderedDisjoint [(List.range n).map (fun (j : Nat) => (j : Int)),
      (List.range n).map (fun (j : Nat) => (j : Int) + m)] := by
  unfold orderedDisjoint
  refine List.Pairwise.cons ?_ (List.Pairwise.cons (by intro l hl; simp at hl) List.Pairwise.nil)
  intro l hl a ha b hb
  simp only [List.mem_singleton] at hl
  rw [hl] at hb
  obtain ⟨i, hi, rfl⟩ := List.mem_map.1 ha
  obtain ⟨j, hj, rfl⟩ := List.mem_map.1 hb
  have := List.mem_range.1 hi
  omega

theorem orderedDisjoint_longLists : orderedDisjoint longLists :=
  orderedDisjoint_ranges 46341 46341 (by norm_num)

theorem accepted_longLists :
    ((tuplesOf longLists).filter
      (tupleAccepted (lineAlg (fun _ => 0) (fun _ => 1) 2 0))).length = 2147488281 := by
  have hall : ∀ t ∈ tuplesOf longLists,
      tupleAccepted (lineAlg (fun _ => 0) (fun _ => 1) 2 0) t = true := by
    intro t _
    exact acceptedFrom_of_accepting _
      (by intro c p j k ok; simp [lineAlg, withinMatcher]) t [] _
  rw [List.filter_eq_self.2 hall, length_tuplesOf]
  simp only [longLists, List.map_cons, List.map_nil, List.length_map, List.length_range,
    List.prod_cons, List.prod_nil]
  norm_num

/-- On the two lists of 46341 indices, with every pair accepted and every weight
1, 46341 · 46341 = 2147488281 tuples are completed: the weighted sum holds that
number and the `int` result holds it reduced to 32 bits. -/
theorem BaseCaseInt_longLists :
    BaseCaseInt_ (lineAlg (fun _ => 0) (fun _ => 1) 2 0) longLists 0
      = some (-2147479015, 2147488281) := by
  have hcount : (enumTuples (lineAlg (fun _ => 0) (fun _ => 1) 2 0) longLists []
      (List.replicate (lineAlg (fun _ => 0) (fun _ => 1) 2 0).matcher_.num_permutations true)).1
      = 2147488281 := by
    rw [enumTuples_ordered _ _ orderedDisjoint_longLists, accepted_longLists]
  have hf : ¬ WeightFault (lineAlg (fun _ => 0) (fun _ => 1) 2 0) 2147488281 := by
    intro h; have := h.2; simp [lineAlg] at this
  have hb := BaseCase_eq (lineAlg (fun _ => 0) (fun _ => 1) 2 0) longLists 0 rfl (by decide)
  rw [hcount, if_neg hf] at hb
  have hw := BaseCase_weight_ones (lineAlg (fun _ => 0) (fun _ => 1) 2 0) longLists
    (fun _ => rfl) _ _ hb
  rw [BaseCaseInt_eq, hb, hw]
  simp only [Option.map_some', Option.some.injEq, Prod.mk.injEq]
  refine ⟨by decide, by norm_num⟩

/-- C1 (as stated) fails, in two ways. With tuple size 2, points at their own
index on a line, a matcher accepting every pair within squared distance 100 and
the candidate lists `[5]` and `[3, 7]`, the tuple `(5, 7)` is strictly
increasing and accepted, yet `BaseCase_` returns 0: candidate 3 violates
symmetry and ends the loop before 7 is looked at. And on the ordered lists
`0, ..., 46340` and `46341, ..., 92681`, with every pair accepted, 2147488281
tuples qualify and are completed, but the `int` result cannot hold that number:
the call returns -2147479015. -/
theorem BaseCase_misses_tuple :
    (BaseCase_ (lineAlg (fun i => i) (fun _ => 1) 2 100) [[5], [3, 7]] 0).map Prod.fst = some 0
      ∧ bruteForceCount (lineAlg (fun i => i) (fun _ => 1) 2 100) [[5], [3, 7]] = 1
      ∧ (BaseCaseInt_ (lineAlg (fun i => i) (fun _ => 1) 2 100) [[5], [3, 7]] 0).map Prod.fst
          = some 0
      ∧ symmetryContiguous [] longLists = true
      ∧ bruteForceCount (lineAlg (fun _ => 0) (fun _ => 1) 2 0) longLists = 2147488281
      ∧ (BaseCaseInt_ (lineAlg (fun _ => 0) (fun _ => 1) 2 0) longLists 0).map Prod.fst
          = some (-2147479015) := by
  have hsym := symmetryContiguous_of_ordered longLists [] (by simp) orderedDisjoint_longLists
  refine ⟨by decide, by decide, by decide, hsym, ?_, ?_⟩
  · rw [← bruteForceCount_of_contiguous _ _ hsym, enumTuples_ordered _ _ orderedDisjoint_longLists,
      accepted_longLists]
  · rw [BaseCaseInt_longLists]; rfl

/-- C1 (amended): for every tuple size at least 1, every matcher and every
family of candidate lists, one per position, that meets the ordering assumption
of source lines 47-50 (a candidate that violates symmetry against an index of
an earlier list is followed in its list only by candidates that violate it
too), the `int` that `BaseCase_` returns is exactly the number of strictly
increasing tuples accepted by the point-level test whenever that number is at
most 2147483647, the largest `int`; in general it is that number reduced to the
32 bits of an `int`. The call returns whenever the weight loop stays inside the
tuple array. -/
theorem BaseCaseInt_exact_of_symmetryContiguous (alg : NPointAlg D B)
    (point_sets : List (List Int)) (w : ℚ) (hlen : point_sets.length = alg.tuple_size_)
    (hpos : 0 < alg.tuple_size_) (hord : symmetryContiguous [] point_sets = true) :
    (∀ n w1, BaseCaseInt_ alg point_sets w = some (n, w1) →
        n = wrapInt (bruteForceCount alg point_sets : Int)
          ∧ (bruteForceCount alg point_sets ≤ 2147483647 →
              n = (bruteForceCount alg point_sets : Int)))
      ∧ (alg.num_tuples_ ≤ alg.tuple_size_ →
          ∃ w1, BaseCaseInt_ alg point_sets w
            = some (wrapInt (bruteForceCount alg point_sets : Int), w1)) := by
  have heq := BaseCaseInt_enum alg point_sets w hlen hpos
  rw [bruteForceCount_of_contiguous alg point_sets hord] at heq
  constructor
  · intro n w1 h
    rw [heq] at h
    by_cases hf : WeightFault alg (bruteForceCount alg point_sets)
    · simp [hf] at h
    · simp only [hf, if_false, Option.some.injEq, Prod.mk.injEq] at h
      refine ⟨h.1.symm, ?_⟩
      intro hle
      rw [← h.1]
      exact wrapInt_of_le _ hle
  · intro hnt
    have hf : ¬ WeightFault alg (bruteForceCount alg point_sets) := by
      intro h; have := h.2; omega
    exact ⟨_, by rw [heq, if_neg hf]⟩

/-- C1 (amended) at the lists `[5]` and `[7, 3]`, which meet the ordering
assumption: one tuple qualifies and the call returns 1. -/
theorem BaseCaseInt_exact_of_symmetryContiguous_witness :
    ([[5], [7, 3]] : List (List Int)).length = (lineAlg (fun i => i) (fun _ => 1) 2 100).tuple_size_
      ∧ 0 < (lineAlg (fun i => i) (fun _ => 1) 2 100).tuple_size_
      ∧ symmetryContiguous [] [[5], [7, 3]] = true
      ∧ bruteForceCount (lineAlg (fun i => i) (fun _ => 1) 2 100) [[5], [7, 3]] = 1
      ∧ (BaseCaseInt_ (lineAlg (fun i => i) (fun _ => 1) 2 100) [[5], [7, 3]] 0).map Prod.fst
          = some 1
      ∧ ((∀ n w1, BaseCaseInt_ (lineAlg (fun i => i) (fun _ => 1) 2 100) [[5], [7, 3]] 0
              = some (n, w1) →
            n = wrapInt (bruteForceCount (lineAlg (fun i => i) (fun _ => 1) 2 100) [[5], [7, 3]] : Int)
              ∧ (bruteForceCount (lineAlg (fun i => i) (fun _ => 1) 2 100) [[5], [7, 3]]
                  ≤ 2147483647 →
                n = (bruteForceCount (lineAlg (fun i => i) (fun _ => 1) 2 100) [[5], [7, 3]]
                  : Int)))
        ∧ ((lineAlg (fun i => i) (fun _ => 1) 2 100).num_tuples_
              ≤ (lineAlg (fun i => i) (fun _ => 1) 2 100).tuple_size_ →
            ∃ w1, BaseCaseInt_ (lineAlg (fun i => i) (fun _ => 1) 2 100) [[5], [7, 3]] 0
              = some (wrapInt (bruteForceCount (lineAlg (fun i => i) (fun _ => 1) 2 100)
                  [[5], [7, 3]] : Int), w1))) :=
  ⟨by decide, by decide, by decide, by decide, by decide,
    BaseCaseInt_exact_of_symmetryContiguous (lineAlg (fun i => i) (fun _ => 1) 2 100)
      [[5], [7, 3]] 0 (by decide) (by decide) (by decide)⟩

/-- C6 (as stated) fails: with every weight 1, every pair accepted and the
ordered lists `0, ..., 46340` and `46341, ..., 92681`, a call of `BaseCase_`
with `*weighted_result` initially 0 leaves 2147488281 in `*weighted_result`,
one for each completed tuple, and returns the `int` -2147479015. -/
theorem BaseCaseInt_count_leaves_weight :
    (∀ i, (lineAlg (fun _ => 0) (fun _ => 1) 2 0).data_weights_ i = 1)
      ∧ BaseCaseInt_ (lineAlg (fun _ => 0) (fun _ => 1) 2 0) longLists 0
          = some (-2147479015, 2147488281)
      ∧ ((-2147479015 : Int) : ℚ) ≠ 2147488281 :=
  ⟨fun _ => rfl, BaseCaseInt_longLists, by norm_num⟩

/-- C6 (amended): if every point weight is 1 then, for every matcher and every
family of candidate lists, a call of `BaseCase_` with `*weighted_result`
initially 0 that returns leaves in `*weighted_result` the number of tuples it
completed, and the `int` it returns is that number reduced to the 32 bits of an
`int`: the two are equal whenever `*weighted_result` ends at most at
2147483647, the largest `int`. The call does return, for one list per position
of a tuple of size at least 1, whenever the weight loop stays inside the tuple
array. -/
theorem BaseCaseInt_unit_weights (alg : NPointAlg D B) (point_sets : List (List Int))
    (hw : ∀ i, alg.data_weights_ i = 1) :
    (∀ n w, BaseCaseInt_ alg point_sets 0 = some (n, w) →
        (∃ N : Nat, w = (N : ℚ) ∧ n = wrapInt (N : Int)) ∧ (w ≤ 2147483647 → w = (n : ℚ)))
      ∧ (point_sets.length = alg.tuple_size_ → 0 < alg.tuple_size_ →
          alg.num_tuples_ ≤ alg.tuple_size_ →
          ∃ N : Nat, BaseCaseInt_ alg point_sets 0 = some (wrapInt (N : Int), (N : ℚ))) := by
  constructor
  · intro n w h
    rw [BaseCaseInt_eq] at h
    cases hb : BaseCase_ alg point_sets 0 with
    | none => rw [hb] at h; simp at h
    | some x =>
      obtain ⟨N, w0⟩ := x
      rw [hb] at h
      simp only [Option.map_some', Option.some.injEq, Prod.mk.injEq] at h
      obtain ⟨h1, h2⟩ := h
      have hwN := BaseCase_weight_ones alg point_sets hw N w0 hb
      subst h2
      refine ⟨⟨N, hwN, h1.symm⟩, ?_⟩
      intro hle
      rw [hwN] at hle
      have hN : N ≤ 2147483647 := by exact_mod_cast hle
      rw [hwN, ← h1, wrapInt_of_le N hN]
      simp
  · intro hlen hpos hnt
    have heq := BaseCase_eq alg point_sets 0 hlen hpos
    have hf : ¬ WeightFault alg (enumTuples alg point_sets []
        (List.replicate alg.matcher_.num_permutations true)).1 := by
      intro h; have := h.2; omega
    rw [if_neg hf] at heq
    have := BaseCase_weight_ones alg point_sets hw _ _ heq
    exact ⟨_, by rw [BaseCaseInt_eq, heq, this]; rfl⟩

/-- C6 (amended) at the lists `[0, 1]` and `[2, 3]`: four tuples, the call
returns 4 and leaves 4 in `*weighted_result`. -/
theorem BaseCaseInt_unit_weights_witness :
    (∀ i, (lineAlg (fun i => i) (fun _ => 1) 2 100).data_weights_ i = 1)
      ∧ (BaseCaseInt_ (lineAlg (fun i => i) (fun _ => 1) 2 100) [[0, 1], [2, 3]] 0).map Prod.fst
          = some 4
      ∧ ((∀ n w, BaseCaseInt_ (lineAlg (fun i => i) (fun _ => 1) 2 100) [[0, 1], [2, 3]] 0
            = some (n, w) →
          (∃ N : Nat, w = (N : ℚ) ∧ n = wrapInt (N : Int)) ∧ (w ≤ 2147483647 → w = (n : ℚ)))
        ∧ (([[0, 1], [2, 3]] : List (List Int)).length
              = (lineAlg (fun i => i) (fun _ => 1) 2 100).tuple_size_ →
            0 < (lineAlg (fun i => i) (fun _ => 1) 2 100).tuple_size_ →
            (lineAlg (fun i => i) (fun _ => 1) 2 100).num_tuples_
              ≤ (lineAlg (fun i => i) (fun _ => 1) 2 100).tuple_size_ →
            ∃ N : Nat, BaseCaseInt_ (lineAlg (fun i => i) (fun _ => 1) 2 100) [[0, 1], [2, 3]] 0
              = some (wrapInt (N : Int), (N : ℚ)))) :=
  ⟨fun _ => rfl, by decide,
    BaseCaseInt_unit_weights (lineAlg (fun i => i) (fun _ => 1) 2 100) [[0, 1], [2, 3]]
      (fun _ => rfl)⟩

/-- C19 (as stated) fails: the lists `0, ..., 46340` and `46341, ..., 92681`
are ordered and disjoint and, with every pair accepted, all 2147488281 tuples
of their Cartesian product are accepted, but the `int` result cannot hold that
number: `BaseCase_` returns -2147479015. -/
theorem BaseCaseInt_wraps_on_ordered_lists :
    orderedDisjoint longLists
      ∧ ((tuplesOf longLists).filter
          (tupleAccepted (lineAlg (fun _ => 0) (fun _ => 1) 2 0))).length = 2147488281
      ∧ (BaseCaseInt_ (lineAlg (fun _ => 0) (fun _ => 1) 2 0) longLists 0).map Prod.fst
          = some (-2147479015) :=
  ⟨orderedDisjoint_longLists, accepted_longLists, by rw [BaseCaseInt_longLists]; rfl⟩

/-- C19 (amended): `BaseCase_` is exact on ordered, disjoint candidate lists up
to the range of its `int` result. For every matcher and every family of
candidate lists, one per position, such that for all positions `j < k` every
index in list `j` is smaller than every index in list `k`, the `int` that
`BaseCase_` returns is exactly the number of tuples of the Cartesian product of
the lists that the point-level test accepts (`TestPointPair` succeeding for
each pair `(j, k)`, `k` ascending and `j` ascending within `k`, on a validity
vector that starts all-true and is narrowed along the way) whenever that number
is at most 2147483647, the largest `int`; in general it is that number reduced
to the 32 bits of an `int`. The call returns whenever the tuple size is at
least 1 and the weight loop stays inside the tuple array. -/
theorem BaseCaseInt_exact_on_ordered_lists (alg : NPointAlg D B)
    (point_sets : List (List Int)) (w : ℚ) (hlen : point_sets.length = alg.tuple_size_)
    (hord : orderedDisjoint point_sets) :
    (∀ n w1, BaseCaseInt_ alg point_sets w = some (n, w1) →
        n = wrapInt (((tuplesOf point_sets).filter (tupleAccepted alg)).length : Int)
          ∧ (((tuplesOf point_sets).filter (tupleAccepted alg)).length ≤ 2147483647 →
              n = (((tuplesOf point_sets).filter (tupleAccepted alg)).length : Int)))
      ∧ (0 < alg.tuple_size_ → alg.num_tuples_ ≤ alg.tuple_size_ →
          ∃ w1, BaseCaseInt_ alg point_sets w
            = some (wrapInt (((tuplesOf point_sets).filter (tupleAccepted alg)).length : Int),
                w1)) := by
  have hcount := enumTuples_ordered alg point_sets hord
  constructor
  · intro n w1 h
    by_cases hpos : 0 < alg.tuple_size_
    · rw [BaseCaseInt_enum alg point_sets w hlen hpos, hcount] at h
      by_cases hf : WeightFault alg ((tuplesOf point_sets).filter (tupleAccepted alg)).length
      · simp [hf] at h
      · simp only [hf, if_false, Option.some.injEq, Prod.mk.injEq] at h
        refine ⟨h.1.symm, ?_⟩
        intro hle
        rw [← h.1]
        exact wrapInt_of_le _ hle
    · have hnil : point_sets = [] := by
        apply List.eq_nil_of_length_eq_zero; omega
      subst hnil
      simp [BaseCaseInt_, BaseCaseHelperInt_] at h
  · intro hpos hnt
    have hf : ¬ WeightFault alg ((tuplesOf point_sets).filter (tupleAccepted alg)).length := by
      intro h; have := h.2; omega
    exact ⟨_, by rw [BaseCaseInt_enum alg point_sets w hlen hpos, hcount, if_neg hf]⟩

/-- C19 (amended) at the lists `[0, 1]` and `[2, 3]` with pairs accepted within
squared distance 4: three of the four tuples are accepted and the call returns
3. -/
theorem BaseCaseInt_exact_on_ordered_lists_witness :
    ([[0, 1], [2, 3]] : List (List Int)).length
        = (lineAlg (fun i => i) (fun _ => 1) 2 4).tuple_size_
      ∧ orderedDisjoint [[0, 1], [2, 3]]
      ∧ ((tuplesOf [[0, 1], [2, 3]]).filter
          (tupleAccepted (lineAlg (fun i => i) (fun _ => 1) 2 4))).length = 3
      ∧ (BaseCaseInt_ (lineAlg (fun i => i) (fun _ => 1) 2 4) [[0, 1], [2, 3]] 0).map Prod.fst
          = some 3
      ∧ ((∀ n w1, BaseCaseInt_ (lineAlg (fun i => i) (fun _ => 1) 2 4) [[0, 1], [2, 3]] 0
            = some (n, w1) →
          n = wrapInt (((tuplesOf [[0, 1], [2, 3]]).filter
              (tupleAccepted (lineAlg (fun i => i) (fun _ => 1) 2 4))).length : Int)
            ∧ (((tuplesOf [[0, 1], [2, 3]]).filter
                (tupleAccepted (lineAlg (fun i => i) (fun _ => 1) 2 4))).length ≤ 2147483647 →
              n = (((tuplesOf [[0, 1], [2, 3]]).filter
                (tupleAccepted (lineAlg (fun i => i) (fun _ => 1) 2 4))).length : Int)))
        ∧ (0 < (lineAlg (fun i => i) (fun _ => 1) 2 4).tuple_size_ →
            (lineAlg (fun i => i) (fun _ => 1) 2 4).num_tuples_
              ≤ (lineAlg (fun i => i) (fun _ => 1) 2 4).tuple_size_ →
            ∃ w1, BaseCaseInt_ (lineAlg (fun i => i) (fun _ => 1) 2 4) [[0, 1], [2, 3]] 0
              = some (wrapInt (((tuplesOf [[0, 1], [2, 3]]).filter
                (tupleAccepted (lineAlg (fun i => i) (fun _ => 1) 2 4))).length : Int), w1))) :=
  ⟨by decide, by decide, by decide, by decide,
    BaseCaseInt_exact_on_ordered_lists (lineAlg (fun i => i) (fun _ => 1) 2 4) [[0, 1], [2, 3]] 0
      (by decide) (by decide)⟩

theorem pairLoop_congr (alg : NPointAlg D B) (nodes nodes1 : List (NPointNode B))
    (node_i : NPointNode B) (i : Nat) :
    ∀ (js : List Nat) (s : ScanState), (∀ j ∈ js, nodes[j]? = nodes1[j]?) →
      pairLoop alg nodes node_i i js s = pairLoop alg nodes1 node_i i js s := by
  intro js
  induction js with
  | nil => intro s _; rfl
  | cons j js ih =>
    intro s h
    simp only [pairLoop, h j (by simp)]
    cases nodes1[j]? with
    | none => rfl
    | some node_j =>
      simp only []
      split
      · rfl
      · split
        · rfl
        · exact ih _ (fun x hx => h x (by simp [hx]))

/-- The main loop reads the node array only at the positions below
`tuple_size_`. -/
theorem mainLoop_congr (alg : NPointAlg D B) (nodes nodes1 : List (NPointNode B))
    (h : ∀ i, i < alg.tuple_size_ → nodes[i]? = nodes1[i]?) :
    ∀ (is : List Nat) (s : ScanState), (∀ i ∈ is, i < alg.tuple_size_) →
      mainLoop alg nodes is s = mainLoop alg nodes1 is s := by
  intro is
  induction is with
  | nil => intro s _; rfl
  | cons i is ih =>
    intro s hi
    simp only [mainLoop, h i (hi i (by simp))]
    cases nodes1[i]? with
    | none => rfl
    | some node_i =>
      simp only []
      rw [pairLoop_congr alg nodes nodes1 node_i i _ _
        (by intro j hj; simp [List.mem_range'_1] at hj; exact h j (by omega))]
      cases pairLoop alg nodes1 node_i i (List.range' (i + 1) (alg.tuple_size_ - (i + 1)))
          (noteNode node_i i s) with
      | none => rfl
      | some x =>
        cases x with
        | returned v s2 => rfl
        | completed s2 => exact ih s2 (fun x hx => hi x (by simp [hx]))

/-- Without the assertion of line 150, a call on an array of `tuple_size_` nodes
or more is the call on its first `tuple_size_` nodes: same count, same prune
counter, the array handed back as it was. -/
theorem DepthFirstRecursion_take (alg : NPointAlg D B) (hdebug : alg.debug = false) :
    ∀ (depth : Nat) (nodes : List (NPointNode B)) (previous_split : Int) (prunes : Nat),
      alg.tuple_size_ ≤ nodes.length →
      DepthFirstRecursion_ alg depth nodes previous_split prunes
        = (DepthFirstRecursion_ alg depth (nodes.take alg.tuple_size_) previous_split prunes).map
            (fun r => (r.1, nodes, r.2.2)) := by
  intro depth
  induction depth with
  | zero => intro nodes ps pr _; rfl
  | succ depth ih =>
    intro nodes ps pr hle
    have hcongr := mainLoop_congr alg (nodes.take alg.tuple_size_) nodes
      (fun i hi => List.getElem?_take_of_lt hi) (List.range alg.tuple_size_)
      ⟨true, -1, -1, List.replicate alg.matcher_.num_permutations alg.SUBSUME, pr⟩
      (fun i hi => List.mem_range.1 hi)
    have hfill := fillPointSets_take nodes alg.tuple_size_ hle
    have hfill2 := fillPointSets_take (nodes.take alg.tuple_size_) alg.tuple_size_
      (by simp; omega)
    rw [List.take_take, Nat.min_self] at hfill2
    cases hm : mainLoop alg nodes (List.range alg.tuple_size_)
        ⟨true, -1, -1, List.replicate alg.matcher_.num_permutations alg.SUBSUME, pr⟩ with
    | none =>
      simp only [DepthFirstRecursion_, hdebug, Bool.false_and, Bool.false_eq_true, if_false,
        hcongr, hm, Option.map_none']
    | some x =>
      cases x with
      | returned v s =>
        simp only [DepthFirstRecursion_, hdebug, Bool.false_and, Bool.false_eq_true, if_false,
          hcongr, hm, Option.map_some']
      | completed s =>
        cases hal : s.all_leaves with
        | true =>
          simp only [DepthFirstRecursion_, hdebug, Bool.false_and, Bool.false_eq_true, if_false,
            hcongr, hm, hal, if_true, hfill, hfill2]
          cases BaseCase_ alg ((nodes.take alg.tuple_size_).map nodePoints) 0 with
          | none => rfl
          | some y => rfl
        | false =>
          by_cases hneg : s.split_index < 0
          · simp only [DepthFirstRecursion_, hdebug, Bool.false_and, Bool.false_eq_true,
              if_false, hcongr, hm, hal, hneg, if_true, Option.map_none']
          · have hm2 := hm
            rw [List.range_eq_range'] at hm2
            have hsp := ((mainLoop_exit alg nodes alg.tuple_size_ 0 _).2 s hm2).2 (by simp)
            have hkn : s.split_index.toNat < alg.tuple_size_ := by
              simp only [Nat.zero_add] at hsp
              omega
            have hget : (nodes.take alg.tuple_size_)[s.split_index.toNat]?
                = nodes[s.split_index.toNat]? := List.getElem?_take_of_lt hkn
            cases hsn : nodes[s.split_index.toNat]? with
            | none =>
              simp only [DepthFirstRecursion_, hdebug, Bool.false_and, Bool.false_eq_true,
                if_false, hcongr, hm, hal, hneg, hget, hsn, Option.map_none']
            | some split_node =>
              cases hl : split_node.left with
              | none =>
                simp only [DepthFirstRecursion_, hdebug, Bool.false_and, Bool.false_eq_true,
                  if_false, hcongr, hm, hal, hneg, hget, hsn, hl, Option.map_none']
              | some l =>
                cases hr : split_node.right with
                | none =>
                  simp only [DepthFirstRecursion_, hdebug, Bool.false_and, Bool.false_eq_true,
                    if_false, hcongr, hm, hal, hneg, hget, hsn, hl, hr, Option.map_none']
                | some r =>
                  have ih1 := ih (nodes.set s.split_index.toNat l) s.split_index
                    s.num_exclusion_prunes_ (by simpa using hle)
                  rw [List.set_take] at ih1
                  have hback := set_set_self nodes s.split_index.toNat split_node r hsn
                  rw [List.set_set] at hback
                  have hback2 := set_set_self (nodes.take alg.tuple_size_) s.split_index.toNat
                    split_node r (by rw [hget]; exact hsn)
                  rw [List.set_set] at hback2
                  cases h1 : DepthFirstRecursion_ alg depth
                      ((nodes.take alg.tuple_size_).set s.split_index.toNat l) s.split_index
                      s.num_exclusion_prunes_ with
                  | none =>
                    rw [h1] at ih1
                    simp only [DepthFirstRecursion_, hdebug, Bool.false_and, Bool.false_eq_true,
                      if_false, hcongr, hm, hal, hneg, hget, hsn, hl, hr, h1, ih1,
                      Option.map_none']
                  | some x1 =>
                    obtain ⟨n1, nodes1, p1⟩ := x1
                    have hfr1 := DepthFirstRecursion_nodes alg _ _ _ _ _ _ _ h1
                    subst hfr1
                    rw [h1] at ih1
                    simp only [Option.map_some'] at ih1
                    have ih2 := ih (nodes.set s.split_index.toNat r) s.split_index p1
                      (by simpa using hle)
                    rw [List.set_take] at ih2
                    cases h2 : DepthFirstRecursion_ alg depth
                        ((nodes.take alg.tuple_size_).set s.split_index.toNat r) s.split_index
                        p1 with
                    | none =>
                      rw [h2] at ih2
                      simp only [DepthFirstRecursion_, hdebug, Bool.false_and,
                        Bool.false_eq_true, if_false, hcongr, hm, hal, hneg, hget, hsn, hl, hr,
                        h1, ih1, List.set_set, h2, ih2, Option.map_none']
                    | some x2 =>
                      obtain ⟨n2, nodes2, p2⟩ := x2
                      have hfr2 := DepthFirstRecursion_nodes alg _ _ _ _ _ _ _ h2
                      subst hfr2
                      rw [h2] at ih2
                      simp only [Option.map_some'] at ih2
                      simp only [DepthFirstRecursion_, hdebug, Bool.false_and,
                        Bool.false_eq_true, if_false, hcongr, hm, hal, hneg, hget, hsn, hl, hr,
                        h1, ih1, List.set_set, h2, ih2, hback, hback2, Option.map_some']

/-- Without the assertion of line 150, a call on an array shorter than
`tuple_size_` cannot reach the end of the main loop: it faults, or it is left
through a `return` of the main loop, which returns 0. -/
theorem DepthFirstRecursion_short (alg : NPointAlg D B) (hdebug : alg.debug = false)
    (nodes : List (NPointNode B)) (hlt : nodes.length < alg.tuple_size_) (depth : Nat)
    (previous_split : Int) (prunes : Nat) :
    DepthFirstRecursion_ alg depth nodes previous_split prunes = none
      ∨ ∃ s, mainLoop alg nodes (List.range alg.tuple_size_)
            ⟨true, -1, -1, List.replicate alg.matcher_.num_permutations alg.SUBSUME, prunes⟩
          = some (ScanExit.returned 0 s)
        ∧ DepthFirstRecursion_ alg depth nodes previous_split prunes
          = some (0, nodes, s.num_exclusion_prunes_) := by
  cases depth with
  | zero => exact Or.inl rfl
  | succ depth =>
    cases hm : mainLoop alg nodes (List.range alg.tuple_size_)
        ⟨true, -1, -1, List.replicate alg.matcher_.num_permutations alg.SUBSUME, prunes⟩ with
    | none =>
      left
      simp only [DepthFirstRecursion_, hdebug, Bool.false_and, Bool.false_eq_true, if_false, hm]
    | some x =>
      have hm2 := hm
      rw [List.range_eq_range'] at hm2
      cases x with
      | returned v s =>
        have hv := (mainLoop_exit alg nodes alg.tuple_size_ 0 _).1 v s hm2
        subst hv
        right
        refine ⟨s, rfl, ?_⟩
        simp only [DepthFirstRecursion_, hdebug, Bool.false_and, Bool.false_eq_true, if_false, hm]
      | completed s =>
        have := ((mainLoop_exit alg nodes alg.tuple_size_ 0 _).2 s hm2).1
        omega

/-- C13 (amended): what `DepthFirstRecursion_` does with a node array whose
length differs from `tuple_size_`. In a build that defines `DEBUG` the call
stops at the assertion of line 150: it has no result, it returns no count. In a
build without `DEBUG` the assertion is compiled out and the call proceeds. On a
longer array it is the call on the first `tuple_size_` nodes: it returns that
call's count and prune counter (and no result when that call has none) and
hands the whole array back. On a shorter array it never reaches the end of the
main loop: either it reads past the end of the array, or an order or exclusion
`return` of the main loop comes first and it returns 0. -/
theorem DepthFirstRecursion_length_mismatch (alg : NPointAlg D B) (nodes : List (NPointNode B))
    (hlen : nodes.length ≠ alg.tuple_size_) (depth : Nat) (previous_split : Int)
    (prunes : Nat) :
    (alg.debug = true →
        DepthFirstRecursion_ alg depth nodes previous_split prunes = none)
      ∧ (alg.debug = false → alg.tuple_size_ < nodes.length →
        DepthFirstRecursion_ alg depth nodes previous_split prunes
          = (DepthFirstRecursion_ alg depth (nodes.take alg.tuple_size_) previous_split
              prunes).map (fun r => (r.1, nodes, r.2.2)))
      ∧ (alg.debug = false → nodes.length < alg.tuple_size_ →
        DepthFirstRecursion_ alg depth nodes previous_split prunes = none
          ∨ ∃ s, mainLoop alg nodes (List.range alg.tuple_size_)
                ⟨true, -1, -1, List.replicate alg.matcher_.num_permutations alg.SUBSUME, prunes⟩
              = some (ScanExit.returned 0 s)
            ∧ DepthFirstRecursion_ alg depth nodes previous_split prunes
              = some (0, nodes, s.num_exclusion_prunes_)) := by
  refine ⟨?_, ?_, ?_⟩
  · intro hdebug
    cases depth with
    | zero => rfl
    | succ depth => simp [DepthFirstRecursion_, hdebug, hlen]
  · intro hdebug hlt
    exact DepthFirstRecursion_take alg hdebug depth nodes previous_split prunes (by omega)
  · intro hdebug hlt
    exact DepthFirstRecursion_short alg hdebug nodes hlt depth previous_split prunes

/-- C13 (amended) at tuple size 2 with three leaves in a build with `DEBUG`: the
call has no result. Without `DEBUG`, at tuple size 3 with two leaves: over
`[2, 4)`, `[0, 2)` the order test returns 0 before a third node is read; over
`[0, 2)`, `[2, 4)` the main loop reads past the end of the array. -/
theorem DepthFirstRecursion_length_mismatch_witness :
    (debugLineAlg (fun i => i) (fun _ => 1) 2 1).debug = true
      ∧ ([leafOver 0 1, leafOver 1 2, leafOver 2 3] : List (NPointNode Unit)).length
        ≠ (debugLineAlg (fun i => i) (fun _ => 1) 2 1).tuple_size_
      ∧ DepthFirstRecursion_ (debugLineAlg (fun i => i) (fun _ => 1) 2 1) 1
          [leafOver 0 1, leafOver 1 2, leafOver 2 3] (-1) 0 = none
      ∧ DepthFirstRecursion_ (lineAlg (fun i => i) (fun _ => 1) 3 1) 1
          [leafOver 2 4, leafOver 0 2] (-1) 0 = some (0, [leafOver 2 4, leafOver 0 2], 0)
      ∧ DepthFirstRecursion_ (lineAlg (fun i => i) (fun _ => 1) 3 1) 1
          [leafOver 0 2, leafOver 2 4] (-1) 0 = none :=
  ⟨by decide, by decide,
    (DepthFirstRecursion_length_mismatch (debugLineAlg (fun i => i) (fun _ => 1) 2 1)
      [leafOver 0 1, leafOver 1 2, leafOver 2 3] (by decide) 1 (-1) 0).1 (by decide),
    by decide, by decide⟩

theorem wrapInt_sum (a b : Nat) :
    wrapInt (wrapInt (0 + wrapInt (a : Int)) + wrapInt (b : Int))
      = wrapInt ((0 + a + b : Nat) : Int) := by
  unfold wrapInt
  push_cast
  omega

/-- The two readings of the count, for the traversal: with the `int` count it
returns what `DepthFirstRecursion_` with the count in `ℕ` returns, reduced to
the range of `int`; one call faults exactly when the other does. -/
theorem DepthFirstRecursionInt_eq (alg : NPointAlg D B) :
    ∀ (depth : Nat) (nodes : List (NPointNode B)) (previous_split : Int) (prunes : Nat),
      DepthFirstRecursionInt_ alg depth nodes previous_split prunes
        = (DepthFirstRecursion_ alg depth nodes previous_split prunes).map
            (fun r => (wrapInt (r.1 : Int), r.2.1, r.2.2)) := by
  intro depth
  induction depth with
  | zero => intro nodes p q; rfl
  | succ depth ih =>
    intro nodes p q
    simp only [DepthFirstRecursionInt_, DepthFirstRecursion_, BaseCaseInt_eq]
    split
    · rfl
    · cases hm : mainLoop alg nodes (List.range alg.tuple_size_)
          ⟨true, -1, -1, List.replicate alg.matcher_.num_permutations alg.SUBSUME, q⟩ with
      | none => rfl
      | some x =>
        cases x with
        | returned v s =>
          rw [List.range_eq_range'] at hm
          have hv := (mainLoop_exit alg nodes alg.tuple_size_ 0 _).1 v s hm
          subst hv
          have h0 : wrapInt ((0 : Nat) : Int) = ((0 : Nat) : Int) := by decide
          simp only [Option.map_some', h0]
        | completed s =>
          simp only []
          split
          · cases fillPointSets nodes (List.range alg.tuple_size_) with
            | none => rfl
            | some point_sets =>
              simp only []
              cases BaseCase_ alg point_sets 0 with
              | none => rfl
              | some y => rfl
          · split
            · rfl
            · cases nodes[s.split_index.toNat]? with
              | none => rfl
              | some split_node =>
                simp only []
                cases split_node.left with
                | none => rfl
                | some l =>
                  cases split_node.right with
                  | none => rfl
                  | some r =>
                    simp only [ih]
                    cases DepthFirstRecursion_ alg depth (nodes.set s.split_index.toNat l)
                        s.split_index s.num_exclusion_prunes_ with
                    | none => rfl
                    | some x1 =>
                      obtain ⟨n1, nodes1, p1⟩ := x1
                      simp only [Option.map_some']
                      cases DepthFirstRecursion_ alg depth (nodes1.set s.split_index.toNat r)
                          s.split_index p1 with
                      | none => rfl
                      | some x2 =>
                        obtain ⟨n2, nodes2, p2⟩ := x2
                        simp only [Option.map_some', wrapInt_sum]

end NPoint
